import Mathlib

/-!
# open-ethereum-pool (MVS fork): block unlocker and utilities

A shallow embedding of `payouts/unlocker.go` and `util/util.go`.

* `int64` values are `Int` (heights and block numbers, which are never negative on a chain, are
  `Nat`); `*big.Int` is `Int`, `*big.Rat` is `ℚ`, a nil pointer is `none`.
* `float64` is modelled exactly: a finite binary64 value is a sign, a natural mantissa and a binary
  exponent, and every arithmetic operation rounds the exact result to nearest, ties to even, the
  way IEEE 754 (and so Go) does.
* `map[string]int64` is an association list; a Go map holds each key once.
* A run-time panic (index out of range, nil dereference, division by zero) is `none`.
-/

namespace Pool

/-! ## binary64 arithmetic -/

/-- A finite `float64`: the value `(-1)^neg * m * 2^e`.  NaN and the infinities are not
represented: no operation below produces them from the values this program feeds it. -/
structure Float64 where
  neg : Bool
  m : Nat
  e : Int
deriving DecidableEq, Repr

/-- Number of binary digits of `n`, dropping 64, 8 or 1 low digits at a time; `fuel` bounds the
number of rounds. -/
def bitLenAux : Nat → Nat → Nat
  | 0, _ => 0
  | fuel + 1, n =>
    if n = 0 then 0
    else if 2 ^ 64 ≤ n then bitLenAux fuel (n / 2 ^ 64) + 64
    else if 2 ^ 8 ≤ n then bitLenAux fuel (n / 2 ^ 8) + 8
    else bitLenAux fuel (n / 2) + 1

/-- Number of binary digits of `n` (`0` for `0`). -/
def bitLen (n : Nat) : Nat := bitLenAux n n

/-- The fraction `N / D * 2^t` as a pair numerator, denominator. -/
def scale (N D : Nat) (t : Int) : Nat × Nat :=
  if 0 ≤ t then (N * 2 ^ t.toNat, D) else (N, D * 2 ^ (-t).toNat)

/-- Integer nearest to `A / B`, ties to the even one. -/
def rneDiv (A B : Nat) : Nat :=
  let q := A / B
  let r := A % B
  if B < 2 * r ∨ (2 * r = B ∧ q % 2 = 1) then q + 1 else q

/-- The integer `⌊log₂ (N / D)⌋` for positive `N` and `D`. -/
def floorLog2 (N D : Nat) : Int :=
  let l : Int := (bitLen N : Int) - (bitLen D : Int)
  let p := scale N D (-l)
  if p.2 ≤ p.1 then l else l - 1

namespace Float64

/-- The binary64 value nearest to `(-1)^neg * N / D * 2^s` (ties to even): 53 significant bits,
and no bit below `2^-1074` (gradual underflow). -/
def round (neg : Bool) (N D : Nat) (s : Int) : Float64 :=
  if N = 0 then ⟨neg, 0, 0⟩
  else
    let e := max (floorLog2 N D + s - 52) (-1074)
    let p := scale N D (s - e)
    ⟨neg, rneDiv p.1 p.2, e⟩

/-- Exact rational value. -/
def toRat (x : Float64) : ℚ :=
  (if x.neg then -1 else 1) * (x.m : ℚ) * (2 : ℚ) ^ x.e

/-- Absolute value as a rational. -/
def mag (x : Float64) : ℚ := (x.m : ℚ) * (2 : ℚ) ^ x.e

/-- Conversion of a natural number below `2^53` (exact). -/
def ofNat (n : Nat) : Float64 := ⟨false, n, 0⟩

/-- The `float64` product `x * y`. -/
def mul (x y : Float64) : Float64 :=
  round (xor x.neg y.neg) (x.m * y.m) 1 (x.e + y.e)

/-- The `float64` quotient `x / y` for `y ≠ 0`. -/
def div (x y : Float64) : Float64 :=
  round (xor x.neg y.neg) x.m y.m (x.e - y.e)

/-- Signed integer `(-1)^neg * n`. -/
def signed (neg : Bool) (n : Nat) : Int := if neg then -(n : Int) else (n : Int)

/-- The `float64` sum `x + y`. -/
def add (x y : Float64) : Float64 :=
  let e := min x.e y.e
  let s : Int := signed x.neg (x.m * 2 ^ (x.e - e).toNat) + signed y.neg (y.m * 2 ^ (y.e - e).toNat)
  if s = 0 then ⟨x.neg && y.neg, 0, 0⟩ else round (decide (s < 0)) s.natAbs 1 e

/-- The comparison `x < 0.5`. -/
def ltHalf (x : Float64) : Bool :=
  if x.m = 0 then true
  else if x.neg then true
  else decide ((scale x.m 1 (x.e + 1)).1 < (scale x.m 1 (x.e + 1)).2)

/-- The conversion `int64(x)`: truncation toward zero (for `|x| < 2^63`). -/
def toInt64 (x : Float64) : Int :=
  signed x.neg ((scale x.m 1 x.e).1 / (scale x.m 1 x.e).2)

end Float64

/-- Go `math.Frexp` on a finite value: `x = frac * 2^exp` with `1/2 ≤ |frac| < 1`
(and `(x, 0)` for zero). -/
def Frexp (x : Float64) : Float64 × Int :=
  if x.m = 0 then (x, 0) else (⟨x.neg, x.m, -(bitLen x.m : Int)⟩, x.e + bitLen x.m)

/-- Go `math.Ldexp`: `frac * 2^exp`, rounded once when the result is subnormal. -/
def Ldexp (frac : Float64) (exp : Int) : Float64 :=
  Float64.round frac.neg frac.m 1 (frac.e + exp)

/-- The loop of Go `math.Pow` that multiplies the answer `a1 * 2^ae` by `x^i` for the integer
`i`, by repeated squaring of `x = x1 * 2^xe`:
```go
for i := int64(yi); i != 0; i >>= 1 {
    if xe < -1<<12 || 1<<12 < xe { ae += xe; break }
    if i&1 == 1 { a1 *= x1; ae += xe }
    x1 *= x1
    xe <<= 1
    if x1 < .5 { x1 += x1; xe-- }
}
```
The first argument bounds the number of iterations (an `int64` has 64 bits). -/
def powLoop : Nat → Nat → Float64 → Int → Float64 → Int → Float64 × Int
  | 0, _, _, _, a1, ae => (a1, ae)
  | fuel + 1, i, x1, xe, a1, ae =>
    if i = 0 then (a1, ae)
    else if xe < -4096 ∨ 4096 < xe then (a1, ae + xe)
    else
      let a2 := if i % 2 = 1 then a1.mul x1 else a1
      let ae2 := if i % 2 = 1 then ae + xe else ae
      let x2 := x1.mul x1
      if x2.ltHalf then powLoop fuel (i / 2) (x2.add x2) (2 * xe - 1) a2 ae2
      else powLoop fuel (i / 2) x2 (2 * xe) a2 ae2

/-- Go `math.Pow(x, y)` for finite `x > 0` and an exponent `y` that is a non-negative integer
below `2^63` (so `yf = 0` and none of the NaN, infinity, zero or square-root cases apply). -/
def Pow (x : Float64) (y : Nat) : Float64 :=
  if y = 0 ∨ x = Float64.ofNat 1 then Float64.ofNat 1
  else if y = 1 then x
  else
    let r := powLoop 64 y (Frexp x).1 (Frexp x).2 (Float64.ofNat 1) 0
    Ldexp r.1 r.2

/-- The constant `0.95` as a `float64`: the binary64 value nearest to `95/100`. -/
def c095 : Float64 := Float64.round false 95 100 0

/-- Source `getConstReward`:
`big.NewInt(int64(300000000 * math.Pow(0.95, float64(height/500000))))`.
The conversion `float64(height/500000)` is exact for every `int64` height. -/
def getConstReward (height : Nat) : Int :=
  Float64.toInt64 (Float64.mul (Float64.ofNat 300000000) (Pow c095 (height / 500000)))

/-- Equality of results is decidable. -/
instance instDecidableEqExcept {ε α : Type} [DecidableEq ε] [DecidableEq α] :
    DecidableEq (Except ε α) := fun a b =>
  match a, b with
  | .ok x, .ok y => if h : x = y then isTrue (by rw [h]) else isFalse (fun h2 => h (by cases h2; rfl))
  | .error x, .error y =>
    if h : x = y then isTrue (by rw [h]) else isFalse (fun h2 => h (by cases h2; rfl))
  | .ok _, .error _ => isFalse (fun h => by cases h)
  | .error _, .ok _ => isFalse (fun h => by cases h)

/-! ## Strings and `strconv` -/

/-- Go `len(s)` of a string: its number of bytes. -/
def len (s : String) : Nat := s.utf8ByteSize

/-- Go `strings.Replace(s, "0x", "", -1)`: every non-overlapping `0x`, from the left, removed. -/
def removeAll0x : List Char → List Char
  | '0' :: 'x' :: rest => removeAll0x rest
  | c :: rest => c :: removeAll0x rest
  | [] => []

/-- Go `strings.EqualFold` on ASCII strings (block hashes are hexadecimal): equality up to the
case of the letters `A-Z`. -/
def EqualFold (s t : String) : Bool :=
  s.toList.map Char.toLower == t.toList.map Char.toLower

/-- Value of a character as a digit in `strconv.ParseUint`: `0-9`, then the letters of either
case from 10 on. -/
def digitVal (c : Char) : Option Nat :=
  if '0' ≤ c ∧ c ≤ '9' then some (c.toNat - '0'.toNat)
  else if 'a' ≤ c ∧ c ≤ 'z' then some (c.toNat - 'a'.toNat + 10)
  else if 'A' ≤ c ∧ c ≤ 'Z' then some (c.toNat - 'A'.toNat + 10)
  else none

/-- The two errors of `strconv`. -/
inductive NumError
  | ErrSyntax
  | ErrRange
deriving DecidableEq, Repr

/-- The digit loop of Go `strconv.ParseUint(s, base, 64)` for `base` 10 or 16: a character that
is no digit of the base is a syntax error, a value above `2^64 - 1` a range error. -/
def parseUintLoop (base : Nat) : List Char → Nat → Except NumError Nat
  | [], n => .ok n
  | c :: cs, n =>
    match digitVal c with
    | none => .error .ErrSyntax
    | some d =>
      if base ≤ d then .error .ErrSyntax
      else if (2 ^ 64 - 1) / base + 1 ≤ n then .error .ErrRange
      else if 2 ^ 64 - 1 < n * base + d then .error .ErrRange
      else parseUintLoop base cs (n * base + d)

/-- Go `strconv.ParseUint(s, base, 64)` for `base` 10 or 16. -/
def ParseUint (s : List Char) (base : Nat) : Except NumError Nat :=
  if s = [] then .error .ErrSyntax else parseUintLoop base s 0

/-- The value Go `strconv.ParseInt(s, base, 64)` returns, for `base` 10 or 16; every caller in
this program discards the error.  A syntax error gives 0, a range error the nearest `int64`. -/
def ParseInt (s : String) (base : Nat) : Int :=
  match s.toList with
  | [] => 0
  | c :: cs =>
    let neg : Bool := c = '-'
    let body := if c = '+' ∨ c = '-' then cs else c :: cs
    match ParseUint body base with
    | .error .ErrSyntax => 0
    | .error .ErrRange => if neg then -(2 ^ 63) else 2 ^ 63 - 1
    | .ok un =>
      if ¬ neg ∧ 2 ^ 63 ≤ un then 2 ^ 63 - 1
      else if neg ∧ 2 ^ 63 < un then -(2 ^ 63)
      else if neg then -(un : Int) else (un : Int)

/-- Decimal digit character. -/
def digitChar (d : Nat) : Char := Char.ofNat ('0'.toNat + d)

/-- Decimal digits of `n` put in front of `acc`. -/
def utoaAux : Nat → Nat → List Char → List Char
  | 0, _, acc => acc
  | fuel + 1, n, acc =>
    if n < 10 then digitChar n :: acc else utoaAux fuel (n / 10) (digitChar (n % 10) :: acc)

/-- Decimal representation of a natural number (`"0"` for zero), as `math/big` prints it. -/
def utoa (n : Nat) : List Char := utoaAux (n + 1) n []

/-- Go `(*big.Rat).FloatString(0)`: the decimal string of `x` with no digit after the point, the
last digit rounded to nearest, halves away from zero:
```go
if x.IsInt() { return x.a.String() }
q, r := div(x.a.abs, x.b.abs)
if x.b.abs.cmp(r + r) <= 0 { q = q + 1 }
if x.a.neg { buf = append(buf, '-') }
buf = append(buf, q.utoa(10)...)
``` -/
def FloatString0 (x : ℚ) : String :=
  if x.den = 1 then
    String.mk ((if x.num < 0 then ['-'] else []) ++ utoa x.num.natAbs)
  else
    let q := x.num.natAbs / x.den
    let r := x.num.natAbs % x.den
    let q1 := if x.den ≤ 2 * r then q + 1 else q
    String.mk ((if x.num < 0 then ['-'] else []) ++ utoa q1)

/-- Wrap-around of `int64` arithmetic. -/
def wrap64 (x : Int) : Int := (x + 2 ^ 63) % 2 ^ 64 - 2 ^ 63

/-- Wrap-around of `int32` arithmetic, and the conversion `int32(i)`. -/
def wrap32 (x : Int) : Int := (x + 2 ^ 31) % 2 ^ 32 - 2 ^ 31

/-! ## Data -/

/-- Source `rpc.MVSTxOutput`. -/
structure MVSTxOutput where
  Address : String
  Value : Int
deriving DecidableEq, Repr

/-- Source `rpc.MVSTx` (the fields the unlocker reads). -/
structure MVSTx where
  Hash : String
  Outputs : List MVSTxOutput
deriving DecidableEq, Repr

/-- Source `rpc.GetBlockReply` (the fields the unlocker reads). -/
structure GetBlockReply where
  Hash : String
  Nonce : String
  Number : Nat
  Transactions : List MVSTx
deriving DecidableEq, Repr

/-- Modelled from the spec: `storage.BlockData`, the persisted block candidate, whose declaration
is in the storage package; the fields are those of the spec's data model that `unlocker.go`
reads and writes. -/
structure BlockData where
  Height : Nat
  RoundHeight : Int
  Nonce : String
  Hash : String
  Orphan : Bool
  TotalShares : Int
  Reward : Option Int
  ExtraReward : Option Int
deriving DecidableEq, Repr

/-- Source `UnlockerConfig` (the fields the unlocker reads after start-up).  `PoolFee` is decoded
from JSON, which has no NaN and no infinity, so it is a finite `float64`. -/
structure UnlockerConfig where
  PoolFee : Float64
  PoolFeeAddress : String
  Donate : Bool
  Depth : Int
  ImmatureDepth : Int
  KeepTxFees : Bool
  Address : String
deriving DecidableEq, Repr

/-- The errors the unlocker handles, in place of Go error strings. -/
inductive UnlockError
  /-- An error returned by the node's RPC client. -/
  | node (msg : String)
  /-- An error returned by the backend. -/
  | backend (msg : String)
  /-- "Error while retrieving block from node, wrong node height". -/
  | wrongNodeHeight (height : Nat)
  /-- "Error while fetching TX receipt: coinbase invalid output length". -/
  | coinbaseOutputLength
  /-- "extraTxReward must be >= reward". -/
  | rewardBelowBase (coinbaseValue reward : Int)
deriving DecidableEq, Repr

/-- Donate 10% from pool fees to developers. -/
def donationFee : Float64 := Float64.ofNat 10

/-- The donation account; `strings.ToLower` leaves it as it is. -/
def donationAccount : String := "0xb85150eb365e7df0941f0cf08235f987ba91506a"

/-! ## Block matching and rewards (`payouts/unlocker.go`) -/

/-- Source `matchCandidate`; `none` is the index-out-of-range panic of
`block.Transactions[0].Outputs[0]`. -/
def matchCandidate (cfg : UnlockerConfig) (block : GetBlockReply) (candidate : BlockData) :
    Option Bool :=
  match block.Transactions with
  | [] => none
  | tx :: _ =>
    match tx.Outputs with
    | [] => none
    | out :: _ =>
      if out.Address ≠ cfg.Address then some false
      else if 0 < len candidate.Hash ∧ EqualFold candidate.Hash block.Hash = false then some false
      else
        let nonce1 := ParseInt block.Nonce 10
        let nonce2 := ParseInt (String.mk (removeAll0x candidate.Nonce.toList)) 16
        some (decide (nonce1 = nonce2))

/-- Source `getRewardWithFee`; `none` is the panic of `block.Transactions[0]`. -/
def getRewardWithFee (block : GetBlockReply) : Option (Except UnlockError Int) :=
  match block.Transactions with
  | [] => none
  | tx :: _ =>
    match tx.Outputs with
    | [out] => some (.ok out.Value)
    | _ => some (.error .coinbaseOutputLength)

/-- Source `handleBlock`: the candidate as the call leaves it, and the error returned (`none` for
`nil`); the outer `none` is a panic. -/
def handleBlock (cfg : UnlockerConfig) (block : GetBlockReply) (candidate : BlockData) :
    Option (BlockData × Option UnlockError) :=
  let candidate := { candidate with Height := block.Number }
  let reward := getConstReward candidate.Height
  match getRewardWithFee block with
  | none => none
  | some (.error err) => some (candidate, some err)
  | some (.ok coinbaseValue) =>
    if coinbaseValue < reward then some (candidate, some (.rewardBelowBase coinbaseValue reward))
    else
      let extraTxReward := coinbaseValue - reward
      let candidate :=
        if cfg.KeepTxFees then { candidate with ExtraReward := some extraTxReward } else candidate
      let reward := if cfg.KeepTxFees then reward else reward + extraTxReward
      some ({ candidate with Orphan := false, Hash := block.Hash, Reward := some reward }, none)

/-- Source `chargeFee`: new value after fee deduction and fee value.  `SetFloat64` takes the exact
value of the `float64` quotient `fee / 100`. -/
def chargeFee (value : ℚ) (fee : Float64) : ℚ × ℚ :=
  let feePercent : ℚ := (fee.div (Float64.ofNat 100)).toRat
  let feeValue := value * feePercent
  (value - feeValue, feeValue)

/-- The statement `rewards[login] += fee` on a `map[string]int64`. -/
def mapAdd : List (String × Int) → String → Int → List (String × Int)
  | [], login, fee => [(login, wrap64 (0 + fee))]
  | (k, v) :: rest, login, fee =>
    if k = login then (k, wrap64 (v + fee)) :: rest else (k, v) :: mapAdd rest login fee

/-- The value `rewards[login]` of a `map[string]int64` (0 for a missing key). -/
def mapGet (rewards : List (String × Int)) (login : String) : Int :=
  match rewards.lookup login with
  | some v => v
  | none => 0

/-- The loop of `calculateRewardsForShares` over the entries of `shares`; `none` is the
division-by-zero panic of `big.NewRat(n, 0)`. -/
def sharesLoop (total : Int) (reward : ℚ) :
    List (String × Int) → List (String × Int) → Option (List (String × Int))
  | [], rewards => some rewards
  | (login, n) :: rest, rewards =>
    if total = 0 then none
    else
      let percent : ℚ := (n : ℚ) / (total : ℚ)
      let workerReward := reward * percent
      let fee := ParseInt (FloatString0 workerReward) 10
      sharesLoop total reward rest (mapAdd rewards login fee)

/-- Source `calculateRewardsForShares`. -/
def calculateRewardsForShares (shares : List (String × Int)) (total : Int) (reward : ℚ) :
    Option (List (String × Int)) :=
  sharesLoop total reward shares []

/-- The four values `calculateRewards` returns beside the error. -/
structure Rewards where
  revenue : ℚ
  minersProfit : ℚ
  poolProfit : ℚ
  rewards : List (String × Int)
deriving DecidableEq

/-- Source `calculateRewards`, given the answer `shares` of the backend's `GetRoundShares`.
The outer `none` is a panic (nil `Reward`, or a zero `TotalShares` with shares to credit). -/
def calculateRewards (cfg : UnlockerConfig) (shares : Except UnlockError (List (String × Int)))
    (block : BlockData) : Option (Except UnlockError Rewards) :=
  match block.Reward with
  | none => none
  | some blockReward =>
    let revenue : ℚ := (blockReward : ℚ)
    let minersProfit := (chargeFee revenue cfg.PoolFee).1
    let poolProfit := (chargeFee revenue cfg.PoolFee).2
    match shares with
    | .error err => some (.error err)
    | .ok shares =>
      match calculateRewardsForShares shares block.TotalShares minersProfit with
      | none => none
      | some rewards =>
        let poolProfit := match block.ExtraReward with
          | some extra => poolProfit + (extra : ℚ)
          | none => poolProfit
        let revenue := match block.ExtraReward with
          | some extra => revenue + (extra : ℚ)
          | none => revenue
        let donation := (chargeFee poolProfit donationFee).2
        let rewards :=
          if cfg.Donate then mapAdd rewards donationAccount (ParseInt (FloatString0 donation) 10)
          else rewards
        let poolProfit := if cfg.Donate then (chargeFee poolProfit donationFee).1 else poolProfit
        let rewards :=
          if len cfg.PoolFeeAddress ≠ 0 then
            mapAdd rewards cfg.PoolFeeAddress (ParseInt (FloatString0 poolProfit) 10)
          else rewards
        some (.ok ⟨revenue, minersProfit, poolProfit, rewards⟩)

/-! ## The unlocker (`payouts/unlocker.go`) -/

/-- A call the unlocker makes to the node (`rpc.RPCClient`) or to the backend
(`storage.RedisClient`), with its arguments. -/
inductive Event
  | GetPendingBlock
  | GetBlockByHeight (height : Nat)
  | GetCandidates (maxHeight : Int)
  | GetImmatureBlocks (maxHeight : Int)
  | GetRoundShares (roundHeight : Int) (nonce : String)
  | WritePendingOrphans (blocks : List BlockData)
  | WriteOrphan (block : BlockData)
  | WriteImmatureBlock (block : BlockData) (rewards : List (String × Int))
  | WriteMaturedBlock (block : BlockData) (rewards : List (String × Int))
deriving DecidableEq

/-- Modelled from the spec: the node and the backend, which are outside this package.  Each
function gives the answer to a call made after the given history of calls: a value or an error
for a read (`GetPendingBlock` and `GetBlockByHeight` may also answer `nil` without error), an
error or `nil` for a write. -/
structure World where
  GetPendingBlock : List Event → Except UnlockError (Option Nat)
  GetBlockByHeight : List Event → Nat → Except UnlockError (Option GetBlockReply)
  GetCandidates : List Event → Int → Except UnlockError (List BlockData)
  GetImmatureBlocks : List Event → Int → Except UnlockError (List BlockData)
  GetRoundShares : List Event → Int → String → Except UnlockError (List (String × Int))
  WritePendingOrphans : List Event → List BlockData → Option UnlockError
  WriteOrphan : List Event → BlockData → Option UnlockError
  WriteImmatureBlock : List Event → BlockData → List (String × Int) → Option UnlockError
  WriteMaturedBlock : List Event → BlockData → List (String × Int) → Option UnlockError

/-- Source `BlockUnlocker`: the two mutable fields, and the history of the calls made so far to
the node and the backend. -/
structure BlockUnlocker where
  halt : Bool
  lastFail : Option UnlockError
  calls : List Event
deriving DecidableEq

/-- Source `UnlockResult`. -/
structure UnlockResult where
  maturedBlocks : List BlockData
  orphanedBlocks : List BlockData
  orphans : Int
  uncles : Int
  blocks : Int
deriving DecidableEq

/-- The statements `u.halt = true; u.lastFail = err`. -/
def BlockUnlocker.fail (u : BlockUnlocker) (err : UnlockError) : BlockUnlocker :=
  { u with halt := true, lastFail := some err }

/-- The unlocker after one more call to the node or the backend. -/
def BlockUnlocker.call (u : BlockUnlocker) (ev : Event) : BlockUnlocker :=
  { u with calls := u.calls ++ [ev] }

/-- The loop of `unlockCandidates` over the candidates left, with the result so far.  `none` is
a panic: of `matchCandidate` or `handleBlock`, or of `candidate.Hash[0:10]` in the log line of a
matured block. -/
def unlockCandidatesLoop (w : World) (cfg : UnlockerConfig) :
    List BlockData → BlockUnlocker → UnlockResult →
      Option (BlockUnlocker × Except UnlockError UnlockResult)
  | [], u, result => some (u, .ok result)
  | candidate :: rest, u, result =>
    let height := candidate.Height
    let u1 := u.call (.GetBlockByHeight height)
    match w.GetBlockByHeight u.calls height with
    | .error err => some (u1, .error err)
    | .ok none => some (u1, .error (.wrongNodeHeight height))
    | .ok (some block) =>
      match matchCandidate cfg block candidate with
      | none => none
      | some true =>
        match handleBlock cfg block candidate with
        | none => none
        | some (_, some err) => some (u1.fail err, .error err)
        | some (candidate, none) =>
          if len candidate.Hash < 10 then none
          else
            unlockCandidatesLoop w cfg rest u1
              { result with
                blocks := result.blocks + 1
                maturedBlocks := result.maturedBlocks ++ [candidate] }
      | some false =>
        unlockCandidatesLoop w cfg rest u1
          { result with
            orphans := result.orphans + 1
            orphanedBlocks := result.orphanedBlocks ++ [{ candidate with Orphan := true }] }

/-- Source `unlockCandidates`. -/
def unlockCandidates (w : World) (cfg : UnlockerConfig) (candidates : List BlockData)
    (u : BlockUnlocker) : Option (BlockUnlocker × Except UnlockError UnlockResult) :=
  unlockCandidatesLoop w cfg candidates u ⟨[], [], 0, 0, 0⟩

/-- The loop of `unlockPendingBlocks` over `result.maturedBlocks`. -/
def creditImmature (w : World) (cfg : UnlockerConfig) :
    List BlockData → BlockUnlocker → Option BlockUnlocker
  | [], u => some u
  | block :: rest, u =>
    let u1 := u.call (.GetRoundShares block.RoundHeight block.Nonce)
    match calculateRewards cfg (w.GetRoundShares u.calls block.RoundHeight block.Nonce) block with
    | none => none
    | some (.error err) => some (u1.fail err)
    | some (.ok r) =>
      let u2 := u1.call (.WriteImmatureBlock block r.rewards)
      match w.WriteImmatureBlock u1.calls block r.rewards with
      | some err => some (u2.fail err)
      | none => creditImmature w cfg rest u2

/-- The loop of `unlockAndCreditMiners` over `result.maturedBlocks`. -/
def creditMatured (w : World) (cfg : UnlockerConfig) :
    List BlockData → BlockUnlocker → Option BlockUnlocker
  | [], u => some u
  | block :: rest, u =>
    let u1 := u.call (.GetRoundShares block.RoundHeight block.Nonce)
    match calculateRewards cfg (w.GetRoundShares u.calls block.RoundHeight block.Nonce) block with
    | none => none
    | some (.error err) => some (u1.fail err)
    | some (.ok r) =>
      let u2 := u1.call (.WriteMaturedBlock block r.rewards)
      match w.WriteMaturedBlock u1.calls block r.rewards with
      | some err => some (u2.fail err)
      | none => creditMatured w cfg rest u2

/-- The loop of `unlockAndCreditMiners` over `result.orphanedBlocks`: the unlocker, and whether
a write failed. -/
def writeOrphans (w : World) : List BlockData → BlockUnlocker → BlockUnlocker × Bool
  | [], u => (u, false)
  | block :: rest, u =>
    let u1 := u.call (.WriteOrphan block)
    match w.WriteOrphan u.calls block with
    | some err => (u1.fail err, true)
    | none => writeOrphans w rest u1

/-- Source `unlockPendingBlocks`; `none` is a panic. -/
def unlockPendingBlocks (w : World) (cfg : UnlockerConfig) (u : BlockUnlocker) :
    Option BlockUnlocker :=
  if u.halt then some u
  else
    let u1 := u.call .GetPendingBlock
    match w.GetPendingBlock u.calls with
    | .error err => some (u1.fail err)
    | .ok none => none
    | .ok (some number) =>
      let currentHeight := wrap64 (number : Int)
      let maxHeight := wrap64 (currentHeight - cfg.ImmatureDepth)
      let u2 := u1.call (.GetCandidates maxHeight)
      match w.GetCandidates u1.calls maxHeight with
      | .error err => some (u2.fail err)
      | .ok candidates =>
        if candidates.length = 0 then some u2
        else
          match unlockCandidates w cfg candidates u2 with
          | none => none
          | some (u3, .error err) => some (u3.fail err)
          | some (u3, .ok result) =>
            let u4 := u3.call (.WritePendingOrphans result.orphanedBlocks)
            match w.WritePendingOrphans u3.calls result.orphanedBlocks with
            | some err => some (u4.fail err)
            | none => creditImmature w cfg result.maturedBlocks u4

/-- Source `unlockAndCreditMiners`; `none` is a panic. -/
def unlockAndCreditMiners (w : World) (cfg : UnlockerConfig) (u : BlockUnlocker) :
    Option BlockUnlocker :=
  if u.halt then some u
  else
    let u1 := u.call .GetPendingBlock
    match w.GetPendingBlock u.calls with
    | .error err => some (u1.fail err)
    | .ok none => none
    | .ok (some number) =>
      let currentHeight := wrap64 (number : Int)
      let maxHeight := wrap64 (currentHeight - cfg.Depth)
      let u2 := u1.call (.GetImmatureBlocks maxHeight)
      match w.GetImmatureBlocks u1.calls maxHeight with
      | .error err => some (u2.fail err)
      | .ok immature =>
        if immature.length = 0 then some u2
        else
          match unlockCandidates w cfg immature u2 with
          | none => none
          | some (u3, .error err) => some (u3.fail err)
          | some (u3, .ok result) =>
            match writeOrphans w result.orphanedBlocks u3 with
            | (u4, true) => some u4
            | (u4, false) => creditMatured w cfg result.maturedBlocks u4

/-- The two phases of a tick of `Start`. -/
inductive Phase
  | unlockPendingBlocks
  | unlockAndCreditMiners
deriving DecidableEq

/-- A sequence of phases, run in order as the timer loop of `Start` does; `none` is a panic. -/
def runPhases (w : World) (cfg : UnlockerConfig) : List Phase → BlockUnlocker → Option BlockUnlocker
  | [], u => some u
  | .unlockPendingBlocks :: rest, u =>
    match unlockPendingBlocks w cfg u with
    | none => none
    | some u1 => runPhases w cfg rest u1
  | .unlockAndCreditMiners :: rest, u =>
    match unlockAndCreditMiners w cfg u with
    | none => none
    | some u1 => runPhases w cfg rest u1

/-- A node and a backend that fail every call. -/
def deadWorld : World where
  GetPendingBlock := fun _ => .error (.node "down")
  GetBlockByHeight := fun _ _ => .error (.node "down")
  GetCandidates := fun _ _ => .error (.backend "down")
  GetImmatureBlocks := fun _ _ => .error (.backend "down")
  GetRoundShares := fun _ _ _ => .error (.backend "down")
  WritePendingOrphans := fun _ _ => some (.backend "down")
  WriteOrphan := fun _ _ => some (.backend "down")
  WriteImmatureBlock := fun _ _ _ => some (.backend "down")
  WriteMaturedBlock := fun _ _ _ => some (.backend "down")

/-- Whether a call writes to the backend. -/
def Event.isWrite : Event → Bool
  | .WritePendingOrphans _ => true
  | .WriteOrphan _ => true
  | .WriteImmatureBlock _ _ => true
  | .WriteMaturedBlock _ _ => true
  | _ => false

/-- The call by which a phase loads its candidates when the node is at height `number`. -/
def Phase.loadEvent (cfg : UnlockerConfig) (number : Nat) : Phase → Event
  | .unlockPendingBlocks => .GetCandidates (wrap64 (wrap64 (number : Int) - cfg.ImmatureDepth))
  | .unlockAndCreditMiners => .GetImmatureBlocks (wrap64 (wrap64 (number : Int) - cfg.Depth))

/-- The answer of the backend to the call by which a phase loads its candidates. -/
def Phase.load (w : World) (cfg : UnlockerConfig) (number : Nat) (calls : List Event) :
    Phase → Except UnlockError (List BlockData)
  | .unlockPendingBlocks =>
    w.GetCandidates calls (wrap64 (wrap64 (number : Int) - cfg.ImmatureDepth))
  | .unlockAndCreditMiners =>
    w.GetImmatureBlocks calls (wrap64 (wrap64 (number : Int) - cfg.Depth))

/-- A node at height `number` that serves the blocks `chain`, and a backend that holds
`candidates` in both of its lists, has no round shares and accepts every write. -/
def constWorld (number : Nat) (chain : Nat → Option GetBlockReply) (candidates : List BlockData) :
    World where
  GetPendingBlock := fun _ => .ok (some number)
  GetBlockByHeight := fun _ height => .ok (chain height)
  GetCandidates := fun _ _ => .ok candidates
  GetImmatureBlocks := fun _ _ => .ok candidates
  GetRoundShares := fun _ _ _ => .ok []
  WritePendingOrphans := fun _ _ => none
  WriteOrphan := fun _ _ => none
  WriteImmatureBlock := fun _ _ _ => none
  WriteMaturedBlock := fun _ _ _ => none

/-- A chain of two blocks for a pool at address `MADDR`: block 10 pays another address, block 11
pays the pool through a coinbase of two outputs. -/
def exampleChain (height : Nat) : Option GetBlockReply :=
  if height = 10 then some ⟨"00000000aa", "16", 10, [⟨"tx10", [⟨"MOTHER", 300000000⟩]⟩]⟩
  else if height = 11 then
    some ⟨"00000000bb", "17", 11, [⟨"tx11", [⟨"MADDR", 300000000⟩, ⟨"MADDR", 1⟩]⟩]⟩
  else none

/-! ## Targets (`util/util.go`) -/

/-- Source `pow256`. -/
def pow256 : Nat := 2 ^ 256

/-- Big-endian bytes of `n` put in front of `acc`. -/
def bytesAux : Nat → Nat → List Nat → List Nat
  | 0, _, acc => acc
  | fuel + 1, n, acc => if n = 0 then acc else bytesAux fuel (n / 256) (n % 256 :: acc)

/-- Go `(*big.Int).Bytes` of a natural number: its big-endian bytes, none for zero. -/
def Bytes (n : Nat) : List Nat := bytesAux n n []

/-- Go `(*big.Int).SetBytes`: the number with the given big-endian bytes. -/
def SetBytes (bs : List Nat) : Nat := bs.foldl (fun acc b => acc * 256 + b) 0

/-- The character of `"0123456789abcdef"` at index `d`. -/
def hexChar (d : Nat) : Char :=
  if d < 10 then Char.ofNat ('0'.toNat + d) else Char.ofNat ('a'.toNat + (d - 10))

/-- Go `encoding/hex`: value of a hexadecimal digit of either case. -/
def fromHexChar (c : Char) : Option Nat :=
  if '0' ≤ c ∧ c ≤ '9' then some (c.toNat - '0'.toNat)
  else if 'a' ≤ c ∧ c ≤ 'f' then some (c.toNat - 'a'.toNat + 10)
  else if 'A' ≤ c ∧ c ≤ 'F' then some (c.toNat - 'A'.toNat + 10)
  else none

/-- Source (go-ethereum) `common.Bytes2Hex`: two lower-case hexadecimal digits a byte. -/
def Bytes2Hex : List Nat → List Char
  | [] => []
  | b :: bs => hexChar (b / 16) :: hexChar (b % 16) :: Bytes2Hex bs

/-- Source (go-ethereum) `common.Hex2Bytes`: `hex.DecodeString` with the error dropped, which
gives the bytes decoded before the first character that is no hexadecimal digit. -/
def Hex2Bytes : List Char → List Nat
  | p :: q :: rest =>
    match fromHexChar p, fromHexChar q with
    | some a, some b => (a * 16 + b) :: Hex2Bytes rest
    | _, _ => []
  | _ => []

/-- Source (go-ethereum) `common.ToHex`: `"0x"` and the hexadecimal digits, `"0x0"` for no
bytes. -/
def ToHex (b : List Nat) : String :=
  let hex := Bytes2Hex b
  String.mk ('0' :: 'x' :: (if hex.length = 0 then ['0'] else hex))

/-- Source (go-ethereum) `common.FromHex`: an optional `0x` or `0X` is dropped and an odd number
of digits is completed by a leading `0`. -/
def FromHex (s : String) : List Nat :=
  let cs := s.toList
  let cs := match cs with
    | '0' :: 'x' :: rest => rest
    | '0' :: 'X' :: rest => rest
    | _ => cs
  let cs := if cs.length % 2 = 1 then '0' :: cs else cs
  Hex2Bytes cs

/-- Source `GetTargetHex`; `none` is the division-by-zero panic of `big.Int.Div`. -/
def GetTargetHex (diff : Int) : Option String :=
  if diff = 0 then none else some (ToHex (Bytes (Int.ediv (pow256 : Int) diff).natAbs))

/-- Source `TargetHexToDiff`; `none` is the division-by-zero panic of `big.Int.Div`. -/
def TargetHexToDiff (targetHex : String) : Option Int :=
  if SetBytes (FromHex targetHex) = 0 then none
  else some ((pow256 / SetBytes (FromHex targetHex) : Nat) : Int)

/-! ## Upstream health (`rpc/rpc.go`) -/

/-- Source `rpc.RPCClient`: the health fields, which `markSick` and `markAlive` guard by the
client's lock.  The counters are Go `int`s, 64 bits wide on the platforms the pool runs on,
whose increments wrap around. -/
structure RPCClient where
  sick : Bool
  sickRate : Int
  successRate : Int
deriving DecidableEq, Repr

/-- A client as `NewRPCClient` creates it. -/
def RPCClient.fresh : RPCClient := ⟨false, 0, 0⟩

/-- Source `markSick`. -/
def RPCClient.markSick (r : RPCClient) : RPCClient :=
  let sickRate := wrap64 (r.sickRate + 1)
  { sick := if 5 ≤ sickRate then true else r.sick, sickRate := sickRate, successRate := 0 }

/-- Source `markAlive`. -/
def RPCClient.markAlive (r : RPCClient) : RPCClient :=
  let successRate := wrap64 (r.successRate + 1)
  if 5 ≤ successRate then { sick := false, sickRate := 0, successRate := 0 }
  else { r with successRate := successRate }

/-- Source `Sick`. -/
def RPCClient.Sick (r : RPCClient) : Bool := r.sick

/-- The two health updates. -/
inductive HealthOp
  | markSick
  | markAlive
deriving DecidableEq, Repr

/-- A sequence of health updates applied in order. -/
def RPCClient.apply (r : RPCClient) : List HealthOp → RPCClient
  | [] => r
  | .markSick :: ops => (r.markSick).apply ops
  | .markAlive :: ops => (r.markAlive).apply ops

/-- What the `getwork` request of `GetWork` comes to. -/
inductive GetWorkOutcome
  /-- `doPost` returns an error (transport, decoding or RPC error), after `markSick`. -/
  | requestFailed
  /-- The reply makes `doPost` or `GetWork` dereference nil (a null reply, a missing result). -/
  | crash
  /-- The result is not an array of strings: `json.Unmarshal` fails in `GetWork`. -/
  | badResult
  /-- The request succeeds and the result decodes. -/
  | ok
deriving DecidableEq, Repr

/-- Source `GetWork`, as far as `Check` uses it: the client after the call and whether the
returned error is nil; `none` is a panic. -/
def RPCClient.GetWork (r : RPCClient) : GetWorkOutcome → Option (RPCClient × Bool)
  | .requestFailed => some (r.markSick, false)
  | .crash => none
  | .badResult => some (r, false)
  | .ok => some (r, true)

/-- Source `Check`: the client after the call and the result; `none` is a panic. -/
def RPCClient.Check (r : RPCClient) (o : GetWorkOutcome) : Option (RPCClient × Bool) :=
  match r.GetWork o with
  | none => none
  | some (r1, false) => some (r1, false)
  | some (r1, true) =>
    let r2 := r1.markAlive
    some (r2, !r2.Sick)

/-! ## Upstream selection (`proxy/proxy.go`) -/

/-- Source `proxy.ProxyServer`: the index of the active upstream, an `int32`, and the
upstreams. -/
structure ProxyServer where
  upstream : Int
  upstreams : List RPCClient
deriving DecidableEq, Repr

/-- The loop of `checkUpstreams` from index `i` on, over the upstreams left and the outcomes of
the `getwork` requests their `Check` calls issue: the upstreams after their `Check`, `candidate`
and `backup`.  `v.Check()` is the left operand of `&&`, so it runs for every upstream;
`candidate` is `int32(i)`. -/
def checkUpstreamsLoop : List RPCClient → List GetWorkOutcome → Nat → Int → Bool →
    Option (List RPCClient × Int × Bool)
  | [], _, _, candidate, backup => some ([], candidate, backup)
  | _ :: _, [], _, _, _ => none
  | v :: vs, o :: os, i, candidate, backup =>
    match v.Check o with
    | none => none
    | some (v1, ok) =>
      let candidate1 := if ok && !backup then wrap32 (i : Int) else candidate
      let backup1 := if ok && !backup then true else backup
      match checkUpstreamsLoop vs os (i + 1) candidate1 backup1 with
      | none => none
      | some (vs1, c, b) => some (v1 :: vs1, c, b)

/-- Source `checkUpstreams`, given the outcome of the `getwork` request of each upstream, in
order; `none` is a panic (or a missing outcome): of a `Check`, or of
`s.upstreams[candidate]` in the log line of a switch when `candidate` is no index of the list. -/
def checkUpstreams (s : ProxyServer) (outcomes : List GetWorkOutcome) : Option ProxyServer :=
  match checkUpstreamsLoop s.upstreams outcomes 0 0 false with
  | none => none
  | some (vs, candidate, _) =>
    if s.upstream ≠ candidate then
      if 0 ≤ candidate ∧ candidate < (vs.length : Int) then
        some { upstream := candidate, upstreams := vs }
      else none
    else some { upstream := s.upstream, upstreams := vs }

/-- What each upstream's `Check` returns, in order (`false` where it panics). -/
def checkResults : List RPCClient → List GetWorkOutcome → List Bool
  | v :: vs, o :: os =>
    (match v.Check o with
      | some (_, ok) => ok
      | none => false) :: checkResults vs os
  | _, _ => []

/-- The upstreams after their `Check`, in order (unchanged where it panics). -/
def checkedClients : List RPCClient → List GetWorkOutcome → List RPCClient
  | v :: vs, o :: os =>
    (match v.Check o with
      | some (v1, _) => v1
      | none => v) :: checkedClients vs os
  | _, _ => []

/-! ## Addresses (`util/util.go`) -/

/-- Source `bitcoinAlphabet`. -/
def bitcoinAlphabet : String := "123456789ABCDEFGHJKLMNPQRSTUVWXYZabcdefghijkmnopqrstuvwxyz"

/-- UTF-8 bytes of one character. -/
def utf8Bytes (c : Char) : List Nat :=
  let v := c.toNat
  if v ≤ 0x7f then [v]
  else if v ≤ 0x7ff then [0xc0 + v / 64, 0x80 + v % 64]
  else if v ≤ 0xffff then [0xe0 + v / 4096, 0x80 + v / 64 % 64, 0x80 + v % 64]
  else [0xf0 + v / 262144, 0x80 + v / 4096 % 64, 0x80 + v / 64 % 64, 0x80 + v % 64]

/-- Go `[]byte(s)`: the UTF-8 bytes of a string. -/
def toBytes (s : String) : List Nat := (s.toList.map utf8Bytes).flatten

/-- Source `b58Alphabet`. -/
def b58Alphabet : List Nat := toBytes bitcoinAlphabet

/-- Scan of `bytes.IndexByte` from index `i`. -/
def indexByteAux (b : Nat) : List Nat → Nat → Int
  | [], _ => -1
  | x :: xs, i => if x = b then (i : Int) else indexByteAux b xs (i + 1)

/-- Go `bytes.IndexByte`: index of the first `b` in `s`, -1 when there is none. -/
def IndexByte (s : List Nat) (b : Nat) : Int := indexByteAux b s 0

/-- The `zeroBytes` counter of `Base58Decode`: how many bytes equal to `b58Alphabet[0]` the input
starts with. -/
def zeroBytes (input : List Nat) : Nat :=
  (input.takeWhile (fun b => b == b58Alphabet.getD 0 0)).length

/-- The big integer `result` of `Base58Decode` after its second loop. -/
def base58Result (input : List Nat) : Int :=
  (input.drop (zeroBytes input)).foldl
    (fun result b => result * (b58Alphabet.length : Int) + IndexByte b58Alphabet b) 0

/-- Source `Base58Decode`; `(*big.Int).Bytes` gives the bytes of the absolute value. -/
def Base58Decode (input : List Nat) : List Nat :=
  List.replicate (zeroBytes input) 0 ++ Bytes (base58Result input).natAbs

/-- Source `addressPattern.MatchString`: the regular expression `^M[<bitcoinAlphabet>]{33}$`,
whose class holds no metacharacter and whose `$` is the end of the text. -/
def addressPattern (s : String) : Bool :=
  match s.toList with
  | 'M' :: rest => rest.length == 33 && rest.all (fun c => bitcoinAlphabet.toList.contains c)
  | _ => false

/-- Source `IsValidBitcoinAddress`, with the library hash `sha256` (one `sha256.New`, `Write`,
`Sum(nil)`) as a parameter; `none` is an out-of-range slice. -/
def IsValidBitcoinAddress (sha256 : List Nat → List Nat) (s : String) : Option Bool :=
  if !addressPattern s then some false
  else
    let decoded := Base58Decode (toBytes s)
    if decoded.length < 4 then none
    else
      let checksum := sha256 (sha256 (decoded.take (decoded.length - 4)))
      if checksum.length < 4 then none
      else some (decide (checksum.take 4 = decoded.drop (decoded.length - 4)))

/-! ## Reading integers (for the statements about nonces) -/

/-- Whether `c` is a digit of the base. -/
def isDigit (base : Nat) (c : Char) : Bool :=
  match digitVal c with
  | some d => decide (d < base)
  | none => false

/-- The number a list of digits denotes in the base, most significant digit first, continuing
from `n`. -/
def digitsValue (base : Nat) (cs : List Char) (n : Nat) : Nat :=
  cs.foldl (fun a c => a * base + (digitVal c).getD 0) n

/-- The natural number a string denotes in the base: defined for a non-empty string of digits of
the base only. -/
def readInteger (base : Nat) (cs : List Char) : Option Nat :=
  if cs ≠ [] ∧ cs.all (isDigit base) = true then some (digitsValue base cs 0) else none

/-- A string read as a decimal integer. -/
def readDecimal (s : String) : Option Nat := readInteger 10 s.toList

/-- A string read as a hexadecimal integer with an optional `0x` prefix. -/
def readHex (s : String) : Option Nat :=
  match s.toList with
  | '0' :: 'x' :: rest => readInteger 16 rest
  | cs => readInteger 16 cs

/-- The integer nearest to `x`, halves away from zero. -/
def roundHalfAway (x : ℚ) : Int := if 0 ≤ x then ⌊x + 1 / 2⌋ else -⌊-x + 1 / 2⌋

/-- The `int64` nearest to an integer. -/
def clamp64 (v : Int) : Int := max (-(2 ^ 63)) (min (2 ^ 63 - 1) v)

/-- One squaring step of the loop of `Pow` on the running square `x1 * 2^xe`
(the last three statements of the loop body). -/
def sqStep (s : Float64 × Int) : Float64 × Int :=
  if (s.1.mul s.1).ltHalf then ((s.1.mul s.1).add (s.1.mul s.1), 2 * s.2 - 1)
  else (s.1.mul s.1, 2 * s.2)

/-- The value `getConstReward` takes on the heights with `height / 500000 = k`, in closed form:
the integer part of `300000000 * (19/20)^k`, except for a lost unit at `k = 3`. -/
def expectedReward (k : Nat) : Int :=
  if k = 3 then 257212499 else ((300000000 * 19 ^ k / 20 ^ k : Nat) : Int)

/-! # Theorems -/

/-! ## binary64 rounding -/

theorem bitLenAux_zero (fuel : Nat) : bitLenAux fuel 0 = 0 := by
  cases fuel <;> simp [bitLenAux]

theorem bitLenAux_chunk (c b n : Nat)
    (h1 : n / 2 ^ c < 2 ^ b) (h2 : 2 ^ b ≤ 2 * (n / 2 ^ c)) :
    n < 2 ^ (b + c) ∧ 2 ^ (b + c) ≤ 2 * n := by
  have hpos : 0 < 2 ^ c := Nat.two_pow_pos _
  constructor
  · rw [pow_add]
    exact (Nat.div_lt_iff_lt_mul hpos).mp h1
  · rw [pow_add]
    calc 2 ^ b * 2 ^ c ≤ 2 * (n / 2 ^ c) * 2 ^ c := Nat.mul_le_mul_right _ h2
      _ = 2 * (n / 2 ^ c * 2 ^ c) := by ring
      _ ≤ 2 * n := Nat.mul_le_mul_left _ (Nat.div_mul_le_self n (2 ^ c))

theorem bitLenAux_spec : ∀ (fuel n : Nat), n ≤ fuel →
    n < 2 ^ bitLenAux fuel n ∧ (n ≠ 0 → 2 ^ bitLenAux fuel n ≤ 2 * n) := by
  intro fuel
  induction fuel with
  | zero =>
    intro n hn
    have : n = 0 := by omega
    subst this
    simp [bitLenAux]
  | succ f ih =>
    intro n hn
    by_cases h0 : n = 0
    · subst h0; simp [bitLenAux]
    · have key : ∀ c : Nat, 0 < c → 2 ^ c ≤ n →
          n < 2 ^ (bitLenAux f (n / 2 ^ c) + c) ∧ 2 ^ (bitLenAux f (n / 2 ^ c) + c) ≤ 2 * n := by
        intro c hc hle
        have hlt : n / 2 ^ c < n := Nat.div_lt_self (by omega) (Nat.one_lt_two_pow (by omega))
        have hne : n / 2 ^ c ≠ 0 := by
          have := Nat.div_pos hle (Nat.two_pow_pos _)
          omega
        have := ih (n / 2 ^ c) (by omega)
        exact bitLenAux_chunk c _ n this.1 (this.2 hne)
      unfold bitLenAux
      rw [if_neg h0]
      by_cases h64 : 2 ^ 64 ≤ n
      · rw [if_pos h64]
        have := key 64 (by norm_num) h64
        exact ⟨this.1, fun _ => this.2⟩
      · rw [if_neg h64]
        by_cases h8 : 2 ^ 8 ≤ n
        · rw [if_pos h8]
          have := key 8 (by norm_num) h8
          exact ⟨this.1, fun _ => this.2⟩
        · rw [if_neg h8]
          by_cases h2 : 2 ≤ n
          · have := key 1 (by norm_num) (by simpa using h2)
            simp only [pow_one] at this
            exact ⟨this.1, fun _ => this.2⟩
          · have h1 : n = 1 := by omega
            subst h1
            simp [bitLenAux_zero]

theorem bitLen_spec (n : Nat) (h : n ≠ 0) : n < 2 ^ bitLen n ∧ 2 ^ bitLen n ≤ 2 * n :=
  ⟨(bitLenAux_spec n n le_rfl).1, (bitLenAux_spec n n le_rfl).2 h⟩

theorem scale_snd_pos (N D : Nat) (t : Int) (hD : 0 < D) : 0 < (scale N D t).2 := by
  unfold scale
  split
  · exact hD
  · exact Nat.mul_pos hD (Nat.two_pow_pos _)

theorem scale_val (N D : Nat) (t : Int) (hD : 0 < D) :
    ((scale N D t).1 : ℚ) / ((scale N D t).2 : ℚ) = (N : ℚ) / (D : ℚ) * (2 : ℚ) ^ t := by
  have hD' : (D : ℚ) ≠ 0 := by exact_mod_cast hD.ne'
  unfold scale
  split
  · rename_i h
    have : t = (t.toNat : Int) := (Int.toNat_of_nonneg h).symm
    simp only [Nat.cast_mul, Nat.cast_pow, Nat.cast_ofNat]
    conv_rhs => rw [this]
    rw [zpow_natCast]
    field_simp
  · rename_i h
    have h' : 0 ≤ -t := by omega
    have : t = -((-t).toNat : Int) := by rw [Int.toNat_of_nonneg h']; ring
    simp only [Nat.cast_mul, Nat.cast_pow, Nat.cast_ofNat]
    conv_rhs => rw [this]
    rw [zpow_neg, zpow_natCast]
    field_simp

theorem rneDiv_le (A B K : Nat) (hB : 0 < B) (h : A ≤ K * B) : rneDiv A B ≤ K := by
  have hq : A / B ≤ K := Nat.div_le_of_le_mul (by rw [Nat.mul_comm]; exact h)
  unfold rneDiv
  simp only
  split
  · rename_i hr
    by_contra hcon
    have hqK : A / B = K := by omega
    have hdm := Nat.div_add_mod A B
    rw [hqK] at hdm
    have : A % B = 0 := by
      have : B * K + A % B ≤ K * B := by rw [hdm]; exact h
      rw [Nat.mul_comm] at this
      omega
    rw [this] at hr
    omega
  · exact hq


theorem floorLog2_le (N D : Nat) (hN : N ≠ 0) (hD : D ≠ 0) :
    (2 : ℚ) ^ floorLog2 N D ≤ (N : ℚ) / (D : ℚ) := by
  have hDpos : 0 < D := Nat.pos_of_ne_zero hD
  have hDq : (0 : ℚ) < D := by exact_mod_cast hDpos
  unfold floorLog2
  simp only
  split
  · rename_i h
    have hv := scale_val N D (-((bitLen N : Int) - (bitLen D : Int))) hDpos
    have hpos := scale_snd_pos N D (-((bitLen N : Int) - (bitLen D : Int))) hDpos
    have h1 : (1 : ℚ) ≤ ((scale N D (-((bitLen N : Int) - (bitLen D : Int)))).1 : ℚ) /
        ((scale N D (-((bitLen N : Int) - (bitLen D : Int)))).2 : ℚ) := by
      rw [le_div_iff₀ (by exact_mod_cast hpos), one_mul]
      exact_mod_cast h
    rw [hv, zpow_neg] at h1
    have h2 : (0 : ℚ) < 2 ^ ((bitLen N : Int) - (bitLen D : Int)) := zpow_pos (by norm_num) _
    have := mul_le_mul_of_nonneg_right h1 h2.le
    rw [one_mul, mul_assoc, inv_mul_cancel₀ h2.ne', mul_one] at this
    exact this
  · have hbN := (bitLen_spec N hN).2
    have hbD := (bitLen_spec D hD).1
    have hbNq : (2 : ℚ) ^ bitLen N ≤ 2 * N := by exact_mod_cast hbN
    have hbDq : (D : ℚ) ≤ 2 ^ bitLen D := by exact_mod_cast hbD.le
    have hNq : (0 : ℚ) < N := by exact_mod_cast Nat.pos_of_ne_zero hN
    have e1 : (2 : ℚ) ^ ((bitLen N : Int) - (bitLen D : Int) - 1) =
        (2 : ℚ) ^ bitLen N / (2 ^ bitLen D * 2) := by
      rw [zpow_sub₀ (by norm_num), zpow_sub₀ (by norm_num), zpow_natCast, zpow_natCast, zpow_one]
      field_simp
    rw [e1, div_le_div_iff₀ (by positivity) hDq]
    calc (2 : ℚ) ^ bitLen N * D ≤ (2 * N) * 2 ^ bitLen D :=
          mul_le_mul hbNq hbDq hDq.le (by positivity)
      _ = N * (2 ^ bitLen D * 2) := by ring

theorem Float64.round_mag_le (neg : Bool) (N D : Nat) (s t : Int) (hD : 0 < D)
    (ht : -1074 ≤ t) (h : (N : ℚ) / (D : ℚ) * (2 : ℚ) ^ s ≤ (2 : ℚ) ^ t) :
    (Float64.round neg N D s).mag ≤ (2 : ℚ) ^ t := by
  unfold Float64.round
  split
  · simp only [Float64.mag, Nat.cast_zero, zero_mul]
    exact (zpow_pos (by norm_num) _).le
  · rename_i hN
    simp only [Float64.mag]
    set e : Int := max (floorLog2 N D + s - 52) (-1074) with he
    have hpos := scale_snd_pos N D (s - e) hD
    have hv := scale_val N D (s - e) hD
    have hBq : (0 : ℚ) < ((scale N D (s - e)).2 : ℚ) := by exact_mod_cast hpos
    by_cases hte : e ≤ t
    · -- the bound is a multiple of the unit in the last place
      have hK : ((2 ^ (t - e).toNat : Nat) : ℚ) = (2 : ℚ) ^ (t - e) := by
        have : t - e = ((t - e).toNat : Int) := (Int.toNat_of_nonneg (by omega)).symm
        conv_rhs => rw [this]
        rw [zpow_natCast]; push_cast; rfl
      have hA : (scale N D (s - e)).1 ≤ 2 ^ (t - e).toNat * (scale N D (s - e)).2 := by
        have : ((scale N D (s - e)).1 : ℚ) ≤ (2 : ℚ) ^ (t - e) * ((scale N D (s - e)).2 : ℚ) := by
          rw [← div_le_iff₀ hBq, hv, zpow_sub₀ (by norm_num), zpow_sub₀ (by norm_num)]
          have h2 : (0 : ℚ) < 2 ^ e := zpow_pos (by norm_num) _
          rw [← mul_div_assoc]
          exact div_le_div_of_nonneg_right h h2.le
        rw [← hK] at this
        exact_mod_cast this
      have hr := rneDiv_le _ _ _ hpos hA
      have hrq : ((rneDiv (scale N D (s - e)).1 (scale N D (s - e)).2 : Nat) : ℚ)
          ≤ (2 : ℚ) ^ (t - e) := by
        rw [← hK]; exact_mod_cast hr
      have h2 : (0 : ℚ) < 2 ^ e := zpow_pos (by norm_num) _
      calc ((rneDiv (scale N D (s - e)).1 (scale N D (s - e)).2 : Nat) : ℚ) * 2 ^ e
          ≤ (2 : ℚ) ^ (t - e) * 2 ^ e := mul_le_mul_of_nonneg_right hrq h2.le
        _ = 2 ^ t := by rw [← zpow_add₀ (by norm_num)]; congr 1; ring
    · -- impossible: the value would need more than 53 bits below the bound
      exfalso
      have hee : e = floorLog2 N D + s - 52 := by
        rcases max_choice (floorLog2 N D + s - 52) (-1074) with h1 | h1
        · exact h1
        · rw [← he] at h1; omega
      have hfl := floorLog2_le N D hN hD.ne'
      have h2s : (0 : ℚ) < 2 ^ s := zpow_pos (by norm_num) _
      have h3 : (2 : ℚ) ^ (floorLog2 N D + s) ≤ (2 : ℚ) ^ t := by
        rw [zpow_add₀ (by norm_num)]
        exact le_trans (mul_le_mul_of_nonneg_right hfl h2s.le) h
      have h4 : floorLog2 N D + s ≤ t := (zpow_le_zpow_iff_right₀ (by norm_num)).mp h3
      omega

theorem Float64.toInt64_eq_zero (x : Float64) (h : x.mag < 1) : x.toInt64 = 0 := by
  have hv := scale_val x.m 1 x.e (by norm_num)
  have hpos := scale_snd_pos x.m 1 x.e (by norm_num)
  have hBq : (0 : ℚ) < ((scale x.m 1 x.e).2 : ℚ) := by exact_mod_cast hpos
  have hlt : (scale x.m 1 x.e).1 < (scale x.m 1 x.e).2 := by
    have : ((scale x.m 1 x.e).1 : ℚ) / ((scale x.m 1 x.e).2 : ℚ) < 1 := by
      rw [hv]; simpa [Float64.mag] using h
    rw [div_lt_one hBq] at this
    exact_mod_cast this
  unfold Float64.toInt64 Float64.signed
  rw [Nat.div_eq_of_lt hlt]
  split <;> simp


theorem Float64.round_neg (neg : Bool) (N D : Nat) (s : Int) :
    (Float64.round neg N D s).neg = neg := by
  unfold Float64.round; split <;> rfl

theorem Float64.mul_mag_le (x y : Float64) (t u : Int) (hx : x.mag ≤ (2 : ℚ) ^ t)
    (hy : y.mag ≤ (2 : ℚ) ^ u) (htu : -1074 ≤ t + u) : (x.mul y).mag ≤ (2 : ℚ) ^ (t + u) := by
  unfold Float64.mul
  apply Float64.round_mag_le _ _ _ _ _ (by norm_num) htu
  have hx0 : 0 ≤ x.mag := by unfold Float64.mag; positivity
  have hy0 : 0 ≤ y.mag := by unfold Float64.mag; positivity
  have : ((x.m * y.m : Nat) : ℚ) / ((1 : Nat) : ℚ) * (2 : ℚ) ^ (x.e + y.e) = x.mag * y.mag := by
    unfold Float64.mag
    rw [zpow_add₀ (by norm_num)]; push_cast; ring
  rw [this, zpow_add₀ (by norm_num)]
  exact mul_le_mul hx hy hy0 (zpow_pos (by norm_num) _).le

theorem Float64.mul_mag_le_one (x y : Float64) (hx : x.mag ≤ 1) (hy : y.mag ≤ 1) :
    (x.mul y).mag ≤ 1 := by
  have := Float64.mul_mag_le x y 0 0 (by simpa using hx) (by simpa using hy) (by norm_num)
  simpa using this

theorem Float64.double_mag_le_one (x : Float64) (hn : x.neg = false) (h : x.ltHalf = true) :
    (x.add x).mag ≤ 1 := by
  unfold Float64.add
  simp only [min_self, sub_self, Int.toNat_zero, pow_zero, mul_one, hn, Float64.signed,
    Bool.false_eq_true, if_false, Bool.and_self]
  split
  · simp [Float64.mag]
  · rename_i hs
    have hm : x.m ≠ 0 := by
      intro h0; apply hs; simp [h0]
    have hlt : (scale x.m 1 (x.e + 1)).1 < (scale x.m 1 (x.e + 1)).2 := by
      unfold Float64.ltHalf at h
      simpa [hm, hn] using h
    have hv := scale_val x.m 1 (x.e + 1) (by norm_num)
    have hpos := scale_snd_pos x.m 1 (x.e + 1) (by norm_num)
    have hBq : (0 : ℚ) < ((scale x.m 1 (x.e + 1)).2 : ℚ) := by exact_mod_cast hpos
    have h1 : ((scale x.m 1 (x.e + 1)).1 : ℚ) / ((scale x.m 1 (x.e + 1)).2 : ℚ) ≤ 1 := by
      rw [div_le_one hBq]; exact_mod_cast hlt.le
    rw [hv] at h1
    have := Float64.round_mag_le (decide ((x.m : Int) + x.m < 0)) ((x.m : Int) + x.m).natAbs 1 x.e 0
      (by norm_num) (by norm_num)
    simp only [zpow_zero] at this
    apply this
    have e1 : (((x.m : Int) + x.m).natAbs : ℚ) = 2 * (x.m : ℚ) := by
      have : ((x.m : Int) + x.m).natAbs = 2 * x.m := by omega
      rw [this]; push_cast; ring
    rw [e1]
    rw [zpow_add₀ (by norm_num)] at h1
    simp only [Nat.cast_one, div_one, zpow_one] at h1 ⊢
    linarith

theorem sqStep_mag (s : Float64 × Int) (h : s.1.mag ≤ 1) : (sqStep s).1.mag ≤ 1 := by
  unfold sqStep
  split
  · rename_i hlt
    apply Float64.double_mag_le_one _ _ hlt
    unfold Float64.mul
    rw [Float64.round_neg]; simp
  · exact Float64.mul_mag_le_one _ _ h h

theorem sqStep_exp (s : Float64 × Int) : (sqStep s).2 ≤ 2 * s.2 := by
  unfold sqStep
  split <;> simp

theorem powLoop_step (f i : Nat) (x1 : Float64) (xe : Int) (a1 : Float64) (ae : Int)
    (hi : i ≠ 0) (hxe : ¬ (xe < -4096 ∨ 4096 < xe)) :
    powLoop (f + 1) i x1 xe a1 ae =
      powLoop f (i / 2) (sqStep (x1, xe)).1 (sqStep (x1, xe)).2
        (if i % 2 = 1 then a1.mul x1 else a1) (if i % 2 = 1 then ae + xe else ae) := by
  rw [powLoop, if_neg hi, if_neg hxe]
  simp only [sqStep]
  split <;> rfl


/-- Once the exponent of the running square is at most `-30`, the loop ends with an answer
`a1 * 2^ae` that has `a1 ≤ 1` and `ae ≤ -30`. -/
theorem powLoop_tail : ∀ (f i : Nat) (x1 : Float64) (xe : Int) (a1 : Float64) (ae : Int),
    1 ≤ f → xe * 2 ^ (f - 1) < -4096 → xe ≤ -30 → x1.mag ≤ 1 → a1.mag ≤ 1 → ae ≤ 0 →
    (i ≠ 0 ∨ ae ≤ -30) →
    (powLoop f i x1 xe a1 ae).1.mag ≤ 1 ∧ (powLoop f i x1 xe a1 ae).2 ≤ -30 := by
  intro f
  induction f with
  | zero => intro i x1 xe a1 ae hf; omega
  | succ f ih =>
    intro i x1 xe a1 ae _ hfuel hxe hx ha hae hi
    by_cases hi0 : i = 0
    · rw [powLoop, if_pos hi0]
      exact ⟨ha, by omega⟩
    · by_cases hbr : xe < -4096 ∨ 4096 < xe
      · rw [powLoop, if_neg hi0, if_pos hbr]
        exact ⟨ha, by simp only; omega⟩
      · rw [powLoop_step f i x1 xe a1 ae hi0 hbr]
        have hf1 : 1 ≤ f := by
          rcases Nat.eq_zero_or_pos f with h0 | h0
          · subst h0; simp at hfuel; omega
          · exact h0
        have hpow : (2 : Int) ^ (f + 1 - 1) = 2 * 2 ^ (f - 1) := by
          have : f + 1 - 1 = (f - 1) + 1 := by omega
          rw [this, pow_succ]; ring
        have hse := sqStep_exp (x1, xe)
        simp only at hse
        have hp : (0 : Int) < 2 ^ (f - 1) := by positivity
        apply ih
        · exact hf1
        · calc (sqStep (x1, xe)).2 * 2 ^ (f - 1) ≤ (2 * xe) * 2 ^ (f - 1) :=
                mul_le_mul_of_nonneg_right hse hp.le
            _ = xe * 2 ^ (f + 1 - 1) := by rw [hpow]; ring
            _ < -4096 := hfuel
        · omega
        · exact sqStep_mag (x1, xe) hx
        · split
          · exact Float64.mul_mag_le_one _ _ ha hx
          · exact ha
        · split <;> omega
        · by_cases hodd : i % 2 = 1
          · right; rw [if_pos hodd]; omega
          · left; omega

/-- The first `n` iterations of the loop, while the exponent stays in range and bits remain. -/
theorem powLoop_head : ∀ (n f i : Nat) (x1 : Float64) (xe : Int) (a1 : Float64) (ae : Int),
    (∀ j < n, -4096 ≤ (sqStep^[j] (x1, xe)).2 ∧ (sqStep^[j] (x1, xe)).2 ≤ 0) →
    2 ^ n ≤ i → x1.mag ≤ 1 → a1.mag ≤ 1 → ae ≤ 0 →
    ∃ (a2 : Float64) (ae2 : Int), a2.mag ≤ 1 ∧ ae2 ≤ 0 ∧ (sqStep^[n] (x1, xe)).1.mag ≤ 1 ∧
      powLoop (f + n) i x1 xe a1 ae =
        powLoop f (i / 2 ^ n) (sqStep^[n] (x1, xe)).1 (sqStep^[n] (x1, xe)).2 a2 ae2 := by
  intro n
  induction n with
  | zero =>
    intro f i x1 xe a1 ae _ _ hx ha hae
    exact ⟨a1, ae, ha, hae, by simpa using hx, by simp⟩
  | succ n ih =>
    intro f i x1 xe a1 ae hrange hi hx ha hae
    have h0 := hrange 0 (by omega)
    simp only [Function.iterate_zero, id_eq] at h0
    have hi0 : i ≠ 0 := by
      have : 0 < 2 ^ (n + 1) := Nat.two_pow_pos _
      omega
    have hbr : ¬ (xe < -4096 ∨ 4096 < xe) := by omega
    have hstep := powLoop_step (f + n) i x1 xe a1 ae hi0 hbr
    have hi2 : 2 ^ n ≤ i / 2 := by
      rw [Nat.le_div_iff_mul_le (by norm_num)]
      rw [pow_succ] at hi; exact hi
    have hrange2 : ∀ j < n, -4096 ≤ (sqStep^[j] ((sqStep (x1, xe)).1, (sqStep (x1, xe)).2)).2 ∧
        (sqStep^[j] ((sqStep (x1, xe)).1, (sqStep (x1, xe)).2)).2 ≤ 0 := by
      intro j hj
      have := hrange (j + 1) (by omega)
      simpa [Function.iterate_succ_apply] using this
    obtain ⟨a2, ae2, h1, h2, h3, h4⟩ := ih f (i / 2) (sqStep (x1, xe)).1 (sqStep (x1, xe)).2
      (if i % 2 = 1 then a1.mul x1 else a1) (if i % 2 = 1 then ae + xe else ae) hrange2 hi2
      (sqStep_mag (x1, xe) hx)
      (by split
          · exact Float64.mul_mag_le_one _ _ ha hx
          · exact ha)
      (by split <;> omega)
    refine ⟨a2, ae2, h1, h2, ?_, ?_⟩
    · simpa [Function.iterate_succ_apply] using h3
    · have e1 : f + (n + 1) = (f + n) + 1 := by omega
      rw [e1, hstep, h4]
      simp only [Prod.mk.eta, Function.iterate_succ_apply, Nat.div_div_eq_div_mul, pow_succ]
      rw [Nat.mul_comm 2 (2 ^ n)]

set_option maxRecDepth 100000 in
theorem sq095_range : ∀ j < 9, -4096 ≤ (sqStep^[j] (Frexp c095)).2 ∧ (sqStep^[j] (Frexp c095)).2 ≤ 0 := by
  decide!

set_option maxRecDepth 100000 in
theorem sq095_nine : (sqStep^[9] (Frexp c095)).2 = -37 := by
  decide!

set_option maxRecDepth 100000 in
theorem frexp095 : Frexp c095 = (⟨false, 8556839292003942, -53⟩, 0) := by
  decide!

theorem getConstReward_far (k : Nat) (hk : 512 ≤ k) :
    Float64.toInt64 (Float64.mul (Float64.ofNat 300000000) (Pow c095 k)) = 0 := by
  have hx : (Frexp c095).1.mag ≤ 1 := by
    rw [frexp095]; simp only [Float64.mag]; norm_num
  have ha : (Float64.ofNat 1).mag ≤ 1 := by simp [Float64.mag, Float64.ofNat]
  obtain ⟨a2, ae2, h1, h2, h3, h4⟩ := powLoop_head 9 55 k (Frexp c095).1 (Frexp c095).2
    (Float64.ofNat 1) 0 (by simpa using sq095_range) (by norm_num; omega) hx ha le_rfl
  have hk9 : k / 2 ^ 9 ≠ 0 := by
    have : 0 < k / 2 ^ 9 := Nat.div_pos (by norm_num; omega) (by norm_num)
    omega
  have hnine : (sqStep^[9] ((Frexp c095).1, (Frexp c095).2)).2 = -37 := by
    simpa using sq095_nine
  have htail := powLoop_tail 55 (k / 2 ^ 9) (sqStep^[9] ((Frexp c095).1, (Frexp c095).2)).1
    (sqStep^[9] ((Frexp c095).1, (Frexp c095).2)).2 a2 ae2 (by norm_num)
    (by rw [hnine]; norm_num) (by rw [hnine]; norm_num) h3 h1 h2 (Or.inl hk9)
  rw [← h4] at htail
  have hc : c095 ≠ Float64.ofNat 1 := by decide!
  have hpow : Pow c095 k = Ldexp (powLoop 64 k (Frexp c095).1 (Frexp c095).2 (Float64.ofNat 1) 0).1
      (powLoop 64 k (Frexp c095).1 (Frexp c095).2 (Float64.ofNat 1) 0).2 := by
    unfold Pow
    rw [if_neg (by simp [hc]; omega), if_neg (by omega)]
  set r := powLoop 64 k (Frexp c095).1 (Frexp c095).2 (Float64.ofNat 1) 0 with hr
  have hl : (Ldexp r.1 r.2).mag ≤ (2 : ℚ) ^ (-30 : Int) := by
    unfold Ldexp
    apply Float64.round_mag_le _ _ _ _ _ (by norm_num) (by norm_num)
    have e1 : ((r.1.m : ℚ)) / ((1 : Nat) : ℚ) * (2 : ℚ) ^ (r.1.e + r.2) = r.1.mag * 2 ^ r.2 := by
      unfold Float64.mag; rw [zpow_add₀ (by norm_num)]; push_cast; ring
    rw [e1]
    have h30 : (2 : ℚ) ^ r.2 ≤ 2 ^ (-30 : Int) := zpow_le_zpow_right₀ (by norm_num) htail.2
    calc r.1.mag * 2 ^ r.2 ≤ 1 * 2 ^ (-30 : Int) :=
          mul_le_mul htail.1 h30 (zpow_pos (by norm_num) _).le (by norm_num)
      _ = 2 ^ (-30 : Int) := one_mul _
  have hm : (Float64.mul (Float64.ofNat 300000000) (Pow c095 k)).mag ≤ (2 : ℚ) ^ (-1 : Int) := by
    rw [hpow]
    have h29 : (Float64.ofNat 300000000).mag ≤ (2 : ℚ) ^ (29 : Int) := by
      simp only [Float64.mag, Float64.ofNat]; norm_num
    have := Float64.mul_mag_le _ _ 29 (-30) h29 hl (by norm_num)
    simpa using this
  apply Float64.toInt64_eq_zero
  calc _ ≤ (2 : ℚ) ^ (-1 : Int) := hm
    _ < 1 := by norm_num


/-! ## getConstReward -/

set_option maxRecDepth 100000 in
theorem constReward_table : ∀ k < 512,
    Float64.toInt64 (Float64.mul (Float64.ofNat 300000000) (Pow c095 k)) = expectedReward k := by
  decide!

theorem floor_reward_eq (k : Nat) :
    ⌊(300000000 : ℚ) * (19 / 20 : ℚ) ^ k⌋ = ((300000000 * 19 ^ k / 20 ^ k : Nat) : Int) := by
  have h : (300000000 : ℚ) * (19 / 20 : ℚ) ^ k
      = ((300000000 * 19 ^ k : Nat) : ℚ) / ((20 ^ k : Nat) : ℚ) := by
    rw [div_pow]; push_cast; ring
  rw [h, Rat.floor_natCast_div_natCast]
  push_cast; rfl

theorem floor_reward_far (k : Nat) (hk : 512 ≤ k) :
    ⌊(300000000 : ℚ) * (19 / 20 : ℚ) ^ k⌋ = 0 := by
  rw [Int.floor_eq_zero_iff]
  constructor
  · positivity
  · have h1 : (19 / 20 : ℚ) ^ k ≤ (19 / 20 : ℚ) ^ 512 :=
      pow_le_pow_of_le_one (by norm_num) (by norm_num) hk
    have h2 : (300000000 : ℚ) * (19 / 20 : ℚ) ^ 512 < 1 := by norm_num
    linarith

theorem constReward_eq (k : Nat) :
    Float64.toInt64 (Float64.mul (Float64.ofNat 300000000) (Pow c095 k)) =
      if k = 3 then 257212499 else ⌊(300000000 : ℚ) * (19 / 20 : ℚ) ^ k⌋ := by
  by_cases hk : k < 512
  · rw [constReward_table k hk, expectedReward]
    split
    · rfl
    · rw [floor_reward_eq]
  · rw [getConstReward_far k (by omega), if_neg (by omega), floor_reward_far k (by omega)]

/-- C3 (counterexample): at height 1 500 000 the exact value `300000000 * 0.95^3` is the integer
257 212 500, but the `float64` product is just below it and `getConstReward` returns
257 212 499. -/
theorem getConstReward_floor_counterexample :
    getConstReward 1500000 = 257212499 ∧
      ⌊(300000000 : ℚ) * (19 / 20 : ℚ) ^ (1500000 / 500000)⌋ = 257212500 := by
  refine ⟨by decide!, ?_⟩
  rw [floor_reward_eq]
  decide!

/-- C3 (amended): for every height `h`, `getConstReward h` is `⌊300000000 * 0.95^(h / 500000)⌋`
with the power taken exactly, except on the heights with `h / 500000 = 3`, where binary64
rounding makes it 257 212 499, one less; it is 300 000 000 at height 0, 285 000 000 at height
500 000 and 270 750 000 at height 1 000 000. -/
theorem getConstReward_spec (h : Nat) :
    getConstReward h =
        (if h / 500000 = 3 then 257212499 else ⌊(300000000 : ℚ) * (19 / 20 : ℚ) ^ (h / 500000)⌋) ∧
      getConstReward 0 = 300000000 ∧ getConstReward 500000 = 285000000 ∧
      getConstReward 1000000 = 270750000 :=
  ⟨constReward_eq (h / 500000), by decide!, by decide!, by decide!⟩

set_option maxRecDepth 100000 in
theorem expectedReward_step : ∀ k < 512, expectedReward (k + 1) ≤ expectedReward k := by
  decide!

set_option maxRecDepth 100000 in
theorem expectedReward_strict : ∀ k < 328, expectedReward (k + 1) < expectedReward k := by
  decide!

theorem constReward_step (k : Nat) :
    Float64.toInt64 (Float64.mul (Float64.ofNat 300000000) (Pow c095 (k + 1))) ≤
      Float64.toInt64 (Float64.mul (Float64.ofNat 300000000) (Pow c095 k)) := by
  by_cases hk : k + 1 < 512
  · rw [constReward_table (k + 1) hk, constReward_table k (by omega)]
    exact expectedReward_step k (by omega)
  · rw [getConstReward_far (k + 1) (by omega)]
    by_cases hk2 : 512 ≤ k
    · rw [getConstReward_far k hk2]
    · have : k = 511 := by omega
      subst this
      rw [constReward_table 511 (by norm_num)]
      decide!

/-- C4 (counterexample): across the boundary at height 164 500 000 = 500 000 · 329 the value
does not drop: it is 14 on both sides. -/
theorem getConstReward_strict_counterexample :
    getConstReward (500000 * (328 + 1)) = 14 ∧ getConstReward (500000 * (328 + 1) - 1) = 14 ∧
      ¬ getConstReward (500000 * (328 + 1)) < getConstReward (500000 * (328 + 1) - 1) := by
  refine ⟨?_, ?_, ?_⟩ <;> decide!

/-- C4 (amended): `getConstReward` is monotonically non-increasing in height, and for every
`k ≤ 327` it is strictly smaller at height `500000 * (k + 1)` than at height
`500000 * (k + 1) - 1`. -/
theorem getConstReward_antitone (h1 h2 k : Nat) (h : h1 ≤ h2) (hk : k ≤ 327) :
    getConstReward h2 ≤ getConstReward h1 ∧
      getConstReward (500000 * (k + 1)) < getConstReward (500000 * (k + 1) - 1) := by
  constructor
  · have hanti : Antitone (fun j =>
        Float64.toInt64 (Float64.mul (Float64.ofNat 300000000) (Pow c095 j))) :=
      antitone_nat_of_succ_le constReward_step
    exact hanti (Nat.div_le_div_right h)
  · have e1 : 500000 * (k + 1) / 500000 = k + 1 := by omega
    have e2 : (500000 * (k + 1) - 1) / 500000 = k := by omega
    unfold getConstReward
    rw [e1, e2, constReward_table (k + 1) (by omega), constReward_table k (by omega)]
    exact expectedReward_strict k (by omega)

/-- C4 (witness): heights 400 000 ≤ 1 600 000 and the boundary at height 1 000 000. -/
theorem getConstReward_antitone_witness :
    (400000 ≤ 1600000 ∧ 1 ≤ 327) ∧
      (getConstReward 1600000 ≤ getConstReward 400000 ∧
        getConstReward (500000 * (1 + 1)) < getConstReward (500000 * (1 + 1) - 1)) :=
  ⟨⟨by decide, by decide⟩, getConstReward_antitone 400000 1600000 1 (by decide) (by decide)⟩

/-! ## handleBlock -/

/-- C7: for a block with at least one transaction, `handleBlock` returns an error exactly when
the coinbase transaction does not have exactly one output or its output value is below
`getConstReward block.Number`; and when it succeeds the candidate's `Reward` is at least
`getConstReward` of its `Height`. -/
theorem handleBlock_error_iff (cfg : UnlockerConfig) (block : GetBlockReply)
    (candidate : BlockData) (tx : MVSTx) (rest : List MVSTx)
    (hT : block.Transactions = tx :: rest) :
    ∃ c err, handleBlock cfg block candidate = some (c, err) ∧
      (err ≠ none ↔
        (tx.Outputs.length ≠ 1 ∨
          ∃ out, tx.Outputs = [out] ∧ out.Value < getConstReward block.Number)) ∧
      (err = none → ∃ r, c.Reward = some r ∧ getConstReward c.Height ≤ r) := by
  rcases hO : tx.Outputs with _ | ⟨out, _ | ⟨out2, more⟩⟩
  · refine ⟨{ candidate with Height := block.Number }, some .coinbaseOutputLength, ?_, ?_, ?_⟩
    · simp [handleBlock, getRewardWithFee, hT, hO]
    · simp
    · intro h; cases h
  · have hg : getRewardWithFee block = some (.ok out.Value) := by
      simp [getRewardWithFee, hT, hO]
    by_cases hlt : out.Value < getConstReward block.Number
    · refine ⟨{ candidate with Height := block.Number },
        some (.rewardBelowBase out.Value (getConstReward block.Number)), ?_, ?_, ?_⟩
      · simp [handleBlock, hg, hlt]
      · simp [hlt]
      · intro h; cases h
    · cases hk : cfg.KeepTxFees
      · refine ⟨{ candidate with
            Height := block.Number, Orphan := false, Hash := block.Hash,
            Reward := some (getConstReward block.Number +
              (out.Value - getConstReward block.Number)) }, none, ?_, ?_, ?_⟩
        · simp [handleBlock, hg, hk, hlt]
        · simp [hlt]
        · intro _
          exact ⟨_, rfl, by simp only; omega⟩
      · refine ⟨{ candidate with
            Height := block.Number, Orphan := false, Hash := block.Hash,
            ExtraReward := some (out.Value - getConstReward block.Number),
            Reward := some (getConstReward block.Number) }, none, ?_, ?_, ?_⟩
        · simp [handleBlock, hg, hk, hlt]
        · simp [hlt]
        · intro _
          exact ⟨_, rfl, le_refl _⟩
  · refine ⟨{ candidate with Height := block.Number }, some .coinbaseOutputLength, ?_, ?_, ?_⟩
    · simp [handleBlock, getRewardWithFee, hT, hO]
    · simp
    · intro h; cases h

/-- C7 (witness): a coinbase with two outputs. -/
theorem handleBlock_error_iff_witness :
    ∃ c err, handleBlock ⟨Float64.ofNat 1, "", false, 32, 16, true, "MADDR"⟩
        ⟨"00000000ff", "17", 0, [⟨"t", [⟨"MADDR", 400000000⟩, ⟨"MOTHER", 1⟩]⟩]⟩
        ⟨5, 5, "0x11", "", false, 4, none, none⟩ = some (c, err) ∧
      (err ≠ none ↔
        (([⟨"MADDR", 400000000⟩, ⟨"MOTHER", 1⟩] : List MVSTxOutput).length ≠ 1 ∨
          ∃ out, ([⟨"MADDR", 400000000⟩, ⟨"MOTHER", 1⟩] : List MVSTxOutput) = [out] ∧
            out.Value < getConstReward 0)) ∧
      (err = none → ∃ r, c.Reward = some r ∧ getConstReward c.Height ≤ r) :=
  handleBlock_error_iff ⟨Float64.ofNat 1, "", false, 32, 16, true, "MADDR"⟩
    ⟨"00000000ff", "17", 0, [⟨"t", [⟨"MADDR", 400000000⟩, ⟨"MOTHER", 1⟩]⟩]⟩
    ⟨5, 5, "0x11", "", false, 4, none, none⟩ ⟨"t", [⟨"MADDR", 400000000⟩, ⟨"MOTHER", 1⟩]⟩ [] rfl

/-! ## chargeFee -/

/-- C8: for every rational value `v` and every fee percentage `p`, the two results of
`chargeFee v p` (remaining value and fee value) add up to exactly `v`. -/
theorem chargeFee_sum (value : ℚ) (fee : Float64) :
    (chargeFee value fee).1 + (chargeFee value fee).2 = value := by
  simp [chargeFee]


/-! ## The halt flag -/

theorem unlockCandidatesLoop_halt (w : World) (cfg : UnlockerConfig) :
    ∀ (candidates : List BlockData) (u : BlockUnlocker) (result : UnlockResult)
      (r : BlockUnlocker × Except UnlockError UnlockResult),
      unlockCandidatesLoop w cfg candidates u result = some r → u.halt = true →
        r.1.halt = true := by
  intro candidates
  induction candidates with
  | nil =>
    intro u result r h hu
    simp only [unlockCandidatesLoop, Option.some.injEq] at h
    rw [← h]; exact hu
  | cons candidate rest ih =>
    intro u result r h hu
    have hcall : (u.call (.GetBlockByHeight candidate.Height)).halt = true := hu
    simp only [unlockCandidatesLoop] at h
    split at h
    · simp only [Option.some.injEq] at h; rw [← h]; exact hcall
    · simp only [Option.some.injEq] at h; rw [← h]; exact hcall
    · split at h
      · cases h
      · split at h
        · cases h
        · simp only [Option.some.injEq] at h; rw [← h]; rfl
        · split at h
          · cases h
          · exact ih _ _ r h hcall
      · exact ih _ _ r h hcall

theorem runPhases_halted (w : World) (cfg : UnlockerConfig) (u : BlockUnlocker)
    (h : u.halt = true) : ∀ phases : List Phase, runPhases w cfg phases u = some u := by
  intro phases
  induction phases with
  | nil => rfl
  | cons p rest ih =>
    cases p
    · simp only [runPhases, unlockPendingBlocks, h, if_true]
      exact ih
    · simp only [runPhases, unlockAndCreditMiners, h, if_true]
      exact ih

/-- C10: once `halt` is true, `unlockPendingBlocks` and `unlockAndCreditMiners` return the
unlocker as it is: no call to the node or the backend is added to the history, and `halt` and
`lastFail` are unchanged; this holds after any sequence of later phases; and `unlockCandidates`,
the one other operation that writes the flag, never sets it back to false. -/
theorem halt_latched (w : World) (cfg : UnlockerConfig) (u : BlockUnlocker)
    (h : u.halt = true) :
    unlockPendingBlocks w cfg u = some u ∧ unlockAndCreditMiners w cfg u = some u ∧
      (∀ phases : List Phase, runPhases w cfg phases u = some u) ∧
      (∀ (candidates : List BlockData) (r : BlockUnlocker × Except UnlockError UnlockResult),
        unlockCandidates w cfg candidates u = some r → r.1.halt = true) := by
  refine ⟨?_, ?_, runPhases_halted w cfg u h, ?_⟩
  · simp [unlockPendingBlocks, h]
  · simp [unlockAndCreditMiners, h]
  · intro candidates r hr
    exact unlockCandidatesLoop_halt w cfg candidates u _ r hr h

/-- C10 (witness): an unlocker halted by a node error, after one call. -/
theorem halt_latched_witness :
    (⟨true, some (.node "down"), [.GetPendingBlock]⟩ : BlockUnlocker).halt = true ∧
      (unlockPendingBlocks deadWorld ⟨Float64.ofNat 1, "", false, 32, 16, true, "MADDR"⟩
          ⟨true, some (.node "down"), [.GetPendingBlock]⟩ =
            some ⟨true, some (.node "down"), [.GetPendingBlock]⟩ ∧
        unlockAndCreditMiners deadWorld ⟨Float64.ofNat 1, "", false, 32, 16, true, "MADDR"⟩
          ⟨true, some (.node "down"), [.GetPendingBlock]⟩ =
            some ⟨true, some (.node "down"), [.GetPendingBlock]⟩ ∧
        (∀ phases : List Phase,
          runPhases deadWorld ⟨Float64.ofNat 1, "", false, 32, 16, true, "MADDR"⟩ phases
            ⟨true, some (.node "down"), [.GetPendingBlock]⟩ =
              some ⟨true, some (.node "down"), [.GetPendingBlock]⟩) ∧
        (∀ (candidates : List BlockData) (r : BlockUnlocker × Except UnlockError UnlockResult),
          unlockCandidates deadWorld ⟨Float64.ofNat 1, "", false, 32, 16, true, "MADDR"⟩
            candidates ⟨true, some (.node "down"), [.GetPendingBlock]⟩ = some r →
              r.1.halt = true)) :=
  ⟨rfl, halt_latched deadWorld ⟨Float64.ofNat 1, "", false, 32, 16, true, "MADDR"⟩
    ⟨true, some (.node "down"), [.GetPendingBlock]⟩ rfl⟩


/-! ## Targets -/

theorem bytesAux_setBytes : ∀ (fuel n : Nat) (acc : List Nat), n ≤ fuel →
    (bytesAux fuel n acc).foldl (fun a b => a * 256 + b) 0 =
      acc.foldl (fun a b => a * 256 + b) n := by
  intro fuel
  induction fuel with
  | zero =>
    intro n acc hn
    have : n = 0 := by omega
    subst this
    rfl
  | succ f ih =>
    intro n acc hn
    by_cases h0 : n = 0
    · subst h0; simp [bytesAux]
    · rw [bytesAux, if_neg h0, ih (n / 256) _ (by omega)]
      simp only [List.foldl_cons]
      rw [Nat.div_add_mod' n 256]

theorem bytesAux_lt : ∀ (fuel n : Nat) (acc : List Nat), (∀ b ∈ acc, b < 256) →
    ∀ b ∈ bytesAux fuel n acc, b < 256 := by
  intro fuel
  induction fuel with
  | zero => intro n acc hacc; simpa [bytesAux] using hacc
  | succ f ih =>
    intro n acc hacc
    by_cases h0 : n = 0
    · subst h0; simpa [bytesAux] using hacc
    · rw [bytesAux, if_neg h0]
      apply ih
      intro b hb
      rcases List.mem_cons.mp hb with h | h
      · rw [h]; exact Nat.mod_lt _ (by norm_num)
      · exact hacc b h

theorem bytesAux_length : ∀ (fuel n : Nat) (acc : List Nat),
    acc.length ≤ (bytesAux fuel n acc).length := by
  intro fuel
  induction fuel with
  | zero => intro n acc; simp [bytesAux]
  | succ f ih =>
    intro n acc
    by_cases h0 : n = 0
    · subst h0; simp [bytesAux]
    · rw [bytesAux, if_neg h0]
      have := ih (n / 256) (n % 256 :: acc)
      simp only [List.length_cons] at this
      omega

theorem SetBytes_Bytes (n : Nat) : SetBytes (Bytes n) = n := by
  unfold SetBytes Bytes
  rw [bytesAux_setBytes n n [] le_rfl]
  rfl

theorem Bytes_ne_nil (n : Nat) (h : n ≠ 0) : Bytes n ≠ [] := by
  unfold Bytes
  obtain ⟨f, rfl⟩ : ∃ f, n = f + 1 := ⟨n - 1, by omega⟩
  rw [bytesAux, if_neg h]
  have := bytesAux_length f ((f + 1) / 256) [(f + 1) % 256]
  intro hnil
  rw [hnil] at this
  simp at this

theorem fromHexChar_hexChar (d : Nat) (h : d < 16) : fromHexChar (hexChar d) = some d := by
  interval_cases d <;> decide

theorem Hex2Bytes_Bytes2Hex : ∀ bs : List Nat, (∀ b ∈ bs, b < 256) →
    Hex2Bytes (Bytes2Hex bs) = bs := by
  intro bs
  induction bs with
  | nil => intro _; rfl
  | cons b bs ih =>
    intro h
    have hb : b < 256 := h b (List.mem_cons_self _ _)
    have h1 : b / 16 < 16 := by omega
    have h2 : b % 16 < 16 := by omega
    simp only [Bytes2Hex, Hex2Bytes, fromHexChar_hexChar _ h1, fromHexChar_hexChar _ h2]
    rw [ih (fun x hx => h x (List.mem_cons_of_mem _ hx))]
    congr 1
    omega

theorem Bytes2Hex_length (bs : List Nat) : (Bytes2Hex bs).length = 2 * bs.length := by
  induction bs with
  | nil => rfl
  | cons b bs ih => simp only [Bytes2Hex, List.length_cons, ih]; omega

theorem FromHex_ToHex (bs : List Nat) (hne : bs ≠ []) (h : ∀ b ∈ bs, b < 256) :
    FromHex (ToHex bs) = bs := by
  have hlen : (Bytes2Hex bs).length ≠ 0 := by
    rw [Bytes2Hex_length]
    have : bs.length ≠ 0 := by simpa using hne
    omega
  have heven : ¬ (Bytes2Hex bs).length % 2 = 1 := by
    rw [Bytes2Hex_length]; omega
  unfold FromHex ToHex
  simp only [if_neg hlen, String.toList, if_neg heven]
  exact Hex2Bytes_Bytes2Hex bs h

theorem div_div_self_pow256 (d : Nat) (h0 : 0 < d) (h1 : d < 2 ^ 63) :
    pow256 / (pow256 / d) = d := by
  have hT : 2 ^ 193 ≤ pow256 / d := by
    have : pow256 / 2 ^ 63 ≤ pow256 / d := Nat.div_le_div_left h1.le h0
    have e : pow256 / 2 ^ 63 = 2 ^ 193 := by norm_num [pow256]
    omega
  have hTpos : 0 < pow256 / d := by
    have : 0 < 2 ^ 193 := by norm_num
    omega
  apply Nat.div_eq_of_lt_le
  · exact Nat.mul_div_le pow256 d
  · have hdm := Nat.div_add_mod pow256 d
    have hmod : pow256 % d < d := Nat.mod_lt _ h0
    have hd : d < 2 ^ 193 := lt_of_lt_of_le h1 (by norm_num)
    calc pow256 = d * (pow256 / d) + pow256 % d := hdm.symm
      _ < d * (pow256 / d) + pow256 / d := by omega
      _ = (d + 1) * (pow256 / d) := by ring

/-- C9: for every difficulty `0 < d < 2^63` (a positive `int64`), `GetTargetHex d` returns a
string on which `TargetHexToDiff` returns `d`. -/
theorem targetHex_roundtrip (d : Int) (h0 : 0 < d) (h1 : d < 2 ^ 63) :
    ∃ s, GetTargetHex d = some s ∧ TargetHexToDiff s = some d := by
  obtain ⟨n, rfl⟩ : ∃ n : Nat, d = (n : Int) := ⟨d.toNat, (Int.toNat_of_nonneg h0.le).symm⟩
  have hn0 : 0 < n := by exact_mod_cast h0
  have hn1 : n < 2 ^ 63 := by exact_mod_cast h1
  have hq : (Int.ediv (pow256 : Int) (n : Int)).natAbs = pow256 / n := by
    have : Int.ediv (pow256 : Int) (n : Int) = ((pow256 / n : Nat) : Int) := by
      exact (Int.ofNat_ediv pow256 n).symm
    rw [this, Int.natAbs_ofNat]
  have hT := div_div_self_pow256 n hn0 hn1
  have hTne : pow256 / n ≠ 0 := by
    intro h; rw [h] at hT; simp at hT; omega
  refine ⟨ToHex (Bytes (pow256 / n)), ?_, ?_⟩
  · unfold GetTargetHex
    rw [if_neg (by omega), hq]
  · unfold TargetHexToDiff
    rw [FromHex_ToHex _ (Bytes_ne_nil _ hTne) (bytesAux_lt _ _ [] (by simp)), SetBytes_Bytes,
      if_neg hTne, hT]

/-- C9 (witness): difficulty 2, whose target is `0x80…0` (64 hexadecimal digits). -/
theorem targetHex_roundtrip_witness :
    ((0 : Int) < 2 ∧ (2 : Int) < 2 ^ 63) ∧
      ∃ s, GetTargetHex 2 = some s ∧ TargetHexToDiff s = some 2 :=
  ⟨⟨by decide, by decide⟩, targetHex_roundtrip 2 (by decide) (by decide)⟩


/-! ## Parsing -/

theorem digitsValue_ge (base : Nat) (hb : 1 ≤ base) :
    ∀ (cs : List Char) (n : Nat), n ≤ digitsValue base cs n := by
  intro cs
  induction cs with
  | nil => intro n; exact le_rfl
  | cons c cs ih =>
    intro n
    have h1 := ih (n * base + (digitVal c).getD 0)
    have h2 : n ≤ n * base := Nat.le_mul_of_pos_right n hb
    simp only [digitsValue, List.foldl_cons] at h1 ⊢
    omega

theorem isDigit_iff (base : Nat) (c : Char) :
    isDigit base c = true ↔ ∃ d, digitVal c = some d ∧ d < base := by
  unfold isDigit
  cases h : digitVal c with
  | none => simp
  | some d => simp

theorem parseUintLoop_digits (base : Nat) (hb : 1 ≤ base) :
    ∀ (cs : List Char) (n : Nat), cs.all (isDigit base) = true →
      parseUintLoop base cs n =
        if digitsValue base cs n ≤ 2 ^ 64 - 1 ∨ cs = [] then .ok (digitsValue base cs n)
        else .error .ErrRange := by
  intro cs
  induction cs with
  | nil => intro n _; simp [parseUintLoop, digitsValue]
  | cons c cs ih =>
    intro n hall
    simp only [List.all_cons, Bool.and_eq_true] at hall
    obtain ⟨d, hd, hdb⟩ := (isDigit_iff base c).mp hall.1
    have hval : digitsValue base (c :: cs) n = digitsValue base cs (n * base + d) := by
      simp [digitsValue, hd]
    have hge := digitsValue_ge base hb cs (n * base + d)
    rw [hval]
    simp only [parseUintLoop, hd, if_neg (Nat.not_le.mpr hdb)]
    by_cases hcut : (2 ^ 64 - 1) / base + 1 ≤ n
    · rw [if_pos hcut]
      have hbig : 2 ^ 64 - 1 < n * base := by
        have h1 := Nat.div_add_mod (2 ^ 64 - 1) base
        have h2 : (2 ^ 64 - 1) % base < base := Nat.mod_lt _ hb
        have h3 : ((2 ^ 64 - 1) / base + 1) * base ≤ n * base := Nat.mul_le_mul_right _ hcut
        have h4 : ((2 ^ 64 - 1) / base + 1) * base = base * ((2 ^ 64 - 1) / base) + base := by ring
        omega
      rw [if_neg]
      simp only [reduceCtorEq, or_false, not_le]
      omega
    · rw [if_neg hcut]
      by_cases hov : 2 ^ 64 - 1 < n * base + d
      · rw [if_pos hov, if_neg]
        simp only [reduceCtorEq, or_false, not_le]
        omega
      · rw [if_neg hov, ih _ hall.2]
        by_cases hcs : cs = []
        · subst hcs
          simp only [digitsValue, List.foldl_nil, or_true, if_true]
          rw [if_pos]
          left; omega
        · simp only [hcs, or_false, reduceCtorEq]

theorem digitVal_sign (c : Char) (h : c = '+' ∨ c = '-') : digitVal c = none := by
  rcases h with h | h <;> subst h <;> decide

/-- On a non-empty string of digits whose value is below `2^63`, `ParseInt` returns the value. -/
theorem ParseInt_digits (base : Nat) (hb : 1 ≤ base) (cs : List Char) (v : Nat)
    (h : readInteger base cs = some v) (hv : v < 2 ^ 63) :
    ParseInt (String.mk cs) base = (v : Int) := by
  unfold readInteger at h
  split at h
  · rename_i hcs
    simp only [Option.some.injEq] at h
    obtain ⟨hne, hall⟩ := hcs
    cases cs with
    | nil => exact absurd rfl hne
    | cons c rest =>
      have hc : isDigit base c = true := by
        simp only [List.all_cons, Bool.and_eq_true] at hall; exact hall.1
      obtain ⟨d, hd, _⟩ := (isDigit_iff base c).mp hc
      have hsign : ¬ (c = '+' ∨ c = '-') := by
        intro hs; rw [digitVal_sign c hs] at hd; cases hd
      have hneg : ¬ c = '-' := fun hh => hsign (Or.inr hh)
      have hp : ParseUint (c :: rest) base = .ok v := by
        unfold ParseUint
        rw [if_neg (by simp), parseUintLoop_digits base hb _ 0 hall, h, if_pos]
        left
        have : (2 : Nat) ^ 63 ≤ 2 ^ 64 - 1 := by norm_num
        omega
      unfold ParseInt
      have hplus : ¬ c = '+' := fun hh => hsign (Or.inl hh)
      simp only [String.toList, hneg, hplus, or_self, if_false, decide_False]
      rw [hp]
      simp only [Bool.false_eq_true, not_false_eq_true, true_and, false_and, if_false]
      rw [if_neg (by omega)]
  · cases h

theorem removeAll0x_of_no_x : ∀ cs : List Char, (∀ c ∈ cs, c ≠ 'x') → removeAll0x cs = cs := by
  intro cs
  induction cs with
  | nil => intro _; rfl
  | cons c rest ih =>
    intro h
    have ih' := ih (fun x hx => h x (List.mem_cons_of_mem _ hx))
    cases rest with
    | nil => simp [removeAll0x]
    | cons c2 rest2 =>
      have hc2 : c2 ≠ 'x' := h c2 (by simp)
      unfold removeAll0x
      split
      · rename_i heq
        simp only [List.cons.injEq] at heq
        exact absurd heq.2.1 hc2
      · rename_i heq
        simp only [List.cons.injEq] at heq
        rw [← heq.1, ← heq.2, ih']
      · rename_i heq; cases heq

theorem hexDigit_ne_x (c : Char) (h : isDigit 16 c = true) : c ≠ 'x' := by
  intro hx; subst hx; revert h; decide

/-- On a string that reads as a hexadecimal integer below `2^63`, with or without the `0x`
prefix, removing `0x` and parsing in base 16 returns that integer. -/
theorem ParseInt_hex (s : String) (v : Nat) (h : readHex s = some v) (hv : v < 2 ^ 63) :
    ParseInt (String.mk (removeAll0x s.toList)) 16 = (v : Int) := by
  have key : ∀ cs : List Char, readInteger 16 cs = some v → removeAll0x cs = cs := by
    intro cs hcs
    apply removeAll0x_of_no_x
    intro c hc
    unfold readInteger at hcs
    split at hcs
    · rename_i hh
      exact hexDigit_ne_x c (List.all_eq_true.mp hh.2 c hc)
    · cases hcs
  unfold readHex at h
  split at h
  · rename_i rest heq
    rw [heq]
    have : removeAll0x ('0' :: 'x' :: rest) = removeAll0x rest := by
      simp [removeAll0x]
    rw [this, key rest h]
    exact ParseInt_digits 16 (by norm_num) rest v h hv
  · rw [key _ h]
    exact ParseInt_digits 16 (by norm_num) _ v h hv

/-! ## matchCandidate -/

/-- C5 (failing input): the block nonce `18446744073709551615` and the candidate nonce
`0x8000000000000000` are different integers (`2^64 - 1` and `2^63`), the coinbase pays
`config.Address` and the candidate has no hash, yet `matchCandidate` returns true: both nonces
are above the `int64` range, `ParseInt` gives `2^63 - 1` for each and its range error is
discarded. -/
theorem matchCandidate_counterexample :
    matchCandidate ⟨Float64.ofNat 1, "", false, 32, 16, true, "MADDR"⟩
        ⟨"00000000ff", "18446744073709551615", 5, [⟨"t", [⟨"MADDR", 400000000⟩]⟩]⟩
        ⟨5, 5, "0x8000000000000000", "", false, 4, none, none⟩ = some true ∧
      readDecimal "18446744073709551615" = some 18446744073709551615 ∧
      readHex "0x8000000000000000" = some 9223372036854775808 := by
  decide

/-- Where `ParseInt` reads both nonces exactly, `matchCandidate` is the comparison it is meant
to be: for a block reply with a coinbase output and a candidate whose nonces are well formed and
within the `int64` range (the block nonce a decimal integer `a < 2^63`, the candidate nonce a
hexadecimal integer `b < 2^63` with an optional `0x` prefix), `matchCandidate` returns true if
and only if the first output of the first transaction pays exactly
`config.Address`, the candidate's `Hash` is empty or equals `block.Hash` ignoring case, and
`a = b`. -/
theorem matchCandidate_iff (cfg : UnlockerConfig) (block : GetBlockReply) (candidate : BlockData)
    (tx : MVSTx) (rest : List MVSTx) (out : MVSTxOutput) (outs : List MVSTxOutput) (a b : Nat)
    (hT : block.Transactions = tx :: rest) (hO : tx.Outputs = out :: outs)
    (ha : readDecimal block.Nonce = some a) (hb : readHex candidate.Nonce = some b)
    (ha63 : a < 2 ^ 63) (hb63 : b < 2 ^ 63) :
    matchCandidate cfg block candidate = some true ↔
      out.Address = cfg.Address ∧
        (len candidate.Hash = 0 ∨ EqualFold candidate.Hash block.Hash = true) ∧ a = b := by
  have h1 : ParseInt block.Nonce 10 = (a : Int) :=
    ParseInt_digits 10 (by norm_num) block.Nonce.toList a ha ha63
  have h2 := ParseInt_hex candidate.Nonce b hb hb63
  simp only [matchCandidate, hT, hO, h1, h2]
  by_cases hadr : out.Address = cfg.Address
  · by_cases hh : 0 < len candidate.Hash ∧ EqualFold candidate.Hash block.Hash = false
    · simp only [hadr, ne_eq, not_true_eq_false, if_false, if_pos hh]
      constructor
      · intro h; cases h
      · rintro ⟨_, h3, _⟩
        rcases h3 with h3 | h3
        · omega
        · rw [h3] at hh; exact absurd hh.2 (by simp)
    · simp only [hadr, ne_eq, not_true_eq_false, if_false, if_neg hh]
      have hh' : len candidate.Hash = 0 ∨ EqualFold candidate.Hash block.Hash = true := by
        by_cases h0 : len candidate.Hash = 0
        · exact Or.inl h0
        · right
          cases he : EqualFold candidate.Hash block.Hash
          · exact absurd ⟨by omega, he⟩ hh
          · rfl
      simp only [Option.some.injEq, decide_eq_true_eq, Nat.cast_inj, true_and, hh']
  · simp only [ne_eq, hadr, not_false_eq_true, if_true, false_and, iff_false]
    intro h; cases h

/-- An instance of `matchCandidate_iff`: candidate nonce `0x10` against block nonce `17`
(16 ≠ 17). -/
theorem matchCandidate_iff_witness :
    (readDecimal "17" = some 17 ∧ readHex "0x10" = some 16) ∧
      (matchCandidate ⟨Float64.ofNat 1, "", false, 32, 16, true, "MADDR"⟩
          ⟨"00000000ff", "17", 5, [⟨"t", [⟨"MADDR", 400000000⟩]⟩]⟩
          ⟨5, 5, "0x10", "", false, 4, none, none⟩ = some true ↔
        "MADDR" = "MADDR" ∧ (len "" = 0 ∨ EqualFold "" "00000000ff" = true) ∧ 17 = 16) :=
  ⟨⟨by decide, by decide⟩,
    matchCandidate_iff ⟨Float64.ofNat 1, "", false, 32, 16, true, "MADDR"⟩
      ⟨"00000000ff", "17", 5, [⟨"t", [⟨"MADDR", 400000000⟩]⟩]⟩
      ⟨5, 5, "0x10", "", false, 4, none, none⟩ ⟨"t", [⟨"MADDR", 400000000⟩]⟩ []
      ⟨"MADDR", 400000000⟩ [] 17 16 rfl rfl (by decide) (by decide) (by decide) (by decide)⟩


/-! ## FloatString and ParseInt -/

theorem digitVal_digitChar (d : Nat) (h : d < 10) : digitVal (digitChar d) = some d := by
  interval_cases d <;> decide

theorem isDigit_digitChar (d : Nat) (h : d < 10) : isDigit 10 (digitChar d) = true := by
  rw [isDigit_iff]; exact ⟨d, digitVal_digitChar d h, h⟩

theorem utoaAux_value : ∀ (fuel n : Nat) (acc : List Char), n < fuel →
    digitsValue 10 (utoaAux fuel n acc) 0 = digitsValue 10 acc n := by
  intro fuel
  induction fuel with
  | zero => intro n acc h; omega
  | succ f ih =>
    intro n acc h
    by_cases hn : n < 10
    · rw [utoaAux, if_pos hn]
      simp [digitsValue, digitVal_digitChar n hn]
    · rw [utoaAux, if_neg hn, ih (n / 10) _ (by omega)]
      simp only [digitsValue, List.foldl_cons, digitVal_digitChar (n % 10) (Nat.mod_lt _ (by norm_num)),
        Option.getD_some]
      congr 1
      omega

theorem utoaAux_digits : ∀ (fuel n : Nat) (acc : List Char), n < fuel →
    acc.all (isDigit 10) = true → (utoaAux fuel n acc).all (isDigit 10) = true := by
  intro fuel
  induction fuel with
  | zero => intro n acc h; omega
  | succ f ih =>
    intro n acc h hacc
    by_cases hn : n < 10
    · rw [utoaAux, if_pos hn]
      simp only [List.all_cons, Bool.and_eq_true]
      exact ⟨isDigit_digitChar n hn, hacc⟩
    · rw [utoaAux, if_neg hn]
      apply ih (n / 10) _ (by omega)
      simp only [List.all_cons, Bool.and_eq_true]
      exact ⟨isDigit_digitChar _ (Nat.mod_lt _ (by norm_num)), hacc⟩

theorem utoaAux_ne_nil : ∀ (fuel n : Nat) (acc : List Char), n < fuel →
    utoaAux fuel n acc ≠ [] := by
  intro fuel
  induction fuel with
  | zero => intro n acc h; omega
  | succ f ih =>
    intro n acc h
    by_cases hn : n < 10
    · rw [utoaAux, if_pos hn]; simp
    · rw [utoaAux, if_neg hn]
      exact ih (n / 10) _ (by omega)

theorem ParseUint_utoa (n : Nat) :
    ParseUint (utoa n) 10 = if n ≤ 2 ^ 64 - 1 then .ok n else .error .ErrRange := by
  have hne : utoa n ≠ [] := utoaAux_ne_nil (n + 1) n [] (by omega)
  have hval : digitsValue 10 (utoa n) 0 = n := by
    unfold utoa; rw [utoaAux_value (n + 1) n [] (by omega)]; rfl
  have hall : (utoa n).all (isDigit 10) = true := utoaAux_digits (n + 1) n [] (by omega) rfl
  unfold ParseUint
  rw [if_neg hne, parseUintLoop_digits 10 (by norm_num) _ 0 hall, hval]
  simp only [hne, or_false]

theorem utoa_head_not_sign (n : Nat) :
    ∃ c rest, utoa n = c :: rest ∧ ¬ c = '+' ∧ ¬ c = '-' := by
  have hne := utoaAux_ne_nil (n + 1) n [] (by omega)
  have hall := utoaAux_digits (n + 1) n [] (by omega) rfl
  cases h : utoaAux (n + 1) n [] with
  | nil => exact absurd h hne
  | cons c rest =>
    rw [h] at hall
    simp only [List.all_cons, Bool.and_eq_true] at hall
    obtain ⟨d, hd, _⟩ := (isDigit_iff 10 c).mp hall.1
    refine ⟨c, rest, h, ?_, ?_⟩
    · intro hc; rw [digitVal_sign c (Or.inl hc)] at hd; cases hd
    · intro hc; rw [digitVal_sign c (Or.inr hc)] at hd; cases hd

theorem clamp64_eq (v : Int) :
    clamp64 v = if v < -(2 ^ 63) then -(2 ^ 63) else if 2 ^ 63 - 1 < v then 2 ^ 63 - 1 else v := by
  unfold clamp64
  split_ifs with h1 h2
  · rw [min_eq_right (by omega), max_eq_left (by omega)]
  · rw [min_eq_left (by omega), max_eq_right (by omega)]
  · rw [min_eq_right (by omega), max_eq_right (by omega)]

/-- Parsing the decimal string of `q`, with or without a minus sign in front. -/
theorem ParseInt_signed_utoa (neg : Bool) (q : Nat) :
    ParseInt (String.mk ((if neg then ['-'] else []) ++ utoa q)) 10 =
      clamp64 (if neg then -(q : Int) else (q : Int)) := by
  have hp := ParseUint_utoa q
  cases neg
  · obtain ⟨c, rest, hcr, hplus, hminus⟩ := utoa_head_not_sign q
    simp only [Bool.false_eq_true, if_false, List.nil_append]
    unfold ParseInt
    simp only [String.toList]
    rw [hcr]
    simp only [hplus, hminus, or_self, if_false, decide_False]
    rw [← hcr, hp]
    rw [clamp64_eq]
    by_cases h64 : q ≤ 2 ^ 64 - 1
    · rw [if_pos h64]
      simp only [Bool.false_eq_true, not_false_eq_true, true_and, false_and, if_false]
      split_ifs <;> omega
    · rw [if_neg h64]
      simp only [Bool.false_eq_true, if_false]
      split_ifs <;> omega
  · simp only [if_true, List.singleton_append]
    unfold ParseInt
    simp only [String.toList, or_true, if_true, decide_True]
    rw [hp]
    rw [clamp64_eq]
    by_cases h64 : q ≤ 2 ^ 64 - 1
    · rw [if_pos h64]
      simp only [Bool.not_eq_true, Bool.true_eq_false, not_true_eq_false, false_and, if_false,
        true_and, if_true]
      split_ifs <;> omega
    · rw [if_neg h64]
      simp only [if_true]
      split_ifs <;> omega

theorem floor_add_half (a b : Nat) (hb : 0 < b) :
    ⌊(a : ℚ) / (b : ℚ) + 1 / 2⌋ = ((a / b + if b ≤ 2 * (a % b) then 1 else 0 : Nat) : Int) := by
  have hbq : (b : ℚ) ≠ 0 := by exact_mod_cast hb.ne'
  have e1 : (a : ℚ) / (b : ℚ) + 1 / 2 = ((2 * a + b : Nat) : ℚ) / ((2 * b : Nat) : ℚ) := by
    push_cast; field_simp; ring
  rw [e1, Rat.floor_natCast_div_natCast]
  have hdm := Nat.div_add_mod a b
  have hmod : a % b < b := Nat.mod_lt _ hb
  have e2 : (2 * a + b) / (2 * b) = a / b + (2 * (a % b) + b) / (2 * b) := by
    have : 2 * a + b = (2 * (a % b) + b) + (2 * b) * (a / b) := by
      have : 2 * a = 2 * (b * (a / b)) + 2 * (a % b) := by omega
      rw [this]; ring
    rw [this, Nat.add_mul_div_left _ _ (by omega : 0 < 2 * b)]
    omega
  have e3 : (2 * (a % b) + b) / (2 * b) = if b ≤ 2 * (a % b) then 1 else 0 := by
    split
    · rename_i h
      apply Nat.div_eq_of_lt_le <;> omega
    · rename_i h
      exact Nat.div_eq_of_lt (by omega)
  have : ((2 * a + b : Nat) : Int) / ((2 * b : Nat) : Int) = (((2 * a + b) / (2 * b) : Nat) : Int) := by
    norm_cast
  rw [this, e2, e3]

theorem roundHalfAway_eq (x : ℚ) :
    roundHalfAway x =
      (if x.num < 0 then -1 else 1) *
        ((x.num.natAbs / x.den + if x.den ≤ 2 * (x.num.natAbs % x.den) then 1 else 0 : Nat) : Int) := by
  have hden : 0 < x.den := x.den_pos
  have habs : ((x.num.natAbs : Nat) : ℚ) / (x.den : ℚ) = |x| := by
    have hx : x = (x.num : ℚ) / (x.den : ℚ) := (Rat.num_div_den x).symm
    have hd : (0 : ℚ) < x.den := by exact_mod_cast hden
    conv_rhs => rw [hx]
    rw [abs_div, abs_of_pos hd, Nat.cast_natAbs, Int.cast_abs]
  unfold roundHalfAway
  by_cases h0 : 0 ≤ x
  · have hnum : ¬ x.num < 0 := not_lt.mpr (Rat.num_nonneg.mpr h0)
    rw [if_pos h0, if_neg hnum, one_mul, ← floor_add_half _ _ hden, habs, abs_of_nonneg h0]
  · have hneg : x < 0 := not_le.mp h0
    have hnum : x.num < 0 := Rat.num_neg.mpr hneg
    rw [if_neg h0, if_pos hnum, ← floor_add_half _ _ hden, habs, abs_of_neg hneg]
    ring

/-- `strconv.ParseInt(x.FloatString(0), 10, 64)` is `x` rounded to the nearest integer, halves
away from zero, limited to the `int64` range. -/
theorem ParseInt_FloatString0 (x : ℚ) :
    ParseInt (FloatString0 x) 10 = clamp64 (roundHalfAway x) := by
  have key : FloatString0 x = String.mk ((if decide (x.num < 0) then ['-'] else []) ++
      utoa (x.num.natAbs / x.den + if x.den ≤ 2 * (x.num.natAbs % x.den) then 1 else 0)) := by
    unfold FloatString0
    by_cases h1 : x.den = 1
    · have h0 : (if 1 ≤ 2 * (x.num.natAbs % 1) then 1 else 0) = 0 := by
        simp [Nat.mod_one]
      rw [if_pos h1, h1, h0, Nat.div_one, Nat.add_zero]
      simp only [decide_eq_true_eq]
    · rw [if_neg h1]
      simp only [decide_eq_true_eq]
      congr 3
      split <;> rfl
  rw [key, ParseInt_signed_utoa, roundHalfAway_eq]
  congr 1
  by_cases h : x.num < 0
  · simp [h]
  · simp [h]


/-! ## calculateRewardsForShares -/

theorem mapGet_cons (a : String) (b : Int) (rest : List (String × Int)) (k : String) :
    mapGet ((a, b) :: rest) k = if k = a then b else mapGet rest k := by
  unfold mapGet
  by_cases h : k = a
  · subst h; simp [List.lookup]
  · have : (k == a) = false := by simpa using h
    simp [List.lookup, this, h]

theorem mapGet_mapAdd (m : List (String × Int)) (k : String) (v : Int) (k' : String) :
    mapGet (mapAdd m k v) k' = if k' = k then wrap64 (mapGet m k + v) else mapGet m k' := by
  induction m with
  | nil =>
    simp only [mapAdd, mapGet_cons]
    simp [mapGet]
  | cons p rest ih =>
    obtain ⟨a, b⟩ := p
    by_cases hak : a = k
    · subst hak
      simp only [mapAdd, if_true, mapGet_cons]
      by_cases h : k' = a
      · simp [h]
      · simp [h]
    · simp only [mapAdd, if_neg hak, mapGet_cons, ih]
      by_cases h : k' = a
      · have hk : ¬ k' = k := by rw [h]; exact hak
        simp [h, hak]
      · have hka : ¬ k = a := fun hh => hak hh.symm
        simp [h, hka]

theorem clamp64_range (v : Int) : -(2 ^ 63) ≤ clamp64 v ∧ clamp64 v ≤ 2 ^ 63 - 1 := by
  rw [clamp64_eq]
  split_ifs <;> constructor <;> omega

theorem wrap64_of_range (x : Int) (h1 : -(2 ^ 63) ≤ x) (h2 : x ≤ 2 ^ 63 - 1) : wrap64 x = x := by
  unfold wrap64
  rw [Int.emod_eq_of_lt (by omega) (by omega)]
  ring

theorem sharesLoop_get (total : Int) (reward : ℚ) (ht : total ≠ 0) :
    ∀ (shares rewards : List (String × Int)), (shares.map Prod.fst).Nodup →
      ∃ r, sharesLoop total reward shares rewards = some r ∧
        ∀ login : String,
          (∀ n, (login, n) ∈ shares →
            mapGet r login = wrap64 (mapGet rewards login +
              ParseInt (FloatString0 (reward * ((n : ℚ) / (total : ℚ)))) 10)) ∧
          (login ∉ shares.map Prod.fst → mapGet r login = mapGet rewards login) := by
  intro shares
  induction shares with
  | nil =>
    intro rewards _
    exact ⟨rewards, rfl, fun login => ⟨fun n h => by simp at h, fun _ => rfl⟩⟩
  | cons p rest ih =>
    intro rewards hnd
    obtain ⟨l0, n0⟩ := p
    simp only [List.map_cons, List.nodup_cons] at hnd
    obtain ⟨r, hr, hget⟩ := ih (mapAdd rewards l0
      (ParseInt (FloatString0 (reward * ((n0 : ℚ) / (total : ℚ)))) 10)) hnd.2
    refine ⟨r, ?_, ?_⟩
    · simp only [sharesLoop, if_neg ht]
      exact hr
    · intro login
      constructor
      · intro n hmem
        rcases List.mem_cons.mp hmem with h | h
        · simp only [Prod.mk.injEq] at h
          obtain ⟨h1, h2⟩ := h
          subst h1; subst h2
          rw [(hget login).2 hnd.1, mapGet_mapAdd, if_pos rfl]
        · have hin : login ∈ rest.map Prod.fst := List.mem_map.mpr ⟨(login, n), h, rfl⟩
          have hne : ¬ login = l0 := fun hh => hnd.1 (hh ▸ hin)
          rw [(hget login).1 n h, mapGet_mapAdd, if_neg hne]
      · intro hnot
        simp only [List.map_cons, List.mem_cons, not_or] at hnot
        rw [(hget login).2 hnot.2, mapGet_mapAdd, if_neg hnot.1]

/-- C1 (counterexample): with `minersProfit = 3`, `total = 2` and one share each, both logins are
credited 2 (1.5 rounded up), not `⌊3 × 1 / 2⌋ = 1`. -/
theorem calculateRewardsForShares_counterexample :
    calculateRewardsForShares [("A", 1), ("B", 1)] 2 3 = some [("A", 2), ("B", 2)] ∧
      mapGet [("A", 2), ("B", 2)] "A" = 2 ∧ ⌊(3 : ℚ) * 1 / 2⌋ = 1 := by
  decide!

/-- C1 (amended): for every round-share map, every `total > 0` and every rational
`minersProfit`, `calculateRewardsForShares` credits each login `minersProfit × n / total`
rounded to the nearest integer, halves away from zero (so the amount is rounded up when the
fractional part is at least one half), limited to the `int64` range. -/
theorem calculateRewardsForShares_credit (shares : List (String × Int)) (total : Int)
    (minersProfit : ℚ) (login : String) (n : Int) (ht : 0 < total)
    (hmap : (shares.map Prod.fst).Nodup) (hmem : (login, n) ∈ shares) :
    ∃ rewards, calculateRewardsForShares shares total minersProfit = some rewards ∧
      mapGet rewards login = clamp64 (roundHalfAway (minersProfit * ((n : ℚ) / (total : ℚ)))) := by
  obtain ⟨r, hr, hget⟩ := sharesLoop_get total minersProfit (by omega) shares [] hmap
  refine ⟨r, hr, ?_⟩
  rw [(hget login).1 n hmem, ParseInt_FloatString0]
  have h0 : mapGet [] login = 0 := rfl
  rw [h0, zero_add]
  exact wrap64_of_range _ (clamp64_range _).1 (clamp64_range _).2

/-- C1 (witness): the round of scenario S4, miner `A` with 3 shares of 4 and a miners' profit of
990 000 000. -/
theorem calculateRewardsForShares_credit_witness :
    ((0 : Int) < 4 ∧ (([("A", 3), ("B", 1)] : List (String × Int)).map Prod.fst).Nodup ∧
        (("A", 3) : String × Int) ∈ ([("A", 3), ("B", 1)] : List (String × Int))) ∧
      ∃ rewards, calculateRewardsForShares [("A", 3), ("B", 1)] 4 990000000 = some rewards ∧
        mapGet rewards "A" =
          clamp64 (roundHalfAway ((990000000 : ℚ) * (((3 : Int) : ℚ) / ((4 : Int) : ℚ)))) :=
  ⟨⟨by decide, by decide, by decide⟩,
    calculateRewardsForShares_credit [("A", 3), ("B", 1)] 4 990000000 "A" 3 (by decide)
      (by decide) (by decide)⟩


/-! ## calculateRewards -/

theorem wrap64_ge (x : Int) : -(2 ^ 63) ≤ wrap64 x := by
  unfold wrap64
  have := Int.emod_nonneg (x + 2 ^ 63) (by norm_num : (2 : Int) ^ 64 ≠ 0)
  omega

theorem wrap64_le (x : Int) (h : -(2 ^ 63) ≤ x) : wrap64 x ≤ x := by
  unfold wrap64
  omega

/-- Sum of the values of a `map[string]int64`. -/
theorem mapAdd_sum (k : String) (v : Int) (hv : 0 ≤ v) :
    ∀ m : List (String × Int), (∀ p ∈ m, -(2 ^ 63) ≤ p.2) →
      ((mapAdd m k v).map Prod.snd).sum ≤ (m.map Prod.snd).sum + v ∧
        ∀ p ∈ mapAdd m k v, -(2 ^ 63) ≤ p.2 := by
  intro m
  induction m with
  | nil =>
    intro _
    simp only [mapAdd, List.map_cons, List.map_nil, List.sum_cons, List.sum_nil, add_zero,
      zero_add, List.mem_singleton, forall_eq]
    exact ⟨wrap64_le v (by omega), wrap64_ge v⟩
  | cons p rest ih =>
    intro hinv
    obtain ⟨a, b⟩ := p
    have hb : -(2 ^ 63) ≤ b := hinv (a, b) (List.mem_cons_self _ _)
    have hrest : ∀ p ∈ rest, -(2 ^ 63) ≤ p.2 := fun p hp => hinv p (List.mem_cons_of_mem _ hp)
    by_cases hak : a = k
    · simp only [mapAdd, if_pos hak, List.map_cons, List.sum_cons]
      constructor
      · have := wrap64_le (b + v) (by omega)
        omega
      · intro p hp
        rcases List.mem_cons.mp hp with h | h
        · rw [h]; exact wrap64_ge _
        · exact hrest p h
    · simp only [mapAdd, if_neg hak, List.map_cons, List.sum_cons]
      obtain ⟨h1, h2⟩ := ih hrest
      constructor
      · omega
      · intro p hp
        rcases List.mem_cons.mp hp with h | h
        · rw [h]; exact hb
        · exact h2 p h

/-- A non-negative amount is credited as a non-negative integer that exceeds it by at most one
half. -/
theorem credit_bounds (x : ℚ) (hx : 0 ≤ x) :
    0 ≤ ParseInt (FloatString0 x) 10 ∧ ((ParseInt (FloatString0 x) 10 : Int) : ℚ) ≤ x + 1 / 2 := by
  rw [ParseInt_FloatString0]
  have hr : roundHalfAway x = ⌊x + 1 / 2⌋ := by unfold roundHalfAway; rw [if_pos hx]
  have h0 : 0 ≤ roundHalfAway x := by rw [hr]; exact Int.floor_nonneg.mpr (by linarith)
  have h1 : ((roundHalfAway x : Int) : ℚ) ≤ x + 1 / 2 := by rw [hr]; exact Int.floor_le _
  have h2 : 0 ≤ clamp64 (roundHalfAway x) ∧ clamp64 (roundHalfAway x) ≤ roundHalfAway x := by
    rw [clamp64_eq]
    split_ifs <;> constructor <;> omega
  refine ⟨h2.1, le_trans ?_ h1⟩
  exact_mod_cast h2.2

theorem sharesLoop_sum (total : Int) (reward : ℚ) (ht : 0 < total) (hr : 0 ≤ reward) :
    ∀ (shares rewards : List (String × Int)), (∀ p ∈ shares, 0 ≤ p.2) →
      (∀ p ∈ rewards, -(2 ^ 63) ≤ p.2) →
      ∃ r, sharesLoop total reward shares rewards = some r ∧ (∀ p ∈ r, -(2 ^ 63) ≤ p.2) ∧
        (((r.map Prod.snd).sum : Int) : ℚ) ≤ (((rewards.map Prod.snd).sum : Int) : ℚ) +
          reward * (((shares.map Prod.snd).sum : Int) : ℚ) / (total : ℚ) +
            (shares.length : ℚ) / 2 := by
  intro shares
  induction shares with
  | nil =>
    intro rewards _ hinv
    exact ⟨rewards, rfl, hinv, by simp⟩
  | cons p rest ih =>
    intro rewards hpos hinv
    obtain ⟨l0, n0⟩ := p
    have hn0 : 0 ≤ n0 := hpos (l0, n0) (List.mem_cons_self _ _)
    have htq : (0 : ℚ) < (total : ℚ) := by exact_mod_cast ht
    have hx : 0 ≤ reward * ((n0 : ℚ) / (total : ℚ)) :=
      mul_nonneg hr (div_nonneg (by exact_mod_cast hn0) htq.le)
    obtain ⟨hf0, hf1⟩ := credit_bounds _ hx
    obtain ⟨hs1, hs2⟩ := mapAdd_sum l0 _ hf0 rewards hinv
    obtain ⟨r, hr1, hr2, hr3⟩ := ih (mapAdd rewards l0
      (ParseInt (FloatString0 (reward * ((n0 : ℚ) / (total : ℚ)))) 10))
      (fun p hp => hpos p (List.mem_cons_of_mem _ hp)) hs2
    refine ⟨r, ?_, hr2, ?_⟩
    · simp only [sharesLoop, if_neg ht.ne']
      exact hr1
    · have hs1q : ((((mapAdd rewards l0
          (ParseInt (FloatString0 (reward * ((n0 : ℚ) / (total : ℚ)))) 10)).map Prod.snd).sum : Int) : ℚ)
          ≤ (((rewards.map Prod.snd).sum : Int) : ℚ) +
            ((ParseInt (FloatString0 (reward * ((n0 : ℚ) / (total : ℚ)))) 10 : Int) : ℚ) := by
        exact_mod_cast hs1
      simp only [List.map_cons, List.sum_cons, List.length_cons, Int.cast_add, Nat.cast_add,
        Nat.cast_one]
      have e : reward * (((n0 : ℚ)) + (((rest.map Prod.snd).sum : Int) : ℚ)) / (total : ℚ)
          = reward * ((n0 : ℚ) / (total : ℚ)) +
            reward * (((rest.map Prod.snd).sum : Int) : ℚ) / (total : ℚ) := by
        field_simp
        ring
      rw [e]
      linarith

theorem Float64.toRat_ofNat (n : Nat) : (Float64.ofNat n).toRat = (n : ℚ) := by
  simp [Float64.toRat, Float64.ofNat]

/-- The `float64` quotient `fee / 100` of a fee between 0 and 100 is between 0 and 1. -/
theorem feePercent_range (fee : Float64) (h0 : 0 ≤ fee.toRat) (h1 : fee.toRat ≤ 100) :
    0 ≤ (fee.div (Float64.ofNat 100)).toRat ∧ (fee.div (Float64.ofNat 100)).toRat ≤ 1 := by
  by_cases hm : fee.m = 0
  · have : fee.div (Float64.ofNat 100) = ⟨xor fee.neg false, 0, 0⟩ := by
      simp [Float64.div, Float64.round, hm, Float64.ofNat]
    rw [this]
    simp [Float64.toRat]
  · have hpos : (0 : ℚ) < (fee.m : ℚ) * (2 : ℚ) ^ fee.e := by
      have : (0 : ℚ) < fee.m := by exact_mod_cast Nat.pos_of_ne_zero hm
      positivity
    have hneg : fee.neg = false := by
      cases hn : fee.neg
      · rfl
      · exfalso
        have : fee.toRat = -((fee.m : ℚ) * (2 : ℚ) ^ fee.e) := by
          simp [Float64.toRat, hn]
        linarith
    have hmag : fee.mag = fee.toRat := by
      simp [Float64.toRat, Float64.mag, hneg]
    have hrat : (fee.div (Float64.ofNat 100)).toRat = (fee.div (Float64.ofNat 100)).mag := by
      have : (fee.div (Float64.ofNat 100)).neg = false := by
        unfold Float64.div
        rw [Float64.round_neg, hneg]; rfl
      simp [Float64.toRat, Float64.mag, this]
    rw [hrat]
    constructor
    · unfold Float64.mag; positivity
    · have := Float64.round_mag_le (xor fee.neg (Float64.ofNat 100).neg) fee.m 100
        (fee.e - 0) 0 (by norm_num) (by norm_num)
      simp only [zpow_zero] at this
      apply this
      rw [sub_zero]
      have : (fee.m : ℚ) / ((100 : Nat) : ℚ) * (2 : ℚ) ^ fee.e = fee.mag / 100 := by
        unfold Float64.mag; push_cast; ring
      rw [this, hmag]
      linarith

theorem optional_mapAdd_sum (c : Prop) [Decidable c] (k : String) (v : Int) (hv : 0 ≤ v)
    (m : List (String × Int)) (hinv : ∀ p ∈ m, -(2 ^ 63) ≤ p.2) :
    (((if c then mapAdd m k v else m).map Prod.snd).sum ≤
        (m.map Prod.snd).sum + if c then v else 0) ∧
      ∀ p ∈ (if c then mapAdd m k v else m), -(2 ^ 63) ≤ p.2 := by
  by_cases h : c
  · simp only [if_pos h]
    exact mapAdd_sum k v hv m hinv
  · simp only [if_neg h, add_zero, le_refl, true_and]
    exact hinv

/-- C2 (counterexample): `Reward = 3`, no fee, two miners with one share each of
`TotalShares = 2`: each is credited 2, and the sum 4 exceeds the revenue 3. -/
theorem calculateRewards_sum_counterexample :
    calculateRewards ⟨Float64.ofNat 0, "", false, 32, 16, true, "MADDR"⟩
        (.ok [("A", 1), ("B", 1)]) ⟨0, 5, "0x10", "00000000ff", false, 2, some 3, none⟩ =
      some (.ok ⟨3, 3, 0, [("A", 2), ("B", 2)]⟩) ∧
      ¬ (([("A", 2), ("B", 2)] : List (String × Int)).map Prod.snd).sum ≤ 3 + 0 := by
  decide!

/-- C2 (amended): for every candidate with `TotalShares > 0`, non-negative `Reward` and
`ExtraReward`, and round shares that are non-negative and sum to `TotalShares`, and every
configuration with `0 ≤ PoolFee ≤ 100`, `calculateRewards` returns a rewards map whose values
sum to at most `Reward + ExtraReward` (`ExtraReward` counted as 0 when nil) plus half a unit for
each credited address: the logins of the round, the donation account and the pool fee address. -/
theorem calculateRewards_sum_le (cfg : UnlockerConfig) (shares : List (String × Int))
    (block : BlockData) (r : Int) (hR : block.Reward = some r) (hr : 0 ≤ r)
    (hE : ∀ e, block.ExtraReward = some e → 0 ≤ e) (ht : 0 < block.TotalShares)
    (hn : ∀ p ∈ shares, 0 ≤ p.2) (hsum : (shares.map Prod.snd).sum = block.TotalShares)
    (hf0 : 0 ≤ cfg.PoolFee.toRat) (hf1 : cfg.PoolFee.toRat ≤ 100) :
    ∃ res, calculateRewards cfg (.ok shares) block = some (.ok res) ∧
      2 * (res.rewards.map Prod.snd).sum ≤
        2 * (r + block.ExtraReward.getD 0) + (shares.length : Int) + 2 := by
  obtain ⟨hp0, hp1⟩ := feePercent_range cfg.PoolFee hf0 hf1
  obtain ⟨hd0, hd1⟩ := feePercent_range donationFee
    (by rw [donationFee, Float64.toRat_ofNat]; norm_num)
    (by rw [donationFee, Float64.toRat_ofNat]; norm_num)
  set fp : ℚ := (cfg.PoolFee.div (Float64.ofNat 100)).toRat with hfp
  set f10 : ℚ := (donationFee.div (Float64.ofNat 100)).toRat with hf10
  have hrq : (0 : ℚ) ≤ (r : ℚ) := by exact_mod_cast hr
  have hmp : (0 : ℚ) ≤ (r : ℚ) - (r : ℚ) * fp := by nlinarith
  have hpp : (0 : ℚ) ≤ (r : ℚ) * fp := mul_nonneg hrq hp0
  obtain ⟨rw0, hloop, hinv0, hbound0⟩ := sharesLoop_sum block.TotalShares ((r : ℚ) - (r : ℚ) * fp)
    ht hmp shares [] hn (by simp)
  have htq : (0 : ℚ) < (block.TotalShares : ℚ) := by exact_mod_cast ht
  have hb0 : (((rw0.map Prod.snd).sum : Int) : ℚ) ≤
      ((r : ℚ) - (r : ℚ) * fp) + (shares.length : ℚ) / 2 := by
    rw [hsum] at hbound0
    have e : ((r : ℚ) - (r : ℚ) * fp) * (block.TotalShares : ℚ) / (block.TotalShares : ℚ)
        = (r : ℚ) - (r : ℚ) * fp := by field_simp
    rw [e] at hbound0
    simpa using hbound0
  -- the pool's side
  have tail : ∀ pp1 : ℚ, 0 ≤ pp1 →
      2 * ((((if len cfg.PoolFeeAddress ≠ 0 then
          mapAdd (if cfg.Donate = true then
              mapAdd rw0 donationAccount (ParseInt (FloatString0 (pp1 * f10)) 10) else rw0)
            cfg.PoolFeeAddress
            (ParseInt (FloatString0 (if cfg.Donate = true then pp1 - pp1 * f10 else pp1)) 10)
        else (if cfg.Donate = true then
              mapAdd rw0 donationAccount (ParseInt (FloatString0 (pp1 * f10)) 10) else rw0)).map
          Prod.snd).sum : Int) : ℚ) ≤
        2 * (((r : ℚ) - (r : ℚ) * fp) + pp1) + (shares.length : ℚ) + 2 := by
    intro pp1 hpp1
    have hdon : 0 ≤ pp1 * f10 := mul_nonneg hpp1 hd0
    have hrem : 0 ≤ pp1 - pp1 * f10 := by nlinarith
    cases hDon : cfg.Donate
    · simp only [Bool.false_eq_true, if_false]
      obtain ⟨hfp0, hfp1⟩ := credit_bounds _ hpp1
      obtain ⟨hs2, _⟩ := optional_mapAdd_sum (len cfg.PoolFeeAddress ≠ 0) cfg.PoolFeeAddress _
        hfp0 rw0 hinv0
      have hs2q : ((((if len cfg.PoolFeeAddress ≠ 0 then
          mapAdd rw0 cfg.PoolFeeAddress (ParseInt (FloatString0 pp1) 10) else rw0).map
            Prod.snd).sum : Int) : ℚ) ≤ (((rw0.map Prod.snd).sum : Int) : ℚ) +
          (((if len cfg.PoolFeeAddress ≠ 0 then ParseInt (FloatString0 pp1) 10 else 0 : Int)) : ℚ) := by
        exact_mod_cast hs2
      have hopt : (((if len cfg.PoolFeeAddress ≠ 0 then ParseInt (FloatString0 pp1) 10 else 0 : Int))
          : ℚ) ≤ pp1 + 1 / 2 := by
        split
        · exact hfp1
        · simp only [Int.cast_zero]; linarith
      linarith
    · simp only [if_true]
      obtain ⟨hfd0, hfd1⟩ := credit_bounds _ hdon
      obtain ⟨hfp0, hfp1⟩ := credit_bounds _ hrem
      obtain ⟨hs1, hinv1⟩ := mapAdd_sum donationAccount _ hfd0 rw0 hinv0
      obtain ⟨hs2, _⟩ := optional_mapAdd_sum (len cfg.PoolFeeAddress ≠ 0) cfg.PoolFeeAddress _
        hfp0 _ hinv1
      have hs1q : ((((mapAdd rw0 donationAccount (ParseInt (FloatString0 (pp1 * f10)) 10)).map
          Prod.snd).sum : Int) : ℚ) ≤ (((rw0.map Prod.snd).sum : Int) : ℚ) +
            ((ParseInt (FloatString0 (pp1 * f10)) 10 : Int) : ℚ) := by
        exact_mod_cast hs1
      have hs2q : ((((if len cfg.PoolFeeAddress ≠ 0 then
          mapAdd (mapAdd rw0 donationAccount (ParseInt (FloatString0 (pp1 * f10)) 10))
            cfg.PoolFeeAddress (ParseInt (FloatString0 (pp1 - pp1 * f10)) 10)
          else mapAdd rw0 donationAccount (ParseInt (FloatString0 (pp1 * f10)) 10)).map
            Prod.snd).sum : Int) : ℚ) ≤
          ((((mapAdd rw0 donationAccount (ParseInt (FloatString0 (pp1 * f10)) 10)).map
            Prod.snd).sum : Int) : ℚ) +
          (((if len cfg.PoolFeeAddress ≠ 0 then ParseInt (FloatString0 (pp1 - pp1 * f10)) 10
            else 0 : Int)) : ℚ) := by
        exact_mod_cast hs2
      have hopt : (((if len cfg.PoolFeeAddress ≠ 0 then
          ParseInt (FloatString0 (pp1 - pp1 * f10)) 10 else 0 : Int)) : ℚ) ≤
            pp1 - pp1 * f10 + 1 / 2 := by
        split
        · exact hfp1
        · simp only [Int.cast_zero]; linarith
      linarith
  cases hx : block.ExtraReward with
  | none =>
    refine ⟨_, by simp only [calculateRewards, hR, chargeFee, calculateRewardsForShares, hloop, hx]; rfl, ?_⟩
    have := tail ((r : ℚ) * fp) hpp
    simp only [Option.getD_none, add_zero]
    have e : (r : ℚ) - (r : ℚ) * fp + (r : ℚ) * fp = (r : ℚ) := by ring
    rw [e] at this
    exact_mod_cast this
  | some ex =>
    have hex : (0 : ℚ) ≤ (ex : ℚ) := by exact_mod_cast hE ex hx
    refine ⟨_, by simp only [calculateRewards, hR, chargeFee, calculateRewardsForShares, hloop, hx]; rfl, ?_⟩
    have := tail ((r : ℚ) * fp + (ex : ℚ)) (by linarith)
    simp only [Option.getD_some]
    have e : (r : ℚ) - (r : ℚ) * fp + ((r : ℚ) * fp + (ex : ℚ)) = ((r + ex : Int) : ℚ) := by
      push_cast; ring
    rw [e] at this
    exact_mod_cast this

/-- C2 (witness): the round of scenario S4 (reward 1 000 000 000, fee 1%, shares 3 and 1). -/
theorem calculateRewards_sum_le_witness :
    ∃ res, calculateRewards ⟨Float64.ofNat 1, "MPOOL", false, 32, 16, true, "MADDR"⟩
        (.ok [("A", 3), ("B", 1)])
        ⟨0, 5, "0x10", "00000000ff", false, 4, some 1000000000, none⟩ = some (.ok res) ∧
      2 * (res.rewards.map Prod.snd).sum ≤
        2 * (1000000000 + (none : Option Int).getD 0) +
          (([("A", 3), ("B", 1)] : List (String × Int)).length : Int) + 2 :=
  calculateRewards_sum_le ⟨Float64.ofNat 1, "MPOOL", false, 32, 16, true, "MADDR"⟩
    [("A", 3), ("B", 1)] ⟨0, 5, "0x10", "00000000ff", false, 4, some 1000000000, none⟩
    1000000000 rfl (by decide) (by intro e h; cases h) (by decide) (by decide) (by decide)
    (by rw [Float64.toRat_ofNat]; norm_num) (by rw [Float64.toRat_ofNat]; norm_num)

/-! ## Upstream health -/

theorem RPCClient.health_step (r : RPCClient) (n : Nat) (hn : (n : Int) + 1 < 2 ^ 63)
    (h : (r.sick = true ↔ 5 ≤ r.sickRate) ∧ (0 ≤ r.successRate ∧ r.successRate ≤ 4) ∧
      0 ≤ r.sickRate ∧ r.sickRate ≤ n) :
    ((r.markSick.sick = true ↔ 5 ≤ r.markSick.sickRate) ∧
        (0 ≤ r.markSick.successRate ∧ r.markSick.successRate ≤ 4) ∧
        0 ≤ r.markSick.sickRate ∧ r.markSick.sickRate ≤ (n : Int) + 1) ∧
      ((r.markAlive.sick = true ↔ 5 ≤ r.markAlive.sickRate) ∧
        (0 ≤ r.markAlive.successRate ∧ r.markAlive.successRate ≤ 4) ∧
        0 ≤ r.markAlive.sickRate ∧ r.markAlive.sickRate ≤ (n : Int) + 1) := by
  obtain ⟨h1, ⟨h2, h3⟩, h4, h5⟩ := h
  have hw1 : wrap64 (r.sickRate + 1) = r.sickRate + 1 := by unfold wrap64; omega
  have hw2 : wrap64 (r.successRate + 1) = r.successRate + 1 := by unfold wrap64; omega
  constructor
  · simp only [RPCClient.markSick, hw1]
    refine ⟨?_, ⟨le_refl _, by norm_num⟩, by omega, by omega⟩
    by_cases h6 : 5 ≤ r.sickRate + 1
    · simp [h6]
    · simp only [h6, if_false]
      rw [h1]
      constructor
      · intro h; omega
      · intro h; exact h.elim
  · simp only [RPCClient.markAlive, hw2]
    by_cases h6 : 5 ≤ r.successRate + 1
    · simp only [h6, if_true]
      refine ⟨by simp, ⟨le_refl _, by norm_num⟩, le_refl _, by omega⟩
    · simp only [h6, if_false]
      exact ⟨h1, ⟨by omega, by omega⟩, h4, by omega⟩

theorem RPCClient.health_invariant : ∀ (ops : List HealthOp) (r : RPCClient) (n : Nat),
    (n : Int) + ops.length < 2 ^ 63 →
    ((r.sick = true ↔ 5 ≤ r.sickRate) ∧ (0 ≤ r.successRate ∧ r.successRate ≤ 4) ∧
      0 ≤ r.sickRate ∧ r.sickRate ≤ n) →
    (((r.apply ops).sick = true ↔ 5 ≤ (r.apply ops).sickRate) ∧
      (0 ≤ (r.apply ops).successRate ∧ (r.apply ops).successRate ≤ 4) ∧
      0 ≤ (r.apply ops).sickRate ∧ (r.apply ops).sickRate ≤ (n : Int) + ops.length) := by
  intro ops
  induction ops with
  | nil => intro r n _ h; simpa [RPCClient.apply] using h
  | cons op ops ih =>
    intro r n hn h
    simp only [List.length_cons, Nat.cast_add, Nat.cast_one] at hn ⊢
    have hstep := RPCClient.health_step r n (by omega) h
    have hcast : ((n + 1 : Nat) : Int) = (n : Int) + 1 := by push_cast; rfl
    cases op
    · have := ih r.markSick (n + 1) (by rw [hcast]; omega) (by rw [hcast]; exact hstep.1)
      rw [hcast] at this
      simp only [RPCClient.apply]
      refine ⟨this.1, this.2.1, this.2.2.1, by omega⟩
    · have := ih r.markAlive (n + 1) (by rw [hcast]; omega) (by rw [hcast]; exact hstep.2)
      rw [hcast] at this
      simp only [RPCClient.apply]
      refine ⟨this.1, this.2.1, this.2.2.1, by omega⟩

/-- Past the bound the `int` counter wraps: a `markSick` at the largest `sickRate` leaves the
client sick with a negative `sickRate`. -/
theorem RPCClient.markSick_wraps :
    RPCClient.markSick ⟨true, 2 ^ 63 - 1, 0⟩ = ⟨true, -(2 ^ 63), 0⟩ := by
  decide

/-- C13: in every state reached from a fresh client by a sequence of fewer than `2^63` calls of
`markSick` and `markAlive`, the sick flag is true if and only if `sickRate ≥ 5`, and
`successRate` is in 0..4; and in every state whose counters are below the largest `int`,
`markSick` adds 1 to `sickRate` and zeroes `successRate`, and `markAlive` adds 1 to
`successRate` and, when that reaches 5, zeroes both counters and clears `sick` (and changes
nothing else otherwise). -/
theorem health_state_machine (ops : List HealthOp) (r : RPCClient)
    (hlen : (ops.length : Int) < 2 ^ 63)
    (hs : -(2 ^ 63) ≤ r.sickRate ∧ r.sickRate < 2 ^ 63 - 1)
    (ha : -(2 ^ 63) ≤ r.successRate ∧ r.successRate < 2 ^ 63 - 1) :
    (((RPCClient.fresh.apply ops).sick = true ↔ 5 ≤ (RPCClient.fresh.apply ops).sickRate) ∧
        0 ≤ (RPCClient.fresh.apply ops).successRate ∧
        (RPCClient.fresh.apply ops).successRate ≤ 4) ∧
      (r.markSick.sickRate = r.sickRate + 1 ∧ r.markSick.successRate = 0) ∧
      (if 5 ≤ r.successRate + 1 then r.markAlive = ⟨false, 0, 0⟩
        else r.markAlive = { r with successRate := r.successRate + 1 }) := by
  have hw1 : wrap64 (r.sickRate + 1) = r.sickRate + 1 := by unfold wrap64; omega
  have hw2 : wrap64 (r.successRate + 1) = r.successRate + 1 := by unfold wrap64; omega
  have hinv := RPCClient.health_invariant ops RPCClient.fresh 0 (by simpa using hlen)
    (by decide)
  refine ⟨⟨hinv.1, hinv.2.1⟩, ⟨?_, rfl⟩, ?_⟩
  · simp only [RPCClient.markSick, hw1]
  · simp only [RPCClient.markAlive, hw2]
    split <;> rfl

/-- C13 (witness): five failures then five successes from a fresh client, and the steps of a
sick client with four successes in a row. -/
theorem health_state_machine_witness :
    (((RPCClient.fresh.apply [.markSick, .markSick, .markSick, .markSick, .markSick,
          .markAlive, .markAlive, .markAlive, .markAlive]).sick = true ↔
        5 ≤ (RPCClient.fresh.apply [.markSick, .markSick, .markSick, .markSick, .markSick,
          .markAlive, .markAlive, .markAlive, .markAlive]).sickRate) ∧
        0 ≤ (RPCClient.fresh.apply [.markSick, .markSick, .markSick, .markSick, .markSick,
          .markAlive, .markAlive, .markAlive, .markAlive]).successRate ∧
        (RPCClient.fresh.apply [.markSick, .markSick, .markSick, .markSick, .markSick,
          .markAlive, .markAlive, .markAlive, .markAlive]).successRate ≤ 4) ∧
      ((RPCClient.markSick ⟨true, 7, 4⟩).sickRate = (⟨true, 7, 4⟩ : RPCClient).sickRate + 1 ∧
        (RPCClient.markSick ⟨true, 7, 4⟩).successRate = 0) ∧
      (if 5 ≤ (⟨true, 7, 4⟩ : RPCClient).successRate + 1 then
          RPCClient.markAlive ⟨true, 7, 4⟩ = ⟨false, 0, 0⟩
        else RPCClient.markAlive ⟨true, 7, 4⟩ =
          { (⟨true, 7, 4⟩ : RPCClient) with
            successRate := (⟨true, 7, 4⟩ : RPCClient).successRate + 1 }) :=
  health_state_machine [.markSick, .markSick, .markSick, .markSick, .markSick,
    .markAlive, .markAlive, .markAlive, .markAlive] ⟨true, 7, 4⟩ (by decide) (by decide)
    (by decide)

/-- C14 (counterexample): a fresh client whose `getwork` request fails is not sick after the
call (`sickRate` is 1), yet `Check` returns false. -/
theorem Check_counterexample :
    RPCClient.fresh.Check .requestFailed = some (⟨false, 1, 0⟩, false) := by
  decide

/-- C14 (amended): for every client health state and every outcome of the `getwork` request for
which `Check` returns, `Check` returns true if and only if the request succeeded with a result
that decodes and the sick flag is false once `markAlive` has been applied; after a failure it
returns false whatever the sick flag is (the failed request has counted through `markSick`, a
result that does not decode changes nothing). -/
theorem Check_iff (r r1 : RPCClient) (o : GetWorkOutcome) (b : Bool)
    (h : r.Check o = some (r1, b)) :
    (b = true ↔ (o = .ok ∧ r1.sick = false)) ∧
      (o = .ok → r1 = r.markAlive) ∧ (o = .requestFailed → r1 = r.markSick) ∧
      (o = .badResult → r1 = r) := by
  cases o
  · simp only [RPCClient.Check, RPCClient.GetWork, Option.some.injEq, Prod.mk.injEq] at h
    obtain ⟨h1, h2⟩ := h
    subst h1; subst h2
    simp
  · simp [RPCClient.Check, RPCClient.GetWork] at h
  · simp only [RPCClient.Check, RPCClient.GetWork, Option.some.injEq, Prod.mk.injEq] at h
    obtain ⟨h1, h2⟩ := h
    subst h1; subst h2
    simp
  · simp only [RPCClient.Check, RPCClient.GetWork, Option.some.injEq, Prod.mk.injEq] at h
    obtain ⟨h1, h2⟩ := h
    subst h1; subst h2
    simp [RPCClient.Sick]

/-- C14 (witness): a sick client with four successes in a row recovers on the fifth. -/
theorem Check_iff_witness :
    (true = true ↔ (GetWorkOutcome.ok = .ok ∧ (⟨false, 0, 0⟩ : RPCClient).sick = false)) ∧
      (GetWorkOutcome.ok = .ok → (⟨false, 0, 0⟩ : RPCClient) = RPCClient.markAlive ⟨true, 7, 4⟩) ∧
      (GetWorkOutcome.ok = .requestFailed →
        (⟨false, 0, 0⟩ : RPCClient) = RPCClient.markSick ⟨true, 7, 4⟩) ∧
      (GetWorkOutcome.ok = .badResult → (⟨false, 0, 0⟩ : RPCClient) = ⟨true, 7, 4⟩) :=
  Check_iff ⟨true, 7, 4⟩ ⟨false, 0, 0⟩ .ok true (by decide)

/-! ## Upstream selection -/

theorem checkResults_length : ∀ (vs : List RPCClient) (os : List GetWorkOutcome),
    List.Forall₂ (fun v o => v.Check o ≠ none) vs os →
      (checkResults vs os).length = vs.length ∧ (checkedClients vs os).length = vs.length := by
  intro vs os h
  induction h with
  | nil => exact ⟨rfl, rfl⟩
  | cons _ _ ih => simp only [checkResults, checkedClients, List.length_cons, ih.1, ih.2, and_self]

theorem checkUpstreamsLoop_spec : ∀ (vs : List RPCClient) (os : List GetWorkOutcome),
    List.Forall₂ (fun v o => v.Check o ≠ none) vs os →
    ∀ (i : Nat) (candidate : Int) (backup : Bool),
      ∃ c b, checkUpstreamsLoop vs os i candidate backup = some (checkedClients vs os, c, b) ∧
        (backup = true → c = candidate) ∧
        (backup = false →
          ((∃ k, (checkResults vs os)[k]? = some true ∧
              (∀ j < k, (checkResults vs os)[j]? = some false) ∧
              c = wrap32 ((i + k : Nat) : Int)) ∨
            ((∀ x ∈ checkResults vs os, x = false) ∧ c = candidate))) := by
  intro vs os h
  induction h with
  | nil =>
    intro i candidate backup
    refine ⟨candidate, backup, rfl, fun _ => rfl, fun _ => Or.inr ⟨?_, rfl⟩⟩
    intro x hx
    simp [checkResults] at hx
  | @cons v o vs os hvo _ ih =>
    intro i candidate backup
    obtain ⟨⟨v1, ok⟩, hchk⟩ : ∃ p, v.Check o = some p := by
      cases hc : v.Check o with
      | none => exact absurd hc hvo
      | some p => exact ⟨p, rfl⟩
    obtain ⟨c, b, hloop, hb1, hb2⟩ := ih (i + 1)
      (if (ok && !backup) = true then wrap32 (i : Int) else candidate)
      (if (ok && !backup) = true then true else backup)
    refine ⟨c, b, ?_, ?_, ?_⟩
    · simp only [checkUpstreamsLoop, hchk, hloop, checkedClients]
    · intro hbk
      subst hbk
      simp only [Bool.not_true, Bool.and_false, Bool.false_eq_true, if_false] at hb1
      exact hb1 trivial
    · intro hbk
      subst hbk
      have hres : checkResults (v :: vs) (o :: os) = ok :: checkResults vs os := by
        simp only [checkResults, hchk]
      rw [hres]
      cases ok
      · simp only [Bool.false_and, Bool.false_eq_true, if_false] at hb2
        rcases hb2 trivial with ⟨k, hk1, hk2, hk3⟩ | ⟨hall, hc⟩
        · left
          refine ⟨k + 1, by simpa using hk1, ?_, ?_⟩
          · intro j hj
            cases j with
            | zero => simp
            | succ j => simpa using hk2 j (by omega)
          · rw [hk3]
            congr 1
            push_cast
            ring
        · right
          refine ⟨?_, hc⟩
          intro x hx
          rcases List.mem_cons.mp hx with h | h
          · exact h
          · exact hall x h
      · simp only [Bool.not_false, Bool.and_self, if_true] at hb1
        left
        refine ⟨0, by simp, fun j hj => absurd hj (Nat.not_lt_zero j), ?_⟩
        rw [hb1 trivial]; simp

/-- What `checkUpstreams` leaves for a non-empty list of at most `2^31` upstreams when every
`Check` returns. -/
theorem checkUpstreams_spec (s : ProxyServer) (outcomes : List GetWorkOutcome)
    (hne : s.upstreams ≠ []) (hlen : s.upstreams.length ≤ 2 ^ 31)
    (h : List.Forall₂ (fun v o => v.Check o ≠ none) s.upstreams outcomes) :
    ∃ s1, checkUpstreams s outcomes = some s1 ∧
      s1.upstreams = checkedClients s.upstreams outcomes ∧
      ((∃ k : Nat, (checkResults s.upstreams outcomes)[k]? = some true ∧
          (∀ j < k, (checkResults s.upstreams outcomes)[j]? = some false) ∧
          s1.upstream = (k : Int)) ∨
        ((∀ x ∈ checkResults s.upstreams outcomes, x = false) ∧ s1.upstream = 0)) := by
  obtain ⟨c, b, hloop, _, hb2⟩ := checkUpstreamsLoop_spec s.upstreams outcomes h 0 0 false
  obtain ⟨hl1, hl2⟩ := checkResults_length s.upstreams outcomes h
  have hpos : 0 < s.upstreams.length := List.length_pos.mpr hne
  have hc : ((∃ k : Nat, (checkResults s.upstreams outcomes)[k]? = some true ∧
        (∀ j < k, (checkResults s.upstreams outcomes)[j]? = some false) ∧ c = (k : Int)) ∨
      ((∀ x ∈ checkResults s.upstreams outcomes, x = false) ∧ c = 0)) ∧
      0 ≤ c ∧ c < (checkedClients s.upstreams outcomes).length := by
    rcases hb2 rfl with ⟨k, hk1, hk2, hk3⟩ | ⟨hall, hc⟩
    · have hk : k < s.upstreams.length := by
        rw [← hl1]
        exact (List.getElem?_eq_some.mp hk1).1
      have hw : wrap32 ((0 + k : Nat) : Int) = (k : Int) := by
        unfold wrap32
        have : (2 : Nat) ^ 31 = 2147483648 := by norm_num
        omega
      rw [hw] at hk3
      refine ⟨Or.inl ⟨k, hk1, hk2, hk3⟩, by omega, ?_⟩
      rw [hl2, hk3]
      exact_mod_cast hk
    · refine ⟨Or.inr ⟨hall, hc⟩, by omega, ?_⟩
      rw [hl2, hc]
      exact_mod_cast hpos
  obtain ⟨hsel, hc0, hc1⟩ := hc
  refine ⟨⟨c, checkedClients s.upstreams outcomes⟩, ?_, rfl, hsel⟩
  simp only [checkUpstreams, hloop]
  by_cases hup : s.upstream = c
  · simp [hup]
  · simp [hup, hc0, hc1]

/-- An empty list of upstreams with a non-zero active index: the log line of the switch reads
`s.upstreams[0]` and panics. -/
theorem checkUpstreams_empty : checkUpstreams ⟨1, []⟩ [] = none := by
  decide

/-- C15: for every non-empty list of upstreams (at most `2^31` of them, each `Check`
returning), `checkUpstreams` runs `Check` on every upstream, and afterwards the active index is
the smallest `i` whose `Check` returned true, or 0 when none did; so an upstream whose `Check`
returned false is not the active one afterwards whenever the `Check` of some upstream returned
true. -/
theorem checkUpstreams_first_healthy (s : ProxyServer) (outcomes : List GetWorkOutcome)
    (hne : s.upstreams ≠ []) (hlen : s.upstreams.length ≤ 2 ^ 31)
    (h : List.Forall₂ (fun v o => v.Check o ≠ none) s.upstreams outcomes) :
    ∃ s1, checkUpstreams s outcomes = some s1 ∧
      s1.upstreams = checkedClients s.upstreams outcomes ∧
      ((∃ k : Nat, (checkResults s.upstreams outcomes)[k]? = some true ∧
          (∀ j < k, (checkResults s.upstreams outcomes)[j]? = some false) ∧
          s1.upstream = (k : Int)) ∨
        ((∀ x ∈ checkResults s.upstreams outcomes, x = false) ∧ s1.upstream = 0)) ∧
      (∀ i : Nat, (checkResults s.upstreams outcomes)[i]? = some false →
        (∃ j : Nat, (checkResults s.upstreams outcomes)[j]? = some true) →
          s1.upstream ≠ (i : Int)) := by
  obtain ⟨s1, h1, h2, h3⟩ := checkUpstreams_spec s outcomes hne hlen h
  refine ⟨s1, h1, h2, h3, ?_⟩
  intro i hi ⟨j, hj⟩ heq
  rcases h3 with ⟨k, hk1, _, hk3⟩ | ⟨hall, _⟩
  · rw [hk3] at heq
    have : k = i := by exact_mod_cast heq
    subst this
    rw [hk1] at hi
    cases hi
  · have := hall true (List.getElem?_mem hj)
    cases this

/-- C15 (witness): three upstreams, the first failing its check. -/
theorem checkUpstreams_first_healthy_witness :
    ∃ s1, checkUpstreams ⟨0, [⟨false, 0, 0⟩, ⟨false, 0, 0⟩, ⟨true, 9, 0⟩]⟩
        [.requestFailed, .ok, .ok] = some s1 ∧
      s1.upstreams = checkedClients [⟨false, 0, 0⟩, ⟨false, 0, 0⟩, ⟨true, 9, 0⟩]
        [.requestFailed, .ok, .ok] ∧
      ((∃ k : Nat, (checkResults [⟨false, 0, 0⟩, ⟨false, 0, 0⟩, ⟨true, 9, 0⟩]
            [.requestFailed, .ok, .ok])[k]? = some true ∧
          (∀ j < k, (checkResults [⟨false, 0, 0⟩, ⟨false, 0, 0⟩, ⟨true, 9, 0⟩]
            [.requestFailed, .ok, .ok])[j]? = some false) ∧
          s1.upstream = (k : Int)) ∨
        ((∀ x ∈ checkResults [⟨false, 0, 0⟩, ⟨false, 0, 0⟩, ⟨true, 9, 0⟩]
            [.requestFailed, .ok, .ok], x = false) ∧ s1.upstream = 0)) ∧
      (∀ i : Nat, (checkResults [⟨false, 0, 0⟩, ⟨false, 0, 0⟩, ⟨true, 9, 0⟩]
          [.requestFailed, .ok, .ok])[i]? = some false →
        (∃ j : Nat, (checkResults [⟨false, 0, 0⟩, ⟨false, 0, 0⟩, ⟨true, 9, 0⟩]
          [.requestFailed, .ok, .ok])[j]? = some true) →
          s1.upstream ≠ (i : Int)) :=
  checkUpstreams_first_healthy ⟨0, [⟨false, 0, 0⟩, ⟨false, 0, 0⟩, ⟨true, 9, 0⟩]⟩
    [.requestFailed, .ok, .ok] (by decide) (by decide)
    (List.Forall₂.cons (by decide) (List.Forall₂.cons (by decide)
      (List.Forall₂.cons (by decide) List.Forall₂.nil)))

/-- C16 (counterexample): two healthy upstreams with the second one active: the `Check` of the
active upstream returns true, and `checkUpstreams` still switches to the first. -/
theorem checkUpstreams_sticky_counterexample :
    checkResults [⟨false, 0, 0⟩, ⟨false, 0, 0⟩] [.ok, .ok] = [true, true] ∧
      checkUpstreams ⟨1, [⟨false, 0, 0⟩, ⟨false, 0, 0⟩]⟩ [.ok, .ok] =
        some ⟨0, [⟨false, 0, 1⟩, ⟨false, 0, 1⟩]⟩ := by
  decide

/-- C16 (amended): the active upstream stays only while it is the first healthy one: for every
list of upstreams (at most `2^31` of them, each `Check` returning) and every current active
index `a` whose `Check` returns true during `checkUpstreams`, the active index is still `a`
afterwards if the `Check` of every upstream before `a` returns false; and if an upstream at a
lower index passes its `Check`, the active index afterwards is the lowest such index, which is
not `a`. -/
theorem checkUpstreams_sticky (s : ProxyServer) (outcomes : List GetWorkOutcome) (a : Nat)
    (h : List.Forall₂ (fun v o => v.Check o ≠ none) s.upstreams outcomes)
    (hlen : s.upstreams.length ≤ 2 ^ 31)
    (ha : s.upstream = (a : Int))
    (hchk : (checkResults s.upstreams outcomes)[a]? = some true) :
    ∃ s1, checkUpstreams s outcomes = some s1 ∧
      ((∀ j < a, (checkResults s.upstreams outcomes)[j]? = some false) →
        s1.upstream = s.upstream) ∧
      (∀ k < a, (checkResults s.upstreams outcomes)[k]? = some true →
        (∀ j < k, (checkResults s.upstreams outcomes)[j]? = some false) →
          s1.upstream = (k : Int) ∧ s1.upstream ≠ s.upstream) := by
  have hne : s.upstreams ≠ [] := by
    intro hnil
    rw [hnil] at hchk
    cases outcomes <;> simp [checkResults] at hchk
  obtain ⟨s1, h1, _, h3⟩ := checkUpstreams_spec s outcomes hne hlen h
  have hfirst : ∀ k : Nat, (checkResults s.upstreams outcomes)[k]? = some true →
      (∀ j < k, (checkResults s.upstreams outcomes)[j]? = some false) →
        s1.upstream = (k : Int) := by
    intro k hk hprev
    rcases h3 with ⟨k1, hk1, hk2, hk3⟩ | ⟨hall, _⟩
    · rw [hk3]
      rcases Nat.lt_trichotomy k1 k with hlt | heq | hgt
      · have := hprev k1 hlt
        rw [hk1] at this
        cases this
      · rw [heq]
      · have := hk2 k hgt
        rw [hk] at this
        cases this
    · have := hall true (List.getElem?_mem hk)
      cases this
  refine ⟨s1, h1, ?_, ?_⟩
  · intro hprev
    rw [ha]
    exact hfirst a hchk hprev
  · intro k hka hk hprev
    have hk1 := hfirst k hk hprev
    refine ⟨hk1, ?_⟩
    rw [hk1, ha]
    intro heq
    have : k = a := by exact_mod_cast heq
    omega

/-- C16 (witness): the third of three upstreams is active and healthy, the first fails its
check and the second passes it. -/
theorem checkUpstreams_sticky_witness :
    ∃ s1, checkUpstreams ⟨2, [⟨false, 0, 0⟩, ⟨false, 0, 0⟩, ⟨false, 0, 0⟩]⟩
        [.requestFailed, .ok, .ok] = some s1 ∧
      ((∀ j : Nat, j < 2 → (checkResults [⟨false, 0, 0⟩, ⟨false, 0, 0⟩, ⟨false, 0, 0⟩]
          [.requestFailed, .ok, .ok])[j]? = some false) →
        s1.upstream =
          (⟨2, [⟨false, 0, 0⟩, ⟨false, 0, 0⟩, ⟨false, 0, 0⟩]⟩ : ProxyServer).upstream) ∧
      (∀ k : Nat, k < 2 → (checkResults [⟨false, 0, 0⟩, ⟨false, 0, 0⟩, ⟨false, 0, 0⟩]
          [.requestFailed, .ok, .ok])[k]? = some true →
        (∀ j < k, (checkResults [⟨false, 0, 0⟩, ⟨false, 0, 0⟩, ⟨false, 0, 0⟩]
          [.requestFailed, .ok, .ok])[j]? = some false) →
          s1.upstream = (k : Int) ∧
            s1.upstream ≠
              (⟨2, [⟨false, 0, 0⟩, ⟨false, 0, 0⟩, ⟨false, 0, 0⟩]⟩ : ProxyServer).upstream) :=
  checkUpstreams_sticky ⟨2, [⟨false, 0, 0⟩, ⟨false, 0, 0⟩, ⟨false, 0, 0⟩]⟩
    [.requestFailed, .ok, .ok] 2
    (List.Forall₂.cons (by decide) (List.Forall₂.cons (by decide)
      (List.Forall₂.cons (by decide) List.Forall₂.nil)))
    (by decide) rfl (by decide)

/-! ## Addresses -/

theorem bytesAux_length_eq : ∀ (k fuel n : Nat) (acc : List Nat), n ≤ fuel →
    256 ^ k ≤ n → n < 256 ^ (k + 1) → (bytesAux fuel n acc).length = acc.length + k + 1 := by
  intro k
  induction k with
  | zero =>
    intro fuel n acc hf h1 h2
    obtain ⟨f, rfl⟩ : ∃ f, fuel = f + 1 := ⟨fuel - 1, by omega⟩
    have hn : n ≠ 0 := by omega
    rw [bytesAux, if_neg hn]
    have h0 : n / 256 = 0 := by omega
    rw [h0]
    cases f with
    | zero => simp [bytesAux]
    | succ f => simp [bytesAux]
  | succ k ih =>
    intro fuel n acc hf h1 h2
    have hpos : 0 < 256 ^ k := pow_pos (by norm_num) _
    have hn : n ≠ 0 := by
      have : 0 < 256 ^ (k + 1) := pow_pos (by norm_num) _
      omega
    obtain ⟨f, rfl⟩ : ∃ f, fuel = f + 1 := ⟨fuel - 1, by omega⟩
    rw [bytesAux, if_neg hn]
    have hlo : 256 ^ k ≤ n / 256 := by
      rw [Nat.le_div_iff_mul_le (by norm_num)]
      rw [pow_succ] at h1
      exact h1
    have hhi : n / 256 < 256 ^ (k + 1) := by
      rw [Nat.div_lt_iff_lt_mul (by norm_num)]
      rw [pow_succ] at h2
      exact h2
    have hfu : n / 256 ≤ f := by omega
    rw [ih f (n / 256) (n % 256 :: acc) hfu hlo hhi]
    simp only [List.length_cons]
    omega

theorem alphabet_index : ∀ c ∈ bitcoinAlphabet.toList,
    utf8Bytes c = [c.toNat] ∧ 0 ≤ IndexByte b58Alphabet c.toNat ∧
      IndexByte b58Alphabet c.toNat ≤ 57 := by
  decide

theorem b58Alphabet_length : (b58Alphabet.length : Int) = 58 := by decide

theorem base58_fold_bounds : ∀ (rest : List Char) (r : Int), 0 ≤ r →
    (∀ c ∈ rest, c ∈ bitcoinAlphabet.toList) →
    r * 58 ^ rest.length ≤ ((rest.map utf8Bytes).flatten).foldl
        (fun result b => result * (b58Alphabet.length : Int) + IndexByte b58Alphabet b) r ∧
      ((rest.map utf8Bytes).flatten).foldl
        (fun result b => result * (b58Alphabet.length : Int) + IndexByte b58Alphabet b) r <
        (r + 1) * 58 ^ rest.length := by
  intro rest
  induction rest with
  | nil => intro r _ _; simp
  | cons c rest ih =>
    intro r hr hall
    obtain ⟨hb, h0, h57⟩ := alphabet_index c (hall c (List.mem_cons_self _ _))
    have hrest : ∀ x ∈ rest, x ∈ bitcoinAlphabet.toList :=
      fun x hx => hall x (List.mem_cons_of_mem _ hx)
    simp only [List.map_cons, List.flatten_cons, hb, List.singleton_append, List.foldl_cons,
      List.length_cons, b58Alphabet_length]
    obtain ⟨h1, h2⟩ := ih (r * 58 + IndexByte b58Alphabet c.toNat) (by positivity) hrest
    have hp : (0 : Int) < 58 ^ rest.length := by positivity
    constructor
    · refine le_trans ?_ h1
      rw [pow_succ]
      nlinarith
    · refine lt_of_lt_of_le h2 ?_
      rw [pow_succ]
      nlinarith

theorem addressPattern_iff (s : String) :
    addressPattern s = true ↔
      ∃ rest, s.toList = 'M' :: rest ∧ rest.length = 33 ∧
        ∀ c ∈ rest, c ∈ bitcoinAlphabet.toList := by
  unfold addressPattern
  constructor
  · intro h
    split at h
    · rename_i rest heq
      simp only [Bool.and_eq_true, beq_iff_eq, List.all_eq_true] at h
      exact ⟨rest, heq, h.1, fun c hc => by simpa using h.2 c hc⟩
    · cases h
  · rintro ⟨rest, heq, hlen, hall⟩
    rw [heq]
    simp only [Bool.and_eq_true, beq_iff_eq, List.all_eq_true]
    exact ⟨hlen, fun c hc => by simpa using hall c hc⟩

theorem Base58Decode_address (s : String) (h : addressPattern s = true) :
    zeroBytes (toBytes s) = 0 ∧ 2 ^ 192 ≤ base58Result (toBytes s) ∧
      base58Result (toBytes s) < 2 ^ 200 ∧ (Base58Decode (toBytes s)).length = 25 := by
  obtain ⟨rest, heq, hlen, hall⟩ := (addressPattern_iff s).mp h
  have hM : utf8Bytes 'M' = [77] := by decide
  have hbytes : toBytes s = 77 :: (rest.map utf8Bytes).flatten := by
    simp only [toBytes, heq, List.map_cons, List.flatten_cons, hM, List.singleton_append]
  have hfirst : b58Alphabet.getD 0 0 = 49 := by decide
  have hz : zeroBytes (toBytes s) = 0 := by
    unfold zeroBytes
    rw [hfirst, hbytes]
    simp
  have h20 : IndexByte b58Alphabet 77 = 20 := by decide
  obtain ⟨h1, h2⟩ := base58_fold_bounds rest 20 (by norm_num) hall
  have hres : base58Result (toBytes s) = ((rest.map utf8Bytes).flatten).foldl
      (fun result b => result * (b58Alphabet.length : Int) + IndexByte b58Alphabet b) 20 := by
    unfold base58Result
    rw [hz, hbytes]
    simp only [List.drop_zero, List.foldl_cons, h20, zero_mul, zero_add]
  rw [← hres, hlen] at h1 h2
  have hlo : (2 : Int) ^ 192 ≤ base58Result (toBytes s) := le_trans (by norm_num) h1
  have hhi : base58Result (toBytes s) < 2 ^ 200 := lt_of_lt_of_le h2 (by norm_num)
  refine ⟨hz, hlo, hhi, ?_⟩
  unfold Base58Decode
  rw [hz]
  simp only [List.replicate_zero, List.nil_append, Bytes]
  have hn1 : 256 ^ 24 ≤ (base58Result (toBytes s)).natAbs := by
    have : ((256 ^ 24 : Nat) : Int) ≤ ((base58Result (toBytes s)).natAbs : Int) := by
      rw [Int.natCast_natAbs, abs_of_nonneg (le_trans (by norm_num) hlo)]
      exact le_trans (by norm_num) hlo
    exact_mod_cast this
  have hn2 : (base58Result (toBytes s)).natAbs < 256 ^ 25 := by
    have : ((base58Result (toBytes s)).natAbs : Int) < ((256 ^ 25 : Nat) : Int) := by
      rw [Int.natCast_natAbs, abs_of_nonneg (le_trans (by norm_num) hlo)]
      exact lt_of_lt_of_le hhi (by norm_num)
    exact_mod_cast this
  rw [bytesAux_length_eq 24 _ _ [] le_rfl hn1 hn2]
  rfl

theorem IsValidBitcoinAddress_eq (sha256 : List Nat → List Nat)
    (hsha : ∀ x, (sha256 x).length = 32) (s : String) :
    IsValidBitcoinAddress sha256 s = some (addressPattern s &&
      decide ((sha256 (sha256 ((Base58Decode (toBytes s)).take
          ((Base58Decode (toBytes s)).length - 4)))).take 4 =
        (Base58Decode (toBytes s)).drop ((Base58Decode (toBytes s)).length - 4))) := by
  unfold IsValidBitcoinAddress
  cases hp : addressPattern s with
  | false => simp
  | true =>
    obtain ⟨_, _, _, hlen⟩ := Base58Decode_address s hp
    simp [hlen, hsha]

/-- C17: for every string `s` (and every hash with 32-byte digests), `IsValidBitcoinAddress`
returns, and it returns true exactly when `s` is `M` followed by 33 characters of the base58
alphabet and the last four bytes of `Base58Decode s` are the first four bytes of the double hash
of all its bytes but the last four; so an accepted address decodes to a payload followed by the
4-byte double-hash prefix of that payload. -/
theorem IsValidBitcoinAddress_iff (sha256 : List Nat → List Nat)
    (hsha : ∀ x, (sha256 x).length = 32) (s : String) :
    ∃ b, IsValidBitcoinAddress sha256 s = some b ∧
      (b = true ↔
        (∃ rest, s.toList = 'M' :: rest ∧ rest.length = 33 ∧
          ∀ c ∈ rest, c ∈ bitcoinAlphabet.toList) ∧
        (Base58Decode (toBytes s)).drop ((Base58Decode (toBytes s)).length - 4) =
          (sha256 (sha256 ((Base58Decode (toBytes s)).take
            ((Base58Decode (toBytes s)).length - 4)))).take 4) ∧
      (b = true → ∃ payload check, Base58Decode (toBytes s) = payload ++ check ∧
        check.length = 4 ∧ check = (sha256 (sha256 payload)).take 4) := by
  refine ⟨_, IsValidBitcoinAddress_eq sha256 hsha s, ?_, ?_⟩
  · rw [← addressPattern_iff]
    simp only [Bool.and_eq_true, decide_eq_true_eq]
    constructor
    · rintro ⟨h1, h2⟩; exact ⟨h1, h2.symm⟩
    · rintro ⟨h1, h2⟩; exact ⟨h1, h2.symm⟩
  · simp only [Bool.and_eq_true, decide_eq_true_eq]
    rintro ⟨hp, hc⟩
    obtain ⟨_, _, _, hlen⟩ := Base58Decode_address s hp
    refine ⟨(Base58Decode (toBytes s)).take ((Base58Decode (toBytes s)).length - 4),
      (Base58Decode (toBytes s)).drop ((Base58Decode (toBytes s)).length - 4),
      (List.take_append_drop _ _).symm, ?_, hc.symm⟩
    rw [List.length_drop, hlen]

/-- C17 (witness): the address of 34 letters `M` under a hash that always gives 32 zero bytes. -/
theorem IsValidBitcoinAddress_iff_witness :
    (∀ x : List Nat, ((fun _ => List.replicate 32 0) x : List Nat).length = 32) ∧
    ∃ b, IsValidBitcoinAddress (fun _ => List.replicate 32 0)
        "MMMMMMMMMMMMMMMMMMMMMMMMMMMMMMMMMM" = some b ∧
      (b = true ↔
        (∃ rest, "MMMMMMMMMMMMMMMMMMMMMMMMMMMMMMMMMM".toList = 'M' :: rest ∧ rest.length = 33 ∧
          ∀ c ∈ rest, c ∈ bitcoinAlphabet.toList) ∧
        (Base58Decode (toBytes "MMMMMMMMMMMMMMMMMMMMMMMMMMMMMMMMMM")).drop
            ((Base58Decode (toBytes "MMMMMMMMMMMMMMMMMMMMMMMMMMMMMMMMMM")).length - 4) =
          ((fun _ => List.replicate 32 0) ((fun _ => List.replicate 32 0)
            ((Base58Decode (toBytes "MMMMMMMMMMMMMMMMMMMMMMMMMMMMMMMMMM")).take
            ((Base58Decode (toBytes "MMMMMMMMMMMMMMMMMMMMMMMMMMMMMMMMMM")).length - 4)))).take 4) ∧
      (b = true → ∃ payload check,
        Base58Decode (toBytes "MMMMMMMMMMMMMMMMMMMMMMMMMMMMMMMMMM") = payload ++ check ∧
        check.length = 4 ∧
        check = ((fun _ => List.replicate 32 0) ((fun _ => List.replicate 32 0) payload)).take 4) :=
  ⟨fun _ => List.length_replicate _ _,
    IsValidBitcoinAddress_iff (fun _ => List.replicate 32 0)
      (fun _ => List.length_replicate _ _) "MMMMMMMMMMMMMMMMMMMMMMMMMMMMMMMMMM"⟩

/-- C20: for every string `s` matching the address pattern, `Base58Decode s` has exactly 25 bytes
(no leading zero byte is counted and `2^192 ≤ result < 2^200`), so the two slices taken by
`IsValidBitcoinAddress` are in range; and `IsValidBitcoinAddress` returns a boolean on every
string. -/
theorem Base58Decode_length (sha256 : List Nat → List Nat)
    (hsha : ∀ x, (sha256 x).length = 32) (s : String) (h : addressPattern s = true) :
    ((Base58Decode (toBytes s)).length = 25 ∧ zeroBytes (toBytes s) = 0 ∧
        2 ^ 192 ≤ base58Result (toBytes s) ∧ base58Result (toBytes s) < 2 ^ 200) ∧
      (∃ b, IsValidBitcoinAddress sha256 s = some b) ∧
      (∀ t : String, ∃ b, IsValidBitcoinAddress sha256 t = some b) := by
  obtain ⟨h1, h2, h3, h4⟩ := Base58Decode_address s h
  exact ⟨⟨h4, h1, h2, h3⟩, ⟨_, IsValidBitcoinAddress_eq sha256 hsha s⟩,
    fun t => ⟨_, IsValidBitcoinAddress_eq sha256 hsha t⟩⟩

/-- C20 (witness): the address `M` followed by 33 characters `1`, the least decoded value. -/
theorem Base58Decode_length_witness :
    (∀ x : List Nat, ((fun _ => List.replicate 32 7) x : List Nat).length = 32) ∧
    addressPattern "M111111111111111111111111111111111" = true ∧
    ((Base58Decode (toBytes "M111111111111111111111111111111111")).length = 25 ∧
        zeroBytes (toBytes "M111111111111111111111111111111111") = 0 ∧
        2 ^ 192 ≤ base58Result (toBytes "M111111111111111111111111111111111") ∧
        base58Result (toBytes "M111111111111111111111111111111111") < 2 ^ 200) ∧
      (∃ b, IsValidBitcoinAddress (fun _ => List.replicate 32 7)
        "M111111111111111111111111111111111" = some b) ∧
      (∀ t : String, ∃ b, IsValidBitcoinAddress (fun _ => List.replicate 32 7) t = some b) :=
  ⟨fun _ => List.length_replicate _ _, by decide,
    Base58Decode_length (fun _ => List.replicate 32 7) (fun _ => List.length_replicate _ _)
      "M111111111111111111111111111111111" (by decide)⟩

/-! ## calculateRewards: the accounting identities -/

theorem sharesLoop_some (total : Int) (reward : ℚ) (ht : total ≠ 0) :
    ∀ (shares rewards : List (String × Int)),
      ∃ r, sharesLoop total reward shares rewards = some r := by
  intro shares
  induction shares with
  | nil => intro rewards; exact ⟨rewards, rfl⟩
  | cons p rest ih =>
    intro rewards
    obtain ⟨login, n⟩ := p
    simp only [sharesLoop, if_neg ht]
    exact ih _

theorem donationFee_percent :
    (donationFee.div (Float64.ofNat 100)).toRat = 3602879701896397 / 36028797018963968 := by
  decide!

/-- C18: for every candidate (with `Reward` set and `TotalShares > 0`, as for every candidate the
unlocker credits) and every configuration, when the round-share lookup succeeds
`calculateRewards` returns `revenue = Reward + ExtraReward` (0 for a nil `ExtraReward`) and
`minersProfit = Reward − Reward × fee`, `fee` being the binary64 quotient `PoolFee / 100`; with
`Donate` false `minersProfit + poolProfit = revenue`; with `Donate` true `poolProfit` is
`Reward × fee + ExtraReward` less the donation `chargeFee` takes from it at 10 percent (the
binary64 quotient `10 / 100`), and `minersProfit + poolProfit + donation = revenue`. -/
theorem calculateRewards_accounting (cfg : UnlockerConfig) (shares : List (String × Int))
    (block : BlockData) (r : Int) (hR : block.Reward = some r) (ht : 0 < block.TotalShares) :
    ∃ res, calculateRewards cfg (.ok shares) block = some (.ok res) ∧
      res.revenue = (r : ℚ) + ((block.ExtraReward.getD 0 : Int) : ℚ) ∧
      res.minersProfit = (r : ℚ) - (r : ℚ) * (cfg.PoolFee.div (Float64.ofNat 100)).toRat ∧
      (cfg.Donate = false →
        res.poolProfit = (r : ℚ) * (cfg.PoolFee.div (Float64.ofNat 100)).toRat +
            ((block.ExtraReward.getD 0 : Int) : ℚ) ∧
          res.minersProfit + res.poolProfit = res.revenue) ∧
      (cfg.Donate = true →
        res.poolProfit = ((r : ℚ) * (cfg.PoolFee.div (Float64.ofNat 100)).toRat +
              ((block.ExtraReward.getD 0 : Int) : ℚ)) -
            (chargeFee ((r : ℚ) * (cfg.PoolFee.div (Float64.ofNat 100)).toRat +
              ((block.ExtraReward.getD 0 : Int) : ℚ)) donationFee).2 ∧
          (chargeFee ((r : ℚ) * (cfg.PoolFee.div (Float64.ofNat 100)).toRat +
              ((block.ExtraReward.getD 0 : Int) : ℚ)) donationFee).2 =
            ((r : ℚ) * (cfg.PoolFee.div (Float64.ofNat 100)).toRat +
              ((block.ExtraReward.getD 0 : Int) : ℚ)) *
              (3602879701896397 / 36028797018963968) ∧
          res.minersProfit + res.poolProfit +
            (chargeFee ((r : ℚ) * (cfg.PoolFee.div (Float64.ofNat 100)).toRat +
              ((block.ExtraReward.getD 0 : Int) : ℚ)) donationFee).2 = res.revenue) := by
  obtain ⟨rw0, hloop⟩ := sharesLoop_some block.TotalShares
    ((r : ℚ) - (r : ℚ) * (cfg.PoolFee.div (Float64.ofNat 100)).toRat) (by omega) shares []
  have hpre : (match block.ExtraReward with
      | some extra => (r : ℚ) * (cfg.PoolFee.div (Float64.ofNat 100)).toRat + (extra : ℚ)
      | none => (r : ℚ) * (cfg.PoolFee.div (Float64.ofNat 100)).toRat) =
      (r : ℚ) * (cfg.PoolFee.div (Float64.ofNat 100)).toRat +
        ((block.ExtraReward.getD 0 : Int) : ℚ) := by
    cases block.ExtraReward <;> simp
  have hrev : (match block.ExtraReward with
      | some extra => (r : ℚ) + (extra : ℚ)
      | none => (r : ℚ)) = (r : ℚ) + ((block.ExtraReward.getD 0 : Int) : ℚ) := by
    cases block.ExtraReward <;> simp
  have hcalc : ∃ rws, calculateRewards cfg (.ok shares) block = some (.ok
      ⟨(r : ℚ) + ((block.ExtraReward.getD 0 : Int) : ℚ),
        (r : ℚ) - (r : ℚ) * (cfg.PoolFee.div (Float64.ofNat 100)).toRat,
        if cfg.Donate then
          (chargeFee ((r : ℚ) * (cfg.PoolFee.div (Float64.ofNat 100)).toRat +
            ((block.ExtraReward.getD 0 : Int) : ℚ)) donationFee).1
        else (r : ℚ) * (cfg.PoolFee.div (Float64.ofNat 100)).toRat +
          ((block.ExtraReward.getD 0 : Int) : ℚ), rws⟩) := by
    have hstep : calculateRewards cfg (.ok shares) block =
        (match sharesLoop block.TotalShares
            ((r : ℚ) - (r : ℚ) * (cfg.PoolFee.div (Float64.ofNat 100)).toRat) shares [] with
          | none => none
          | some rewards =>
            some (.ok ⟨(r : ℚ) + ((block.ExtraReward.getD 0 : Int) : ℚ),
              (r : ℚ) - (r : ℚ) * (cfg.PoolFee.div (Float64.ofNat 100)).toRat,
              if cfg.Donate then
                (chargeFee ((r : ℚ) * (cfg.PoolFee.div (Float64.ofNat 100)).toRat +
                  ((block.ExtraReward.getD 0 : Int) : ℚ)) donationFee).1
              else (r : ℚ) * (cfg.PoolFee.div (Float64.ofNat 100)).toRat +
                ((block.ExtraReward.getD 0 : Int) : ℚ),
              if len cfg.PoolFeeAddress ≠ 0 then
                mapAdd (if cfg.Donate then mapAdd rewards donationAccount
                    (ParseInt (FloatString0 (chargeFee
                      ((r : ℚ) * (cfg.PoolFee.div (Float64.ofNat 100)).toRat +
                        ((block.ExtraReward.getD 0 : Int) : ℚ)) donationFee).2) 10)
                  else rewards) cfg.PoolFeeAddress
                  (ParseInt (FloatString0 (if cfg.Donate then
                      (chargeFee ((r : ℚ) * (cfg.PoolFee.div (Float64.ofNat 100)).toRat +
                        ((block.ExtraReward.getD 0 : Int) : ℚ)) donationFee).1
                    else (r : ℚ) * (cfg.PoolFee.div (Float64.ofNat 100)).toRat +
                      ((block.ExtraReward.getD 0 : Int) : ℚ))) 10)
              else (if cfg.Donate then mapAdd rewards donationAccount
                    (ParseInt (FloatString0 (chargeFee
                      ((r : ℚ) * (cfg.PoolFee.div (Float64.ofNat 100)).toRat +
                        ((block.ExtraReward.getD 0 : Int) : ℚ)) donationFee).2) 10)
                  else rewards)⟩)) := by
      simp only [calculateRewards, hR, calculateRewardsForShares]
      rw [← hpre, ← hrev]
      rfl
    rw [hstep, hloop]
    exact ⟨_, rfl⟩
  obtain ⟨rws, hcalc⟩ := hcalc
  refine ⟨_, hcalc, rfl, rfl, ?_, ?_⟩
  · intro hd
    simp only [hd, Bool.false_eq_true, if_false]
    refine ⟨trivial, ?_⟩
    ring
  · intro hd
    simp only [hd, if_true, chargeFee, donationFee_percent]
    refine ⟨trivial, trivial, ?_⟩
    ring

/-- C18 (witness): a block of 100 with an extra reward of 7, a pool fee of 1 percent and a
donation. -/
theorem calculateRewards_accounting_witness :
    (0 : Int) < (⟨10, 5, "0x10", "00000000ff", false, 4, some 100, some 7⟩ :
        BlockData).TotalShares ∧
    ∃ res, calculateRewards ⟨Float64.ofNat 1, "MFEE", true, 32, 16, true, "MADDR"⟩
        (.ok [("A", 3), ("B", 1)])
        ⟨10, 5, "0x10", "00000000ff", false, 4, some 100, some 7⟩ = some (.ok res) ∧
      res.revenue = ((100 : Int) : ℚ) +
        (((⟨10, 5, "0x10", "00000000ff", false, 4, some 100, some 7⟩ :
          BlockData).ExtraReward.getD 0 : Int) : ℚ) :=
  ⟨by decide,
    let ⟨res, h1, h2, _⟩ := calculateRewards_accounting
      ⟨Float64.ofNat 1, "MFEE", true, 32, 16, true, "MADDR"⟩ [("A", 3), ("B", 1)]
      ⟨10, 5, "0x10", "00000000ff", false, 4, some 100, some 7⟩ 100 rfl (by decide)
    ⟨res, h1, h2⟩⟩

/-! ## A failing handleBlock -/

theorem unlockCandidatesLoop_append (w : World) (cfg : UnlockerConfig) :
    ∀ (pre rest : List BlockData) (u u1 : BlockUnlocker) (r r1 : UnlockResult),
      unlockCandidatesLoop w cfg pre u r = some (u1, .ok r1) →
        unlockCandidatesLoop w cfg (pre ++ rest) u r = unlockCandidatesLoop w cfg rest u1 r1 := by
  intro pre
  induction pre with
  | nil =>
    intro rest u u1 r r1 h
    simp only [unlockCandidatesLoop, Option.some.injEq, Prod.mk.injEq, Except.ok.injEq] at h
    obtain ⟨rfl, rfl⟩ := h
    rfl
  | cons c pre ih =>
    intro rest u u1 r r1 h
    simp only [List.cons_append, unlockCandidatesLoop] at h ⊢
    cases hb : w.GetBlockByHeight u.calls c.Height with
    | error e => rw [hb] at h; simp at h
    | ok ob =>
      rw [hb] at h
      cases ob with
      | none => simp at h
      | some block =>
        simp only at h ⊢
        cases hm : matchCandidate cfg block c with
        | none => rw [hm] at h; simp at h
        | some b =>
          rw [hm] at h
          cases b with
          | false => exact ih rest _ _ _ _ h
          | true =>
            simp only at h ⊢
            cases hh : handleBlock cfg block c with
            | none => rw [hh] at h; simp at h
            | some p =>
              obtain ⟨c2, oe⟩ := p
              rw [hh] at h
              cases oe with
              | some e => simp at h
              | none =>
                simp only at h ⊢
                by_cases hlen : len c2.Hash < 10
                · rw [if_pos hlen] at h; simp at h
                · rw [if_neg hlen] at h ⊢
                  exact ih rest _ _ _ _ h

theorem unlockCandidatesLoop_calls (w : World) (cfg : UnlockerConfig) :
    ∀ (cs : List BlockData) (u : BlockUnlocker) (r : UnlockResult)
      (res : BlockUnlocker × Except UnlockError UnlockResult),
      unlockCandidatesLoop w cfg cs u r = some res →
        ∃ reads, res.1.calls = u.calls ++ reads ∧ ∀ ev ∈ reads, Event.isWrite ev = false := by
  intro cs
  induction cs with
  | nil =>
    intro u r res h
    simp only [unlockCandidatesLoop, Option.some.injEq] at h
    exact ⟨[], by rw [← h]; simp, by simp⟩
  | cons c cs ih =>
    intro u r res h
    have hone : ∀ u2 : BlockUnlocker, u2.calls = u.calls ++ [.GetBlockByHeight c.Height] →
        ∃ reads, u2.calls = u.calls ++ reads ∧ ∀ ev ∈ reads, Event.isWrite ev = false := by
      intro u2 h2
      refine ⟨[.GetBlockByHeight c.Height], h2, ?_⟩
      intro ev hev
      simp only [List.mem_singleton] at hev
      rw [hev]; rfl
    have hmore : ∀ (r2 : UnlockResult),
        unlockCandidatesLoop w cfg cs (u.call (.GetBlockByHeight c.Height)) r2 = some res →
        ∃ reads, res.1.calls = u.calls ++ reads ∧ ∀ ev ∈ reads, Event.isWrite ev = false := by
      intro r2 h2
      obtain ⟨reads, hr1, hr2⟩ := ih _ _ res h2
      refine ⟨.GetBlockByHeight c.Height :: reads, ?_, ?_⟩
      · rw [hr1]; simp [BlockUnlocker.call]
      · intro ev hev
        rcases List.mem_cons.mp hev with h3 | h3
        · rw [h3]; rfl
        · exact hr2 ev h3
    simp only [unlockCandidatesLoop] at h
    split at h
    · simp only [Option.some.injEq] at h; rw [← h]; exact hone _ rfl
    · simp only [Option.some.injEq] at h; rw [← h]; exact hone _ rfl
    · split at h
      · cases h
      · split at h
        · cases h
        · simp only [Option.some.injEq] at h; rw [← h]; exact hone _ rfl
        · split at h
          · cases h
          · exact hmore _ h
      · exact hmore _ h

/-- C11: in either phase, when the candidates before `c` in the loaded batch are classified
without error and `c` matches its chain block while `handleBlock` fails for it with `err`, the
phase returns with `halt = true` and `lastFail = err`, and every call it made to the node or the
backend is a read: no orphan, immature, matured or credit write, also for the candidates
classified before `c`.  A block whose coinbase pays another address than `config.Address` only
moves the candidate to `orphanedBlocks` with `Orphan = true`, and `halt` and `lastFail` stay as
they are. -/
theorem handleBlock_failure_halts (w : World) (cfg : UnlockerConfig) (p : Phase)
    (u u1 : BlockUnlocker) (number : Nat) (pre post : List BlockData) (c c1 : BlockData)
    (block : GetBlockReply) (err : UnlockError) (r1 : UnlockResult)
    (hhalt : u.halt = false)
    (hpend : w.GetPendingBlock u.calls = .ok (some number))
    (hload : Phase.load w cfg number (u.calls ++ [.GetPendingBlock]) p = .ok (pre ++ c :: post))
    (hpre : unlockCandidates w cfg pre
      ((u.call .GetPendingBlock).call (Phase.loadEvent cfg number p)) = some (u1, .ok r1))
    (hblock : w.GetBlockByHeight u1.calls c.Height = .ok (some block))
    (hmatch : matchCandidate cfg block c = some true)
    (hfail : handleBlock cfg block c = some (c1, some err)) :
    (∃ u2, runPhases w cfg [p] u = some u2 ∧ u2.halt = true ∧ u2.lastFail = some err ∧
      ∃ reads, u2.calls = u.calls ++ reads ∧ ∀ ev ∈ reads, Event.isWrite ev = false) ∧
    (∀ (c2 : BlockData) (block2 : GetBlockReply) (tx : MVSTx) (txs : List MVSTx)
        (out : MVSTxOutput) (outs : List MVSTxOutput) (rest : List BlockData)
        (v : BlockUnlocker) (result : UnlockResult),
      w.GetBlockByHeight v.calls c2.Height = .ok (some block2) →
      block2.Transactions = tx :: txs → tx.Outputs = out :: outs →
      out.Address ≠ cfg.Address →
        unlockCandidatesLoop w cfg (c2 :: rest) v result =
            unlockCandidatesLoop w cfg rest (v.call (.GetBlockByHeight c2.Height))
              { result with
                orphans := result.orphans + 1
                orphanedBlocks := result.orphanedBlocks ++ [{ c2 with Orphan := true }] } ∧
          unlockCandidates w cfg [c2] v =
            some (v.call (.GetBlockByHeight c2.Height),
              .ok ⟨[], [{ c2 with Orphan := true }], 1, 0, 0⟩) ∧
          (v.call (.GetBlockByHeight c2.Height)).halt = v.halt ∧
          (v.call (.GetBlockByHeight c2.Height)).lastFail = v.lastFail) := by
  constructor
  · have hne : (pre ++ c :: post).length ≠ 0 := by simp
    have hloop : unlockCandidates w cfg (pre ++ c :: post)
        ((u.call .GetPendingBlock).call (Phase.loadEvent cfg number p)) =
        some ((u1.call (.GetBlockByHeight c.Height)).fail err, .error err) := by
      unfold unlockCandidates at hpre ⊢
      rw [unlockCandidatesLoop_append w cfg pre (c :: post) _ u1 _ r1 hpre]
      simp only [unlockCandidatesLoop, hblock, hmatch, hfail]
    obtain ⟨reads, hr1, hr2⟩ := unlockCandidatesLoop_calls w cfg pre _ _ _ hpre
    have hcalls : ∃ reads2, (((u1.call (.GetBlockByHeight c.Height)).fail err).fail err).calls =
        u.calls ++ reads2 ∧ ∀ ev ∈ reads2, Event.isWrite ev = false := by
      refine ⟨[.GetPendingBlock, Phase.loadEvent cfg number p] ++ reads ++
        [.GetBlockByHeight c.Height], ?_, ?_⟩
      · simp only [BlockUnlocker.fail, BlockUnlocker.call] at hr1 ⊢
        rw [hr1]
        simp
      · intro ev hev
        simp only [List.mem_append, List.mem_cons, List.mem_singleton, List.not_mem_nil,
          or_false] at hev
        rcases hev with ((h | h) | h) | h
        · rw [h]; rfl
        · rw [h]; cases p <;> rfl
        · exact hr2 ev h
        · rw [h]; rfl
    cases p with
    | unlockPendingBlocks =>
      refine ⟨_, ?_, rfl, rfl, hcalls⟩
      simp only [Phase.load] at hload
      simp only [Phase.loadEvent] at hloop
      simp only [runPhases, unlockPendingBlocks, hhalt, hpend, BlockUnlocker.call, hload,
        if_neg hne, Bool.false_eq_true, if_false]
      simp only [BlockUnlocker.call, hhalt] at hloop
      rw [hloop]
    | unlockAndCreditMiners =>
      refine ⟨_, ?_, rfl, rfl, hcalls⟩
      simp only [Phase.load] at hload
      simp only [Phase.loadEvent] at hloop
      simp only [runPhases, unlockAndCreditMiners, hhalt, hpend, BlockUnlocker.call, hload,
        if_neg hne, Bool.false_eq_true, if_false]
      simp only [BlockUnlocker.call, hhalt] at hloop
      rw [hloop]
  · intro c2 block2 tx txs out outs rest v result hb htx hout haddr
    have hm : matchCandidate cfg block2 c2 = some false := by
      simp only [matchCandidate, htx, hout]
      rw [if_pos haddr]
    refine ⟨?_, ?_, rfl, rfl⟩
    · simp only [unlockCandidatesLoop, hb, hm]
    · simp only [unlockCandidates, unlockCandidatesLoop, hb, hm]
      rfl

/-- C11 (witness): the first candidate of the batch is an orphan and the second matches a block
whose coinbase has two outputs. -/
theorem handleBlock_failure_halts_witness :
    ∃ u2, runPhases
        (constWorld 100 exampleChain
          [⟨10, 10, "0x10", "", false, 4, none, none⟩, ⟨11, 11, "0x11", "", false, 4, none, none⟩])
        ⟨Float64.ofNat 1, "", false, 32, 16, true, "MADDR"⟩ [.unlockPendingBlocks]
        ⟨false, none, []⟩ = some u2 ∧
      u2.halt = true ∧ u2.lastFail = some .coinbaseOutputLength ∧
      ∃ reads, u2.calls = (⟨false, none, []⟩ : BlockUnlocker).calls ++ reads ∧
        ∀ ev ∈ reads, Event.isWrite ev = false :=
  (handleBlock_failure_halts
    (constWorld 100 exampleChain
      [⟨10, 10, "0x10", "", false, 4, none, none⟩, ⟨11, 11, "0x11", "", false, 4, none, none⟩])
    ⟨Float64.ofNat 1, "", false, 32, 16, true, "MADDR"⟩ .unlockPendingBlocks
    ⟨false, none, []⟩
    ⟨false, none, [.GetPendingBlock, .GetCandidates 84, .GetBlockByHeight 10]⟩
    100 [⟨10, 10, "0x10", "", false, 4, none, none⟩] []
    ⟨11, 11, "0x11", "", false, 4, none, none⟩ ⟨11, 11, "0x11", "", false, 4, none, none⟩
    ⟨"00000000bb", "17", 11, [⟨"tx11", [⟨"MADDR", 300000000⟩, ⟨"MADDR", 1⟩]⟩]⟩
    .coinbaseOutputLength ⟨[], [⟨10, 10, "0x10", "", true, 4, none, none⟩], 1, 0, 0⟩
    rfl rfl rfl (by decide) rfl (by decide) (by decide)).1

/-! ## Panics of unlockCandidates -/

/-- C12 (failing input): one candidate at height 12 whose chain block pays the pool through a
coinbase of one output and has the 3-character hash `abc`: the block fetch succeeds, the
candidate matches and `handleBlock` returns no error, and `unlockCandidates` panics at
`candidate.Hash[0:10]`, so it returns no result and the candidate is in neither list. -/
theorem unlockCandidates_short_hash :
    matchCandidate ⟨Float64.ofNat 1, "", false, 32, 16, true, "MADDR"⟩
        ⟨"abc", "18", 12, [⟨"tx12", [⟨"MADDR", 300000000⟩]⟩]⟩
        ⟨12, 12, "0x12", "", false, 4, none, none⟩ = some true ∧
      handleBlock ⟨Float64.ofNat 1, "", false, 32, 16, true, "MADDR"⟩
        ⟨"abc", "18", 12, [⟨"tx12", [⟨"MADDR", 300000000⟩]⟩]⟩
        ⟨12, 12, "0x12", "", false, 4, none, none⟩ =
          some (⟨12, 12, "0x12", "abc", false, 4, some 300000000, some 0⟩, none) ∧
      unlockCandidates
        (constWorld 100 (fun _ => some ⟨"abc", "18", 12, [⟨"tx12", [⟨"MADDR", 300000000⟩]⟩]⟩)
          [⟨12, 12, "0x12", "", false, 4, none, none⟩])
        ⟨Float64.ofNat 1, "", false, 32, 16, true, "MADDR"⟩
        [⟨12, 12, "0x12", "", false, 4, none, none⟩] ⟨false, none, []⟩ = none := by
  decide!

/-- C19 (failing input): for a block reply with an empty transaction list, and for one whose
coinbase has zero outputs, `matchCandidate` panics at `block.Transactions[0].Outputs[0]` and so
does `unlockCandidates`; `getRewardWithFee`, which would report the zero-output coinbase as an
error, is not reached.  For a matching block with a 9-character hash `unlockCandidates` panics
at `candidate.Hash[0:10]`. -/
theorem unlockCandidates_panics :
    (matchCandidate ⟨Float64.ofNat 1, "", false, 32, 16, true, "MADDR"⟩
        ⟨"00000000cc", "16", 10, []⟩ ⟨10, 10, "0x10", "", false, 4, none, none⟩ = none ∧
      unlockCandidates
        (constWorld 100 (fun _ => some ⟨"00000000cc", "16", 10, []⟩)
          [⟨10, 10, "0x10", "", false, 4, none, none⟩])
        ⟨Float64.ofNat 1, "", false, 32, 16, true, "MADDR"⟩
        [⟨10, 10, "0x10", "", false, 4, none, none⟩] ⟨false, none, []⟩ = none) ∧
    (matchCandidate ⟨Float64.ofNat 1, "", false, 32, 16, true, "MADDR"⟩
        ⟨"00000000cc", "16", 10, [⟨"tx10", []⟩]⟩
        ⟨10, 10, "0x10", "", false, 4, none, none⟩ = none ∧
      getRewardWithFee ⟨"00000000cc", "16", 10, [⟨"tx10", []⟩]⟩ =
        some (.error .coinbaseOutputLength) ∧
      unlockCandidates
        (constWorld 100 (fun _ => some ⟨"00000000cc", "16", 10, [⟨"tx10", []⟩]⟩)
          [⟨10, 10, "0x10", "", false, 4, none, none⟩])
        ⟨Float64.ofNat 1, "", false, 32, 16, true, "MADDR"⟩
        [⟨10, 10, "0x10", "", false, 4, none, none⟩] ⟨false, none, []⟩ = none) ∧
    unlockCandidates
      (constWorld 100
        (fun _ => some ⟨"00000000c", "16", 10, [⟨"tx10", [⟨"MADDR", 300000000⟩]⟩]⟩)
        [⟨10, 10, "0x10", "", false, 4, none, none⟩])
      ⟨Float64.ofNat 1, "", false, 32, 16, true, "MADDR"⟩
      [⟨10, 10, "0x10", "", false, 4, none, none⟩] ⟨false, none, []⟩ = none := by
  decide!

end Pool
